import Mathlib

/-!
# Flux execution core: ChunkBuilder, keys transformation, tables, datasets, map

A shallow embedding of the parts of the Flux execution engine that the
specification talks about, with theorems about them: the chunk builder, the
keys and map transformations, tables and their canonical rendering and diff,
group keys, the last successful run of a task, the histogram transformation
and the sample selector.

Go values that are mutated in place (builders, caches, tables, datasets) are
rendered by explicit state passing: an operation takes the state before and
returns the state after, next to what the Go function returns.
-/

set_option autoImplicit false

namespace Flux

/-! ## Errors (packages `codes` and `internal/errors`) -/

/-- Error codes of package `codes` that the embedded sources use. -/
inductive Code
  | Internal
  | Invalid
  | FailedPrecondition
  | ResourceExhausted
  | Canceled
  | Unimplemented
  | Inherit
deriving DecidableEq, Repr

/-- An error made by `errors.Newf(code, format, ...)`: its code and its message. -/
structure Error where
  code : Code
  msg : String
deriving DecidableEq, Repr

/-! ## Column metadata, dynamic values, records, group keys -/

/-- Modelled from the spec: the column type enumeration of `flux.ColMeta` (the declaration of
`flux.ColType` is not among the sources); the constructor names are the ones the sources
and tests use (`flux.TString`, `flux.TTime`, ...). -/
inductive ColType
  | TBool
  | TInt
  | TUInt
  | TFloat
  | TString
  | TTime
deriving DecidableEq, Repr

/-- The Go struct `flux.ColMeta{Label, Type}`. -/
structure ColMeta where
  Label : String
  Typ : ColType
deriving DecidableEq, Repr

/-- Modelled from the spec: the dynamic value of package `values` (not among the sources),
"a tagged union carrying one of null, bool, int, uint, float, string, time, duration,
regexp, array, object, function, bytes". A float carries its bit pattern; the payload of
the kinds that no column can hold is a description only. -/
inductive Value
  | null
  | bool (b : Bool)
  | int (i : Int)
  | uint (u : Nat)
  | float (bits : Nat)
  | string (s : String)
  | time (t : Int)
  | duration (d : Int)
  | regexp (src : String)
  | array (len : Nat)
  | object (labels : List String)
  | function (name : String)
  | bytes (bs : List Nat)
deriving DecidableEq, Repr

/-- Modelled from the spec: a dynamic record (`values.Object`, not among the sources): its
properties, looked up by label. -/
structure Object where
  props : List (String × Value)
deriving DecidableEq, Repr

/-- Modelled from the spec: the lookup `record.Get(label)` of `values.Object`: the value
and `ok`, here an `Option`. -/
def Object.Get (o : Object) (label : String) : Option Value :=
  (o.props.find? (fun p => p.1 == label)).map (fun p => p.2)

/-- Modelled from the spec: `flux.GroupKey`, "an ordered sequence of (ColMeta, value) pairs". -/
structure GroupKey where
  pairs : List (ColMeta × Value)
deriving DecidableEq, Repr

/-- Modelled from the spec: the columns of a group key, `key.Cols()`. -/
def GroupKey.Cols (k : GroupKey) : List ColMeta := k.pairs.map (fun p => p.1)

/-- Modelled from the spec: the values of a group key, `key.Values()`. -/
def GroupKey.Values (k : GroupKey) : List Value := k.pairs.map (fun p => p.2)

/-! ## Column builders and arrays (packages `array` and `arrow`) -/

/-- Modelled from the spec: a column builder (`array.Builder`, not among the sources), a
"mutable, per-column accumulator" that "supports resizing (capacity hint), appending typed
values (including a missing/null marker), and finalizing into an immutable Array".
`typ` says which concrete builder it is, `vals` are the values appended so far (a null
entry is `Value.null`), `capacity` is the reserved capacity and `released` records a call
of `Release`. -/
structure Builder where
  typ : ColType
  vals : List Value
  capacity : Nat
  released : Bool
deriving DecidableEq, Repr

/-- Modelled from the spec: an immutable array (`array.Array`), the result of `NewArray`:
its entries in row order. -/
abbrev Arr := List Value

/-- Modelled from the spec: `arrow.NewBuilder(typ, mem)`, a fresh empty builder for a column
type. -/
def NewBuilder (typ : ColType) : Builder :=
  { typ := typ, vals := [], capacity := 0, released := false }

/-- Modelled from the spec: `Resize(hintRows)` "(reserve capacity, not semantically
observable)". -/
def Builder.Resize (b : Builder) (size : Int) : Builder :=
  { b with capacity := max b.vals.length size.toNat }

/-- Modelled from the spec: `Append(value)`, which grows the reserved capacity when needed. -/
def Builder.Append (b : Builder) (v : Value) : Builder :=
  { b with vals := b.vals ++ [v], capacity := max b.capacity (b.vals.length + 1) }

/-- Modelled from the spec: `AppendNull()`. -/
def Builder.AppendNull (b : Builder) : Builder := b.Append Value.null

/-- Modelled from the spec: `NewArray()` "finalizes and hands an owned, immutable array to
the caller". The spec calls the builder unusable afterwards and names no check that would
say so; the model has none either, the builder is left without values. -/
def Builder.NewArray (b : Builder) : Arr × Builder :=
  (b.vals, { b with vals := [], capacity := 0 })

/-- Modelled from the spec: `Release()` of a builder. -/
def Builder.Release (b : Builder) : Builder := { b with released := true }

/-- Modelled from the spec: the name of the kind of a dynamic value, as error messages
print it. -/
def Value.kindName : Value → String
  | .null => "null"
  | .bool _ => "bool"
  | .int _ => "int"
  | .uint _ => "uint"
  | .float _ => "float"
  | .string _ => "string"
  | .time _ => "time"
  | .duration _ => "duration"
  | .regexp _ => "regexp"
  | .array _ => "array"
  | .object _ => "object"
  | .function _ => "function"
  | .bytes _ => "bytes"

/-- Modelled from the spec: the column type that can hold a value: the table-representable
scalar kinds have one, null and the other kinds have none. -/
def Value.colType : Value → Option ColType
  | .bool _ => some .TBool
  | .int _ => some .TInt
  | .uint _ => some .TUInt
  | .float _ => some .TFloat
  | .string _ => some .TString
  | .time _ => some .TTime
  | _ => none

/-- Modelled from the spec: `arrow.AppendValue(b, v)` (not among the sources): a null is
appended as a null entry, a value of a table-representable scalar kind is appended to the
builder of its type, and "all others are rejected with a named type error". -/
def AppendValue (b : Builder) (v : Value) : Except Error Builder :=
  match v with
  | .null => .ok b.AppendNull
  | _ =>
    match v.colType with
    | none => .error ⟨.Invalid, "cannot append value of type " ++ v.kindName⟩
    | some t =>
      if t = b.typ then .ok (b.Append v)
      else .error ⟨.Invalid, "cannot append value of type " ++ v.kindName ++ " to this builder"⟩

/-! ## Chunks (packages `arrow` and `execute/table`) -/

/-- The Go struct `arrow.TableBuffer{GroupKey, Columns, Values}`. -/
structure TableBuffer where
  GroupKey : GroupKey
  Columns : List ColMeta
  Values : List Arr
deriving DecidableEq, Repr

/-- Modelled from the spec: `table.Chunk`, the immutable batch that `table.ChunkFromBuffer`
makes of a buffer. -/
structure Chunk where
  buf : TableBuffer
deriving DecidableEq, Repr

/-- Modelled from the spec: `table.ChunkFromBuffer`. -/
def ChunkFromBuffer (buf : TableBuffer) : Chunk := ⟨buf⟩

/-- Modelled from the spec: the group key of a chunk, `Key()`. -/
def Chunk.Key (c : Chunk) : GroupKey := c.buf.GroupKey

/-- Modelled from the spec: the column list of a chunk, `Cols()`. -/
def Chunk.Cols (c : Chunk) : List ColMeta := c.buf.Columns

/-- Modelled from the spec: the row count of a chunk, `Len()`: a chunk is "a batch of
columnar arrays", its rows are the entries of its arrays, so the count is the length of the
first array, and 0 for a chunk without arrays. -/
def Chunk.Len (c : Chunk) : Nat :=
  match c.buf.Values with
  | [] => 0
  | a :: _ => a.length

/-! ## ChunkBuilder (`execute/chunk_builder.go`) -/

/-- The Go struct `ChunkBuilder{cols, builders}`. -/
structure ChunkBuilder where
  cols : List ColMeta
  builders : List Builder
deriving DecidableEq, Repr

/-- `NewChunkBuilder(cols, size, mem)`: one builder per column, resized to the hint. -/
def NewChunkBuilder (cols : List ColMeta) (size : Int) : ChunkBuilder :=
  { cols := cols, builders := cols.map (fun col => (NewBuilder col.Typ).Resize size) }

/-- What a call of `AppendRecord` gives back: `nil`, an error, or a runtime panic of the
Go code (`b.builders[i]` out of range, which needs a ChunkBuilder that `NewChunkBuilder`
did not make). -/
inductive Outcome
  | nil
  | err (e : Error)
  | panic
deriving DecidableEq, Repr

/-- The error `errors.Newf(codes.Internal, "could not find column %s in record", label)`. -/
def missingColumn (label : String) : Error :=
  ⟨.Internal, "could not find column " ++ label ++ " in record"⟩

/-- The loop of `AppendRecord` from column index `i` on: the columns still to visit, the
index of the first of them, and all builders. -/
def appendRecordLoop (record : Object) : List ColMeta → Nat → List Builder → List Builder × Outcome
  | [], _, bs => (bs, .nil)
  | col :: rest, i, bs =>
    match record.Get col.Label with
    | none => (bs, .err (missingColumn col.Label))
    | some v =>
      match bs[i]? with
      | none => (bs, .panic)
      | some bi =>
        match AppendValue bi v with
        | .error e => (bs, .err e)
        | .ok bi' => appendRecordLoop record rest (i + 1) (bs.set i bi')

/-- The loop of `AppendRecord` told on the columns still to visit and on their builders
only (the builders from index `i` on); `appendRecordLoop_eq_appendZip` shows that the loop
does this and leaves the builders before index `i` alone. -/
def appendZip (record : Object) : List ColMeta → List Builder → List Builder × Outcome
  | [], bs => (bs, .nil)
  | col :: rest, bs =>
    match record.Get col.Label with
    | none => (bs, .err (missingColumn col.Label))
    | some v =>
      match bs with
      | [] => ([], .panic)
      | bi :: bs1 =>
        match AppendValue bi v with
        | .error e => (bi :: bs1, .err e)
        | .ok bi' => (bi' :: (appendZip record rest bs1).1, (appendZip record rest bs1).2)

/-- `(*ChunkBuilder).AppendRecord(record)`: the ChunkBuilder afterwards and the result. -/
def ChunkBuilder.AppendRecord (b : ChunkBuilder) (record : Object) : ChunkBuilder × Outcome :=
  let r := appendRecordLoop record b.cols 0 b.builders
  ({ b with builders := r.1 }, r.2)

/-- The loop of `Build`: `NewArray` on every builder in turn; the arrays and the builders
afterwards. -/
def newArrays : List Builder → List Arr × List Builder
  | [] => ([], [])
  | builder :: rest =>
    let r := builder.NewArray
    let rs := newArrays rest
    (r.1 :: rs.1, r.2 :: rs.2)

/-- `(*ChunkBuilder).Build(key)`: the ChunkBuilder afterwards and the chunk. -/
def ChunkBuilder.Build (b : ChunkBuilder) (key : GroupKey) : ChunkBuilder × Chunk :=
  let r := newArrays b.builders
  ({ b with builders := r.2 },
   ChunkFromBuffer { GroupKey := key, Columns := b.cols, Values := r.1 })

/-- A sequence of `AppendRecord` calls on one ChunkBuilder: the ChunkBuilder after the last
call and the result of every call. -/
def ChunkBuilder.AppendRecords (b : ChunkBuilder) : List Object → ChunkBuilder × List Outcome
  | [] => (b, [])
  | r :: rs =>
    let s := b.AppendRecord r
    let t := ChunkBuilder.AppendRecords s.1 rs
    (t.1, s.2 :: t.2)

/-! ## Tables (`flux.Table`) -/

/-- Modelled from the spec: a batch of rows handed to the consumer of a table
(`flux.ColReader`, not among the sources): the key and columns of the table and one array
per column. -/
structure ColReader where
  Key : GroupKey
  Cols : List ColMeta
  Values : List Arr
deriving DecidableEq, Repr

/-- Modelled from the spec: the row count of a batch, `Len()`. -/
def ColReader.Len (cr : ColReader) : Nat :=
  match cr.Values with
  | [] => 0
  | a :: _ => a.length

/-- Modelled from the spec: row `i` of a batch as a record: every column label with the
entry of its array. -/
def ColReader.record (cr : ColReader) (i : Nat) : Object :=
  ⟨List.zipWith (fun (c : ColMeta) (a : Arr) => (c.Label, a.getD i Value.null)) cr.Cols cr.Values⟩

/-- The rows of a batch as records, in row order. -/
def ColReader.records (cr : ColReader) : List Object :=
  (List.range cr.Len).map cr.record

/-- Modelled from the spec: `flux.Table` (no implementation is among the sources), "a
single-pass, read-once sequence of rows sharing one GroupKey": its key, its columns, the
batches it will deliver and whether it has been consumed or marked done. -/
structure Table where
  key : GroupKey
  cols : List ColMeta
  batches : List ColReader
  done : Bool
deriving DecidableEq, Repr

/-- Modelled from the spec: the method `Key()` of a table. -/
def Table.Key (t : Table) : GroupKey := t.key

/-- Modelled from the spec: the method `Cols()` of a table. -/
def Table.Cols (t : Table) : List ColMeta := t.cols

/-- Modelled from the spec: the method `IsDone()` that the table tests ask for
(`input_test.go`). -/
def Table.IsDone (t : Table) : Bool := t.done

/-- Modelled from the spec: `Done()`, "idempotent and always safe to call, releasing any
retained chunks". -/
def Table.Done (t : Table) : Table := { t with batches := [], done := true }

/-- Modelled from the spec: the consumer of `Do` over successive batches, "until exhausted or `fn` returns an
error (short-circuits)". The consumer may change a state of its own. -/
def doBatches {σ : Type} (f : σ → ColReader → σ × Option Error) : σ → List ColReader → σ × Option Error
  | s, [] => (s, none)
  | s, cr :: rest =>
    match f s cr with
    | (s1, some e) => (s1, some e)
    | (s1, none) => doBatches f s1 rest

/-- Modelled from the spec: the error of a second consumption, "a programming error
(`Internal`)". -/
def tableAlreadyRead : Error := ⟨.Internal, "table already read"⟩

/-- Modelled from the spec: `Do(fn)` / `Consume(fn)`: the first call drives `fn` over the
batches and leaves the table done, a call on a table that is done fails with `Internal`. -/
def Table.Do {σ : Type} (t : Table) (f : σ → ColReader → σ × Option Error) (s : σ) :
    Table × σ × Option Error :=
  if t.done then (t, s, some tableAlreadyRead)
  else
    let r := doBatches f s t.batches
    (t.Done, r.1, r.2)

/-- All rows of a table as records, batch after batch. -/
def Table.records (t : Table) : List Object :=
  t.batches.flatMap ColReader.records

/-! ## Table builders and their cache (package `execute`) -/

/-- Modelled from the spec: the name of a column type, as error messages print it (`int`,
`float`, `string` in the expected errors of `map_test.go`). -/
def ColType.name : ColType → String
  | .TBool => "bool"
  | .TInt => "int"
  | .TUInt => "uint"
  | .TFloat => "float"
  | .TString => "string"
  | .TTime => "time"

/-- Modelled from the spec: a rendering of a value for messages (a float by its bit
pattern). -/
def Value.render : Value → String
  | .null => "<nil>"
  | .bool b => toString b
  | .int i => toString i
  | .uint u => toString u
  | .float bits => "float#" ++ toString bits
  | .string s => s
  | .time t => "time#" ++ toString t
  | .duration d => "duration#" ++ toString d
  | .regexp src => src
  | .array _ => "array"
  | .object _ => "object"
  | .function name => name
  | .bytes _ => "bytes"

/-- Modelled from the spec: a rendering of a group key for messages (`%v`): its `label=value` pairs, comma-joined,
in braces. -/
def GroupKey.render (k : GroupKey) : String :=
  "\x7b" ++ ",".intercalate (k.pairs.map (fun p => p.1.Label ++ "=" ++ p.2.render)) ++ "\x7d"

/-- Modelled from the spec: the builder of one output table (`execute.TableBuilder`, not
among the sources): the key of the table, its columns (labels unique) and, per column, the
values appended so far. A table is "a sequence of rows": the rows that are appended while
the builder has no column have no value to keep and are counted in `emptyRows`. -/
structure TableBuilder where
  key : GroupKey
  cols : List ColMeta
  data : List (List Value)
  emptyRows : Nat := 0
deriving DecidableEq, Repr

/-- Modelled from the spec: the method `Cols()` of a table builder. -/
def TableBuilder.Cols (b : TableBuilder) : List ColMeta := b.cols

/-- Modelled from the spec: the method `NRows()` of a table builder: the length of its
first column, and the number of rows counted so far when it has no column. -/
def TableBuilder.NRows (b : TableBuilder) : Nat :=
  match b.data with
  | [] => b.emptyRows
  | a :: _ => a.length

/-- Modelled from the spec: `execute.ColIdx(label, cols)`: the index of the column with
the label, if there is one. -/
def ColIdx (label : String) (cols : List ColMeta) : Option Nat :=
  cols.findIdx? (fun c => c.Label == label)

/-- Modelled from the spec: `AddCol(c)`: labels are "unique within a table's column list",
so a label that is there already is an error; otherwise the column is added at the end,
filled with nulls up to the row count, and its index is returned. -/
def TableBuilder.AddCol (b : TableBuilder) (c : ColMeta) : TableBuilder × Nat × Option Error :=
  match ColIdx c.Label b.cols with
  | some _ =>
    (b, 0, some ⟨.Invalid, "table builder already has column with label " ++ c.Label⟩)
  | none =>
    ({ b with cols := b.cols ++ [c], data := b.data ++ [List.replicate b.NRows Value.null] },
     b.cols.length, none)

/-- Modelled from the spec: `AppendValue(j, v)` of a table builder: a null or a value of
the type of column `j` is appended to that column, any other value is rejected. -/
def TableBuilder.AppendValue (b : TableBuilder) (j : Nat) (v : Value) : TableBuilder × Option Error :=
  match b.cols[j]?, b.data[j]? with
  | some c, some col =>
    if v = Value.null ∨ v.colType = some c.Typ then
      ({ b with data := b.data.set j (col ++ [v]) }, none)
    else
      (b, some ⟨.Invalid, "cannot append value of type " ++ v.kindName ++ " to column "
        ++ c.Label ++ " of type " ++ c.Typ.name⟩)
  | _, _ => (b, some ⟨.Internal, "column index out of range"⟩)

/-- Modelled from the spec: `AppendStrings(j, arr)`: the strings of the array are appended
to column `j`, which must be a string column. -/
def TableBuilder.AppendStrings (b : TableBuilder) (j : Nat) (arr : List String) :
    TableBuilder × Option Error :=
  match b.cols[j]?, b.data[j]? with
  | some c, some col =>
    if c.Typ = ColType.TString then
      ({ b with data := b.data.set j (col ++ arr.map Value.string) }, none)
    else
      (b, some ⟨.Invalid, "column " ++ c.Label ++ " is not of type string"⟩)
  | _, _ => (b, some ⟨.Internal, "column index out of range"⟩)

/-- Modelled from the spec: `execute.AddTableKeyCols(key, builder)`: `AddCol` for every
column of the key, in key order, stopping at the first error. -/
def AddTableKeyCols (key : GroupKey) (builder : TableBuilder) : TableBuilder × Option Error :=
  key.Cols.foldl
    (fun (acc : TableBuilder × Option Error) c =>
      match acc.2 with
      | some _ => acc
      | none => ((acc.1.AddCol c).1, (acc.1.AddCol c).2.2))
    (builder, none)

/-- Modelled from the spec: `execute.AppendKeyValues(key, builder)`: one value per key
column is appended to the column of the builder with that label; a key column that the
builder lacks is an `Internal` error. -/
def AppendKeyValues (key : GroupKey) (builder : TableBuilder) : TableBuilder × Option Error :=
  key.pairs.foldl
    (fun (acc : TableBuilder × Option Error) p =>
      match acc.2 with
      | some _ => acc
      | none =>
        match ColIdx p.1.Label acc.1.cols with
        | none => (acc.1, some ⟨.Internal,
            "group key column " ++ p.1.Label ++ " not found in output table"⟩)
        | some idx => acc.1.AppendValue idx p.2)
    (builder, none)

/-- Modelled from the spec: `execute.TableBuilderCache` (not among the sources), the
"per-group-key builder registry": the builders by key, in the order of their creation. -/
structure TableBuilderCache where
  tables : List (GroupKey × TableBuilder)
deriving DecidableEq, Repr

/-- Modelled from the spec: `execute.NewTableBuilderCache(mem)`: an empty cache. -/
def NewTableBuilderCache : TableBuilderCache := ⟨[]⟩

/-- Modelled from the spec: the builder that the cache holds for a key, if there is one. -/
def TableBuilderCache.lookup (c : TableBuilderCache) (key : GroupKey) : Option TableBuilder :=
  (c.tables.find? (fun p => p.1 = key)).map (fun p => p.2)

/-- Modelled from the spec: the keys for which the cache holds a builder, in the order of
creation. -/
def TableBuilderCache.keys (c : TableBuilderCache) : List GroupKey := c.tables.map (fun p => p.1)

/-- Modelled from the spec: `TableBuilder(key) -> (builder, created)`: "on first request for
a given key within the life of the cache it constructs and returns a fresh builder with
created=true; subsequent requests for the same key return the same builder with
created=false". The cache afterwards, the builder and `created`. -/
def TableBuilderCache.TableBuilder (c : TableBuilderCache) (key : GroupKey) :
    TableBuilderCache × TableBuilder × Bool :=
  match c.lookup key with
  | some b => (c, b, false)
  | none =>
    (⟨c.tables ++ [(key, { key := key, cols := [], data := [] })]⟩,
     { key := key, cols := [], data := [] }, true)

/-- Modelled from the spec: a change made through the builder that the cache handed out: the cache holds the
builder by reference, so the entry of the key is the changed builder. -/
def TableBuilderCache.store (c : TableBuilderCache) (key : GroupKey) (b : Flux.TableBuilder) :
    TableBuilderCache :=
  ⟨c.tables.map (fun p => if p.1 = key then (p.1, b) else p)⟩

/-! ## Datasets (package `execute`) -/

/-- Modelled from the spec: the identity of a dataset or upstream edge,
`execute.DatasetID`. -/
abbrev DatasetID := Nat

/-- Modelled from the spec: a point in time, `execute.Time`: nanoseconds. -/
abbrev Time := Int

/-- Modelled from the spec: the state machine of a dataset, "Running -> Finished, or
Running -> Failed. Both are terminal". -/
inductive DatasetStatus
  | Running
  | Finished
  | Failed
deriving DecidableEq, Repr

/-- Modelled from the spec: a call that a dataset makes on what is downstream of it. -/
inductive Signal
  | RetractTable (key : GroupKey)
  | UpdateWatermark (mark : Time)
  | UpdateProcessingTime (pt : Time)
  | Finish (err : Option Error)
deriving DecidableEq, Repr

/-- Modelled from the spec: `execute.Dataset` (not among the sources), "the runtime object
that owns that node's output buffering and forwards lifecycle events": its id, the number
of its upstream edges that have not finished, its status, and the calls it has made
downstream so far, oldest first. -/
structure Dataset where
  id : DatasetID
  upstream : Nat
  status : DatasetStatus
  downstream : List Signal
deriving DecidableEq, Repr

/-- Modelled from the spec: the error of a call on a dataset in a terminal state, "violations are `Internal`
errors". -/
def datasetFinished : Error := ⟨.Internal, "dataset has finished"⟩

/-- Modelled from the spec: `RetractTable(key)` of a dataset, forwarded downstream while
the dataset is running. -/
def Dataset.RetractTable (d : Dataset) (key : GroupKey) : Dataset × Option Error :=
  match d.status with
  | .Running => ({ d with downstream := d.downstream ++ [Signal.RetractTable key] }, none)
  | _ => (d, some datasetFinished)

/-- Modelled from the spec: `UpdateWatermark(mark)` of a dataset. -/
def Dataset.UpdateWatermark (d : Dataset) (mark : Time) : Dataset × Option Error :=
  match d.status with
  | .Running => ({ d with downstream := d.downstream ++ [Signal.UpdateWatermark mark] }, none)
  | _ => (d, some datasetFinished)

/-- Modelled from the spec: `UpdateProcessingTime(pt)` of a dataset. -/
def Dataset.UpdateProcessingTime (d : Dataset) (pt : Time) : Dataset × Option Error :=
  match d.status with
  | .Running => ({ d with downstream := d.downstream ++ [Signal.UpdateProcessingTime pt] }, none)
  | _ => (d, some datasetFinished)

/-- Modelled from the spec: `Finish(err)` of a dataset: "a Dataset forwards `Finish`
downstream only after all of its upstream edges have finished"; "if any upstream finishes
with a non-nil error, that error short-circuits: it is forwarded immediately without
waiting for siblings, and the Dataset transitions to a failed terminal state that rejects
any further calls". -/
def Dataset.Finish (d : Dataset) (err : Option Error) : Dataset :=
  match d.status with
  | .Running =>
    match err with
    | some e =>
      { d with status := .Failed, downstream := d.downstream ++ [Signal.Finish (some e)] }
    | none =>
      if d.upstream ≤ 1 then
        { d with upstream := 0, status := .Finished,
                 downstream := d.downstream ++ [Signal.Finish none] }
      else
        { d with upstream := d.upstream - 1 }
  | _ => d

/-! ## The keys transformation (`stdlib/universe/keys.go`) -/

/-- The Go struct `KeysOpSpec{Column}`. -/
structure KeysOpSpec where
  Column : String
deriving DecidableEq, Repr

/-- The Go struct `KeysProcedureSpec{Column}`. -/
structure KeysProcedureSpec where
  Column : String
deriving DecidableEq, Repr

/-- The Go struct `keysTransformation{d, cache, column}`. -/
structure keysTransformation where
  d : Dataset
  cache : TableBuilderCache
  column : String
deriving DecidableEq, Repr

/-- `NewKeysTransformation(d, cache, spec)`. -/
def NewKeysTransformation (d : Dataset) (cache : TableBuilderCache) (spec : KeysProcedureSpec) :
    keysTransformation :=
  { d := d, cache := cache, column := spec.Column }

/-- `(*keysTransformation).RetractTable(id, key)`. -/
def keysTransformation.RetractTable (t : keysTransformation) (_id : DatasetID) (key : GroupKey) :
    keysTransformation × Option Error :=
  ({ t with d := (t.d.RetractTable key).1 }, (t.d.RetractTable key).2)

/-- The error `errors.Newf(codes.FailedPrecondition, "keys found duplicate table with key:
%v", tbl.Key())`. -/
def duplicateTable (key : GroupKey) : Error :=
  ⟨.FailedPrecondition, "keys found duplicate table with key: " ++ key.render⟩

/-- The loop `for i := 0; i < len(keys); i++` of `Process`: `AppendKeyValues` that many
times, stopping at the first error. -/
def appendKeyValuesTimes (key : GroupKey) : Nat → TableBuilder → TableBuilder × Option Error
  | 0, builder => (builder, none)
  | n + 1, builder =>
    match AppendKeyValues key builder with
    | (b1, some err) => (b1, some err)
    | (b1, none) => appendKeyValuesTimes key n b1

/-- `(*keysTransformation).Process(id, tbl)`: the transformation and the table afterwards,
and the error. What is done to the builder is done to the builder in the cache. -/
def keysTransformation.Process (t : keysTransformation) (_id : DatasetID) (tbl : Table) :
    keysTransformation × Table × Option Error :=
  match t.cache.TableBuilder tbl.Key with
  | (cache, _, false) => ({ t with cache := cache }, tbl, some (duplicateTable tbl.Key))
  | (cache, builder, true) =>
    let keys := tbl.Key.Cols.map (fun c => c.Label)
    match AddTableKeyCols tbl.Key builder with
    | (b1, some err) => ({ t with cache := cache.store tbl.Key b1 }, tbl, some err)
    | (b1, none) =>
      match b1.AddCol { Label := t.column, Typ := ColType.TString } with
      | (b2, _, some err) => ({ t with cache := cache.store tbl.Key b2 }, tbl, some err)
      | (b2, colIdx, none) =>
        match appendKeyValuesTimes tbl.Key keys.length b2 with
        | (b3, some err) => ({ t with cache := cache.store tbl.Key b3 }, tbl, some err)
        | (b3, none) =>
          match b3.AppendStrings colIdx keys with
          | (b4, some err) => ({ t with cache := cache.store tbl.Key b4 }, tbl, some err)
          | (b4, none) =>
            let r := tbl.Do (fun (_ : Unit) (_ : ColReader) => ((), none)) ()
            ({ t with cache := cache.store tbl.Key b4 }, r.1, r.2.2)

/-- `(*keysTransformation).UpdateWatermark(id, mark)`. -/
def keysTransformation.UpdateWatermark (t : keysTransformation) (_id : DatasetID) (mark : Time) :
    keysTransformation × Option Error :=
  ({ t with d := (t.d.UpdateWatermark mark).1 }, (t.d.UpdateWatermark mark).2)

/-- `(*keysTransformation).UpdateProcessingTime(id, pt)`. -/
def keysTransformation.UpdateProcessingTime (t : keysTransformation) (_id : DatasetID)
    (pt : Time) : keysTransformation × Option Error :=
  ({ t with d := (t.d.UpdateProcessingTime pt).1 }, (t.d.UpdateProcessingTime pt).2)

/-- `(*keysTransformation).Finish(id, err)`. -/
def keysTransformation.Finish (t : keysTransformation) (_id : DatasetID) (err : Option Error) :
    keysTransformation :=
  { t with d := t.d.Finish err }

/-- A sequence of `Process` calls on one keys transformation, each with the id of the
calling upstream edge and a table: the transformation after the last call and, for every
call, what the cache answered to `TableBuilder(tbl.Key())` (`created`), the cache before
and after the call, the table after it and the error. -/
def keysTransformation.ProcessAll (t : keysTransformation) :
    List (DatasetID × Table) → keysTransformation ×
      List (Bool × TableBuilderCache × TableBuilderCache × Table × Option Error)
  | [] => (t, [])
  | (id, tbl) :: rest =>
    let r := t.Process id tbl
    let rs := keysTransformation.ProcessAll r.1 rest
    (rs.1, ((t.cache.TableBuilder tbl.Key).2.2, t.cache, r.1.cache, r.2.1, r.2.2) :: rs.2)

/-! ## The map transformation (`stdlib/universe/map.go`, known from its tests) -/

/-- Modelled from the spec: the kinds of the dynamic value, as the type of a record
property names them (`semantic.Nature`, not among the sources); `Null` is the kind of a
property without a type. -/
inductive Kind
  | null
  | bool
  | int
  | uint
  | float
  | string
  | time
  | duration
  | regexp
  | bytes
  | array
  | object
  | function
deriving DecidableEq, Repr

/-- Modelled from the spec: the name of a kind, as the errors in `map_test.go` print it. -/
def Kind.name : Kind → String
  | .null => "null"
  | .bool => "bool"
  | .int => "int"
  | .uint => "uint"
  | .float => "float"
  | .string => "string"
  | .time => "time"
  | .duration => "duration"
  | .regexp => "regexp"
  | .bytes => "bytes"
  | .array => "array"
  | .object => "object"
  | .function => "function"

/-- Modelled from the spec: `execute.ConvertFromKind`: the column type of a
table-representable scalar kind, none for the other kinds. -/
def ConvertFromKind : Kind → Option ColType
  | .bool => some .TBool
  | .int => some .TInt
  | .uint => some .TUInt
  | .float => some .TFloat
  | .string => some .TString
  | .time => some .TTime
  | _ => none

/-- Modelled from the spec: a map function prepared for the columns of an input table
(`fn.Prepare(cols)`, the compiler is not among the sources): the type of the record it
returns, as the properties and their kinds in the order in which map adds the columns
(sorted by label in the tests), and its evaluation on one input row. -/
structure PreparedFn where
  Typ : List (String × Kind)
  Eval : Object → Except Error Object

/-- Modelled from the spec: the Go struct `MapProcedureSpec{Fn, MergeKey}` of the tests; `Fn` is rendered by what
preparing it for a column list gives. -/
structure MapProcedureSpec where
  Fn : List ColMeta → Except Error PreparedFn
  MergeKey : Bool

/-- Modelled from the spec: the error of `TestMap_Process/error returning * property`. -/
def unsupportedProperty (label : String) (kind : Kind) : Error :=
  ⟨.Invalid, "map object property \"" ++ label ++ "\" is " ++ kind.name
    ++ " type which is not supported in a flux table"⟩

/-- Modelled from the spec: the columns of the output of a map function, from the type of
the record it returns: a property without a type gives no column (test `with null
column`), a property of a table-representable scalar kind gives a column of its type, and
any other property is an error ("explicitly rejected, not silently coerced"). -/
def outputCols : List (String × Kind) → Except Error (List ColMeta)
  | [] => .ok []
  | (label, kind) :: rest =>
    if kind = Kind.null then outputCols rest
    else
      match ConvertFromKind kind with
      | none => .error (unsupportedProperty label kind)
      | some t =>
        match outputCols rest with
        | .error e => .error e
        | .ok cols => .ok (⟨label, t⟩ :: cols)

/-- Modelled from the spec: the output row of a record for a column list: the values of the record under the
labels of the columns, null where the record has none. -/
def project (cols : List ColMeta) (m : Object) : Object :=
  ⟨cols.map (fun c => (c.Label, (m.Get c.Label).getD Value.null))⟩

/-- Modelled from the spec: the group key of an output row, "regroup by new key, never
merge with the old key": the columns of the input key that are columns of the output, in
the order of the input key, with their output types and the values of the output row. -/
def groupKeyForObject (inKey : GroupKey) (cols : List ColMeta) (m : Object) : GroupKey :=
  ⟨inKey.Cols.filterMap (fun kc =>
    (cols.find? (fun c => c.Label == kc.Label)).map
      (fun c => (c, (m.Get c.Label).getD Value.null)))⟩

/-- Modelled from the spec: the error of `TestMap_Process/mismatched types`: the label, the type of the incoming
column and the type of the column that the output table has already. -/
def schemaCollision (label : String) (incoming existing : ColType) : Error :=
  ⟨.FailedPrecondition, "schema collision detected: column \"" ++ label
    ++ "\" is both of type " ++ incoming.name ++ " and " ++ existing.name⟩

/-- Modelled from the spec: one incoming column meets a table builder: chunks that share a
group key "must have mutually consistent ColMeta (same label -> same type)". A label that
the builder has with the same type is kept, one that it has with another type is a schema
collision, and one that it lacks is added, filled with nulls for the rows so far. The
order of the two types in the message is the one of the expected errors of
`TestMap_Process/mismatched types`. -/
def TableBuilder.MergeCol (b : TableBuilder) (c : ColMeta) : TableBuilder × Option Error :=
  match b.cols.find? (fun ec => ec.Label == c.Label) with
  | some ec =>
    if ec.Typ = c.Typ then (b, none)
    else (b, some (schemaCollision c.Label c.Typ ec.Typ))
  | none =>
    ({ b with cols := b.cols ++ [c], data := b.data ++ [List.replicate b.NRows Value.null] },
     none)

/-- Modelled from the spec: the incoming columns meet a table builder one after the other,
up to the first error. -/
def TableBuilder.MergeCols (b : TableBuilder) : List ColMeta → TableBuilder × Option Error
  | [] => (b, none)
  | c :: rest =>
    match b.MergeCol c with
    | (b1, some e) => (b1, some e)
    | (b1, none) => TableBuilder.MergeCols b1 rest

/-- Modelled from the spec: whether a value can stand in a column: a null, or a value of
the type of the column. -/
def fits (c : ColMeta) (v : Value) : Bool :=
  v = Value.null ∨ v.colType = some c.Typ

/-- Modelled from the spec: one row is appended to a table builder: for every column of
the builder the value of the record under its label (null where it has none), unless one
of the values does not fit its column. A builder without columns counts the row. -/
def TableBuilder.AppendRow (b : TableBuilder) (m : Object) : TableBuilder × Option Error :=
  match b.cols.find? (fun c => !fits c ((m.Get c.Label).getD Value.null)) with
  | some c =>
    (b, some ⟨.Invalid, "cannot append value of type "
      ++ ((m.Get c.Label).getD Value.null).kindName ++ " to column " ++ c.Label
      ++ " of type " ++ c.Typ.name⟩)
  | none =>
    ({ b with data := List.zipWith (fun col (c : ColMeta) =>
                col ++ [(m.Get c.Label).getD Value.null]) b.data b.cols,
              emptyRows := if b.cols = [] then b.emptyRows + 1 else b.emptyRows }, none)

/-- Modelled from the spec: one output row goes into the cache: the builder of its key is looked up or created,
the columns of the row meet the builder, and the row is appended. The cache is left as it
was when the row is rejected. -/
def TableBuilderCache.AddRow (cache : TableBuilderCache) (key : GroupKey) (cols : List ColMeta)
    (m : Object) : TableBuilderCache × Option Error :=
  match cache.TableBuilder key with
  | (cache1, b, _) =>
    match b.MergeCols cols with
    | (_, some e) => (cache, some e)
    | (b1, none) =>
      match b1.AppendRow m with
      | (_, some e) => (cache, some e)
      | (b2, none) => (cache1.store key b2, none)

/-- Modelled from the spec: the state of a map transformation: its cache of output tables,
its function and the deprecated flag `mergeKey`, which nothing reads ("deprecated and has
no effect", `map_test.go`). -/
structure mapTransformation where
  cache : TableBuilderCache
  fn : List ColMeta → Except Error PreparedFn
  mergeKey : Bool

/-- Modelled from the spec: `universe.NewMapTransformation(ctx, id, spec, mem)`: a
transformation with an empty cache. -/
def NewMapTransformation (spec : MapProcedureSpec) : mapTransformation :=
  { cache := NewTableBuilderCache, fn := spec.Fn, mergeKey := spec.MergeKey }

/-- Modelled from the spec: map on one input row: the function is evaluated (an error is
wrapped as in test `float("foo") produces error`), the columns of the output are made
from the type of the returned record, the row is projected on them, keyed and put into
the cache. -/
def mapRow (f : PreparedFn) (inKey : GroupKey) (cache : TableBuilderCache) (r : Object) :
    TableBuilderCache × Option Error :=
  match f.Eval r with
  | .error e => (cache, some ⟨.Inherit, "failed to evaluate map function: " ++ e.msg⟩)
  | .ok m =>
    match outputCols f.Typ with
    | .error e => (cache, some e)
    | .ok cols =>
      cache.AddRow (groupKeyForObject inKey cols (project cols m)) cols (project cols m)

/-- Modelled from the spec: map on the rows of one batch, in row order, up to the first
error. -/
def mapRows (f : PreparedFn) (inKey : GroupKey) :
    TableBuilderCache → List Object → TableBuilderCache × Option Error
  | cache, [] => (cache, none)
  | cache, r :: rest =>
    match mapRow f inKey cache r with
    | (cache1, some e) => (cache1, some e)
    | (cache1, none) => mapRows f inKey cache1 rest

/-- Modelled from the spec: `Process(id, tbl)` of the map transformation: the function is
prepared for the columns of the table and the table is consumed batch by batch. -/
def mapTransformation.Process (t : mapTransformation) (_id : DatasetID) (tbl : Table) :
    mapTransformation × Table × Option Error :=
  match t.fn tbl.Cols with
  | .error e => (t, tbl, some e)
  | .ok f =>
    let r := tbl.Do (fun cache (cr : ColReader) => mapRows f tbl.Key cache cr.records) t.cache
    ({ t with cache := r.2.1 }, r.1, r.2.2)

/-- Modelled from the spec: the tables of a test go through `Process` one after the other, as the test helper
`ProcessTestHelper2` does it, up to the first error. -/
def mapTransformation.ProcessAll (t : mapTransformation) :
    List (DatasetID × Table) → mapTransformation × Option Error
  | [] => (t, none)
  | (id, tbl) :: rest =>
    match t.Process id tbl with
    | (t1, _, some e) => (t1, some e)
    | (t1, _, none) => mapTransformation.ProcessAll t1 rest

/-- An output row of map: its group key, its columns and the projected record. -/
structure OutRow where
  key : GroupKey
  cols : List ColMeta
  record : Object

/-- The output row that map makes of an input row, when the function and the making of
the columns succeed. -/
def outputRowOf (f : PreparedFn) (inKey : GroupKey) (r : Object) : Option OutRow :=
  match f.Eval r, outputCols f.Typ with
  | .ok m, .ok cols =>
    some ⟨groupKeyForObject inKey cols (project cols m), cols, project cols m⟩
  | _, _ => none

/-- The output rows of one input table, in input order. -/
def tableOutputRows (fn : List ColMeta → Except Error PreparedFn) (tbl : Table) : List OutRow :=
  match fn tbl.Cols with
  | .ok f => tbl.records.filterMap (outputRowOf f tbl.Key)
  | .error _ => []

/-- The group key `t0=a`. -/
def exampleKey : GroupKey := ⟨[(⟨"t0", .TString⟩, .string "a")]⟩

/-- A table with the key `t0=a`, an int column `_value` and two rows in one batch. -/
def exampleTable : Table :=
  { key := exampleKey
    cols := [⟨"t0", .TString⟩, ⟨"_value", .TInt⟩]
    batches := [{ Key := exampleKey, Cols := [⟨"t0", .TString⟩, ⟨"_value", .TInt⟩],
                  Values := [[.string "a", .string "a"], [.int 1, .int 6]] }]
    done := false }

/-- A running dataset with two upstream edges that has sent nothing downstream. -/
def exampleDataset : Dataset := { id := 7, upstream := 2, status := .Running, downstream := [] }

/-- The kind of the values of a column type. -/
def ColType.kind : ColType → Kind
  | .TBool => .bool
  | .TInt => .int
  | .TUInt => .uint
  | .TFloat => .float
  | .TString => .string
  | .TTime => .time

/-- The map function `(r) => ({_value: r._value, _time: r._time})` of
`TestMap_Process/mismatched types`, prepared for a column list: `_value` has the type of
the input column `_value`. -/
def preparedValueTime (cols : List ColMeta) : PreparedFn :=
  { Typ := [("_time", Kind.time),
            ("_value", ((cols.find? (fun c => c.Label == "_value")).map
                          (fun c => c.Typ.kind)).getD Kind.null)]
    Eval := fun r => .ok ⟨[("_value", (r.Get "_value").getD Value.null),
                           ("_time", (r.Get "_time").getD Value.null)]⟩ }

/-- The map function of `TestMap_Process/mismatched types`. -/
def fnValueTime : List ColMeta → Except Error PreparedFn :=
  fun cols => .ok (preparedValueTime cols)

/-- The first input table of `TestMap_Process/mismatched types`: `_value` is an int. -/
def mismatchedInt : Table :=
  { key := ⟨[]⟩
    cols := [⟨"_time", .TTime⟩, ⟨"_value", .TInt⟩]
    batches := [{ Key := ⟨[]⟩, Cols := [⟨"_time", .TTime⟩, ⟨"_value", .TInt⟩],
                  Values := [[.time 1, .time 2], [.int 1, .int 6]] }]
    done := false }

/-- The second input table of `TestMap_Process/mismatched types`: `_value` is a float
(1.0 and 6.0, by their bit patterns). -/
def mismatchedFloat : Table :=
  { key := ⟨[]⟩
    cols := [⟨"_time", .TTime⟩, ⟨"_value", .TFloat⟩]
    batches := [{ Key := ⟨[]⟩, Cols := [⟨"_time", .TTime⟩, ⟨"_value", .TFloat⟩],
                  Values := [[.time 1, .time 2],
                             [.float 4607182418800017408, .float 4618441417868443648]] }]
    done := false }

/-! ## What the cache of a map transformation holds -/

/-- The map function `(r) => ({_value: ["str"]})` of `TestMap_Process/error returning
array property`: the record it returns has the property `_value` of kind array. -/
def fnArrayValue : List ColMeta → Except Error PreparedFn :=
  fun _ => .ok { Typ := [("_value", Kind.array)], Eval := fun _ => .ok ⟨[("_value", .array 1)]⟩ }

/-- The input table of `TestMap_Process/error returning array property`: one row. -/
def arrayErrorTable : Table :=
  { key := ⟨[]⟩
    cols := [⟨"_time", .TTime⟩, ⟨"_value", .TUInt⟩]
    batches := [{ Key := ⟨[]⟩, Cols := [⟨"_time", .TTime⟩, ⟨"_value", .TUInt⟩],
                  Values := [[.time 1], [.uint 1]] }]
    done := false }

/-! ## The last successful run of a task (`stdlib/influxdata/influxdb/tasks/tasks.go`) -/

/-- Modelled from the spec: the kind of a dynamic value, `v.Type().Nature()` (package
`values` is not among the sources). -/
def Value.Nature : Value → Kind
  | .null => .null
  | .bool _ => .bool
  | .int _ => .int
  | .uint _ => .uint
  | .float _ => .float
  | .string _ => .string
  | .time _ => .time
  | .duration _ => .duration
  | .regexp _ => .regexp
  | .array _ => .array
  | .object _ => .object
  | .function _ => .function
  | .bytes _ => .bytes

/-- Modelled from the spec: `v.IsNull()` of a dynamic value. -/
def Value.IsNull (v : Value) : Bool := v = Value.null

/-- Modelled from the spec: `values.IsTimeable(v)`: the value is a time or a duration. -/
def IsTimeable (v : Value) : Bool :=
  v.Nature = Kind.time || v.Nature = Kind.duration

/-- Modelled from the spec: the arguments of a function call (`interpreter.Arguments`, not
among the sources): the argument object and the names that the function has asked for. -/
structure Arguments where
  obj : Object
  used : List String
deriving DecidableEq, Repr

/-- Modelled from the spec: `interpreter.NewArguments(obj)`. -/
def NewArguments (obj : Object) : Arguments := ⟨obj, []⟩

/-- Modelled from the spec: `args.GetRequired(name)`: the argument of that name, an error
when there is none; the name counts as used. -/
def Arguments.GetRequired (args : Arguments) (name : String) : Arguments × Except Error Value :=
  match args.obj.Get name with
  | some v => ({ args with used := name :: args.used }, .ok v)
  | none =>
    ({ args with used := name :: args.used },
     .error ⟨.Invalid, "missing required keyword argument \"" ++ name ++ "\""⟩)

/-- Modelled from the spec: the names of the arguments that the function has not asked
for. -/
def Arguments.listUnused (args : Arguments) : List String :=
  (args.obj.props.map (fun p => p.1)).filter (fun name => name ∉ args.used)

/-- What a call gives: a value, an error, or a panic of the Go runtime. -/
inductive Returned
  | value (v : Value)
  | error (e : Error)
  | panic (msg : String)
deriving DecidableEq, Repr

/-- Modelled from the spec: `interpreter.DoFunctionCallContext(f, ctx, argsObj)`: the
function is called with the arguments of the object, and a call that returns a value
although arguments are left unused is an error. -/
def DoFunctionCallContext (f : Arguments → Arguments × Returned) (argsObj : Object) : Returned :=
  match f (NewArguments argsObj) with
  | (args, .value v) =>
    if args.listUnused = [] then .value v
    else .error ⟨.Invalid, "unused arguments " ++ toString args.listUnused⟩
  | (_, r) => r

/-- Modelled from the spec: the execution dependencies that the context carries
(`execute.ExecutionDependencies`): `Now` is a pointer, which may be nil. -/
structure ExecutionDependencies where
  Now : Option Time
deriving DecidableEq, Repr

/-- The name of a kind as `%v` prints it in the messages of `LastSuccess`. -/
def natureName (k : Kind) : String :=
  if k = Kind.null then "invalid" else k.name

/-- The function that `LastSuccess` hands to `DoFunctionCallContext`. `add` is
`values.Time.Add` (package `values` is not among the sources): the time that lies a
duration after a time. The match on a duration is the test `orTime.Type().Nature() ==
semantic.Duration` together with `orTime.Duration()`, and a nil `deps.Now` makes
`*deps.Now` panic. -/
def lastSuccessCall (add : Time → Int → Time) (deps : ExecutionDependencies)
    (args : Arguments) : Arguments × Returned :=
  match args.GetRequired "orTime" with
  | (args1, .error err) => (args1, .error err)
  | (args1, .ok orTime) =>
    if !IsTimeable orTime then
      (args1, .error ⟨.Invalid,
        "keyword argument \"orTime\" should be a time or duration, but got "
          ++ natureName orTime.Nature⟩)
    else
      let orTime1 : Option Value :=
        match orTime with
        | .duration d =>
          match deps.Now with
          | some now => some (Value.time (add now d))
          | none => none
        | _ => some orTime
      match orTime1 with
      | none => (args1, .panic "invalid memory address or nil pointer dereference")
      | some orTime2 =>
        match args1.GetRequired "lastSuccessTime" with
        | (args2, .error err) => (args2, .error err)
        | (args2, .ok lastSuccess) =>
          if lastSuccess.IsNull then (args2, .value orTime2)
          else if lastSuccess.Nature ≠ Kind.time then
            (args2, .error ⟨.Invalid,
              "keyword argument \"lastSuccessTime\" should be of kind " ++ natureName Kind.time
                ++ ", but got " ++ natureName lastSuccess.Nature⟩)
          else (args2, .value lastSuccess)

/-- The Go function `LastSuccess(ctx, args)`: "retrieves the last successful run of the
task, or returns the value of the orTime parameter if the task has never successfully
run". The context is rendered by the execution dependencies that it carries. -/
def LastSuccess (add : Time → Int → Time) (deps : ExecutionDependencies) (args : Object) :
    Returned :=
  DoFunctionCallContext (lastSuccessCall add deps) args

/-! ## Equality of group keys -/

/-- Modelled from the spec: the comparison of two sequences of key pairs, pair by pair:
the labels and the values at every position agree, and neither sequence is longer. -/
def equalPairs : List (ColMeta × Value) → List (ColMeta × Value) → Bool
  | [], [] => true
  | p :: ps, q :: qs => p.1.Label == q.1.Label && p.2 == q.2 && equalPairs ps qs
  | _, _ => false

/-- Modelled from the spec: `k1.Equal(k2)` of `flux.GroupKey` (no implementation is among
the sources): "two keys are equal iff same length, same labels in the same order, and
equal values". -/
def GroupKey.Equal (k1 k2 : GroupKey) : Bool := equalPairs k1.pairs k2.pairs

/-- The group key of the tables of `TestDiff`, in the order in which the test gives the
pairs: `_measurement=m0`, `_field=f0`, `t0=a`. -/
def diffKey : GroupKey :=
  ⟨[(⟨"_measurement", .TString⟩, .string "m0"), (⟨"_field", .TString⟩, .string "f0"),
    (⟨"t0", .TString⟩, .string "a")]⟩

/-- The pairs of `diffKey` in the order of their labels. -/
def diffKeySorted : GroupKey :=
  ⟨[(⟨"_field", .TString⟩, .string "f0"), (⟨"_measurement", .TString⟩, .string "m0"),
    (⟨"t0", .TString⟩, .string "a")]⟩

/-! ## Canonical rendering of a table and `Diff` (package `execute/table`, known from
`diff_test.go`) -/

/-- The order of two sequences of characters, as Go compares strings with `<`. -/
def ltChars : List Char → List Char → Bool
  | [], [] => false
  | [], _ :: _ => true
  | _ :: _, [] => false
  | a :: as, b :: bs =>
    if a.toNat < b.toNat then true
    else if b.toNat < a.toNat then false
    else ltChars as bs

/-- The insertion of an element into a list that is in the order of the labels, after the
elements with a label that is not greater. -/
def insertByLabel {α : Type} (label : α → String) (x : α) : List α → List α
  | [] => [x]
  | y :: ys =>
    if ltChars (label x).data (label y).data then x :: y :: ys
    else y :: insertByLabel label x ys

/-- A list in the order of the labels of its elements (stable). -/
def sortByLabel {α : Type} (label : α → String) (xs : List α) : List α :=
  xs.foldr (insertByLabel label) []

/-- A natural number in decimal, filled with zeros on the left up to a width. -/
def padZero (width n : Nat) : String :=
  String.mk (List.replicate (width - (toString n).length) '0') ++ toString n

/-- The civil date (year, month, day) of a count of days since 1970-01-01. -/
def civilFromDays (days : Int) : Int × Int × Int :=
  let z := days + 719468
  let era := z / 146097
  let doe := z % 146097
  let yoe := (doe - doe / 1460 + doe / 36524 - doe / 146096) / 365
  let doy := doe - (365 * yoe + yoe / 4 - yoe / 100)
  let mp := (5 * doy + 2) / 153
  let d := doy - (153 * mp + 2) / 5 + 1
  let m := if mp < 10 then mp + 3 else mp - 9
  let y := yoe + era * 400 + (if m ≤ 2 then 1 else 0)
  (y, m, d)

/-- The digits of the fraction of a second, without the zeros at the end; empty when the
fraction is zero. -/
def fractionDigits (nanos : Nat) : String :=
  if nanos = 0 then ""
  else "." ++ String.mk ((padZero 9 nanos).data.reverse.dropWhile (fun c => c == '0')).reverse

/-- Modelled from the spec: a time (nanoseconds since the Unix epoch, UTC) in the layout
`time.RFC3339Nano` of Go, "timestamps as RFC3339-nanosecond strings": the digits of the
fraction of a second end with the last one that is not zero, and there is no fraction when
it is zero (`2020-01-01T00:00:20Z` in `TestDiff`). -/
def formatRFC3339Nano (t : Int) : String :=
  let secs := t / 1000000000
  let nanos := (t % 1000000000).toNat
  let ymd := civilFromDays (secs / 86400)
  let rem := (secs % 86400).toNat
  padZero 4 ymd.1.toNat ++ "-" ++ padZero 2 ymd.2.1.toNat ++ "-" ++ padZero 2 ymd.2.2.toNat
    ++ "T" ++ padZero 2 (rem / 3600) ++ ":" ++ padZero 2 (rem % 3600 / 60) ++ ":"
    ++ padZero 2 (rem % 60) ++ fractionDigits nanos ++ "Z"

/-- Modelled from the spec: a value in the canonical rendering, "with type-specific
suffixes (e.g., integers suffixed `i`, timestamps as RFC3339-nanosecond strings)". What
the spec and `TestDiff` do not show, the rendering of the other values, is `other`. -/
def cellString (other : Value → String) : Value → String
  | .int i => toString i ++ "i"
  | .time t => formatRFC3339Nano t
  | v => other v

/-- Strings joined by a separator (`strings.Join`). -/
def joinWith (sep : String) : List String → String
  | [] => ""
  | [l] => l
  | l :: ls => l ++ sep ++ joinWith sep ls

/-- Modelled from the spec: the group key in the canonical rendering: its `label=value`
pairs, comma-joined, in the order of the labels (as the expected output of `TestDiff` has
them: `_field`, `_measurement`, `t0` for a key given as `_measurement`, `_field`, `t0`). -/
def keyString (other : Value → String) (k : GroupKey) : String :=
  joinWith "," ((sortByLabel (fun p => p.1.Label) k.pairs).map
    (fun p => p.1.Label ++ "=" ++ cellString other p.2))

/-- Modelled from the spec: the columns of a table that are not columns of its key, in
the order of the labels. -/
def valueCols (t : Table) : List ColMeta :=
  sortByLabel (fun c => c.Label)
    (t.cols.filter (fun c => c.Label ∉ t.key.Cols.map (fun kc => kc.Label)))

/-- Modelled from the spec: the header line of a table: after the mark `# ` that the
expected output of `TestDiff` shows, the group key, a space, and the `label=type` pairs of
the other columns, comma-joined. -/
def headerLine (other : Value → String) (t : Table) : String :=
  "# " ++ keyString other t.key ++ " "
    ++ joinWith "," ((valueCols t).map (fun c => c.Label ++ "=" ++ c.Typ.name))

/-- Modelled from the spec: the line of a row: the group key, a space, and the
`label=value` pairs of the other columns, comma-joined. -/
def rowLine (other : Value → String) (t : Table) (r : Object) : String :=
  keyString other t.key ++ " "
    ++ joinWith "," ((valueCols t).map
        (fun c => c.Label ++ "=" ++ cellString other ((r.Get c.Label).getD Value.null)))

/-- Modelled from the spec: the canonical rendering of a table (`table.Stringify`, not
among the sources), line by line: the header line, then one line per row in row order. -/
def Stringify (other : Value → String) (t : Table) : List String :=
  headerLine other t :: t.records.map (rowLine other t)

/-- The longest common beginning of two lists of lines. -/
def commonPrefix : List String → List String → List String
  | a :: as, b :: bs => if a = b then a :: commonPrefix as bs else []
  | _, _ => []

/-- Modelled from the spec: a "unified-style line diff" of two lists of lines: "unchanged
lines are prefixed with a space, removed lines with `-`, added lines with `+`; an empty
diff string signals exact equality". Between the longest common beginning and the longest
common end of the two lists, the lines of the first list are removed and the lines of the
second are added; of the unchanged lines, the three before and the three after the change
are shown (the context of the expected output of `TestDiff`). -/
def diffLines (a b : List String) : String :=
  if a = b then ""
  else
    let p := commonPrefix a b
    let ra := a.drop p.length
    let rb := b.drop p.length
    let s := (commonPrefix ra.reverse rb.reverse).reverse
    let ma := ra.take (ra.length - s.length)
    let mb := rb.take (rb.length - s.length)
    joinWith "\n" ((p.drop (p.length - 3)).map (fun l => " " ++ l)
      ++ ma.map (fun l => "-" ++ l) ++ mb.map (fun l => "+" ++ l)
      ++ (s.take 3).map (fun l => " " ++ l))

/-- Modelled from the spec: `table.Diff(want, got)` (not among the sources): the line diff
of the canonical renderings of the two tables. -/
def Diff (other : Value → String) (want got : Table) : String :=
  diffLines (Stringify other want) (Stringify other got)

/-- The table of `TestDiff` with the given values: key `_measurement=m0`, `_field=f0`,
`t0=a`, twelve rows, one every ten seconds from 2020-01-01T00:00:00Z. -/
def diffTable (vals : List Int) : Table :=
  { key := diffKey
    cols := [⟨"_measurement", .TString⟩, ⟨"_field", .TString⟩, ⟨"t0", .TString⟩,
             ⟨"_time", .TTime⟩, ⟨"_value", .TInt⟩]
    batches := [{ Key := diffKey,
                  Cols := [⟨"_measurement", .TString⟩, ⟨"_field", .TString⟩,
                           ⟨"t0", .TString⟩, ⟨"_time", .TTime⟩, ⟨"_value", .TInt⟩],
                  Values := [List.replicate 12 (.string "m0"), List.replicate 12 (.string "f0"),
                             List.replicate 12 (.string "a"),
                             (List.range 12).map
                               (fun i => Value.time ((1577836800 + 10 * i) * 1000000000)),
                             vals.map Value.int] }]
    done := false }

/-- The table `wantI` of `TestDiff`. -/
def diffWant : Table := diffTable [6, 7, 4, 12, 3, 9, 5, 6, 5, 1, 8, 4]

/-- The table `gotI` of `TestDiff`: the value of the third row is 3, not 4. -/
def diffGot : Table := diffTable [6, 7, 3, 12, 3, 9, 5, 6, 5, 1, 8, 4]

/-! ## The histogram transformation (`stdlib/universe/histogram.go`, known from its tests) -/

/-- Whether the bits of a 64-bit float are a NaN: the exponent is all ones and the
fraction is not zero. -/
def isNaN (bits : Nat) : Bool :=
  bits / 2 ^ 52 % 2048 = 2047 ∧ bits % 2 ^ 52 ≠ 0

/-- The place of a float that is not a NaN in the order of the floats, from its bits: the
magnitude, negated when the sign bit is set (so that the two zeros have the same place). -/
def floatKey (bits : Nat) : Int :=
  if bits / 2 ^ 63 % 2 = 1 then -((bits % 2 ^ 63 : Nat) : Int) else ((bits % 2 ^ 63 : Nat) : Int)

/-- The comparison `a <= b` of two 64-bit floats, by their bits: false when one is a NaN. -/
def floatLe (a b : Nat) : Bool :=
  !isNaN a && !isNaN b && decide (floatKey a ≤ floatKey b)

/-- The comparison `a < b` of two 64-bit floats, by their bits. -/
def floatLt (a b : Nat) : Bool :=
  !isNaN a && !isNaN b && decide (floatKey a < floatKey b)

/-- The position of the highest bit of a natural number below 2^fuel. -/
def highBit : Nat → Nat → Nat
  | 0, _ => 0
  | fuel + 1, n => if 2 ≤ n then highBit fuel (n / 2) + 1 else 0

/-- The bits of the float of a natural number below 2^53. -/
def floatOfNat (n : Nat) : Nat :=
  if n = 0 then 0
  else (1023 + highBit 64 n) * 2 ^ 52 + n * 2 ^ (52 - highBit 64 n) % 2 ^ 52

/-- The bits of the float `+Inf`. -/
def floatInf : Nat := 2047 * 2 ^ 52

/-- The order by which `sort.Float64s` sorts: `x < y`, and a NaN before every other
float. -/
def lessFloat (x y : Nat) : Bool :=
  floatLt x y || (isNaN x && !isNaN y)

/-- The insertion of a float into a sorted list, after the floats that are less and before
the first float that is not less. -/
def insertFloat (x : Nat) : List Nat → List Nat
  | [] => [x]
  | y :: ys => if lessFloat y x then y :: insertFloat x ys else x :: y :: ys

/-- Modelled from the spec: `sort.Float64s(bins)`, by which the histogram transformation
puts its bins in ascending order when it is made (`TestHistogram_Process/logarithmic
unsorted`; `histogram.go` is not among the sources). Floats of which none is less than the
other (the two zeros, two NaNs) keep the order they had, as in the insertion sort by which
Go sorts a short slice: `[+0, -0]` stays `[+0, -0]`. -/
def sortFloats (bins : List Nat) : List Nat :=
  bins.foldr insertFloat []

/-- Modelled from the spec: the bin of a value: the index of the first of the sorted bins
that the value is at most (`sort.Search`), none when the value is greater than any bin. -/
def searchBin (v : Nat) : List Nat → Option Nat
  | [] => none
  | b :: bs => if floatLe v b then some 0 else (searchBin v bs).map (fun i => i + 1)

/-- Running totals: every count with the counts before it added. -/
def cumulate (total : Nat) : List Nat → List Nat
  | [] => []
  | c :: cs => (c + total) :: cumulate (total + c) cs

/-- The Go struct `universe.HistogramOpSpec` of the tests; the bins are floats, by their
bits. -/
structure HistogramOpSpec where
  Column : String
  UpperBoundColumn : String
  CountColumn : String
  Bins : List Nat
  Normalize : Bool

/-- An entry of the count column, which is a float column: the float of a count, or with
`Normalize` the quotient of the float of a count by the float of the number of values. -/
inductive CountCell
  | whole (count : Nat)
  | quotient (count total : Nat)
deriving DecidableEq, Repr

/-- The number that an entry of the count column stands for. -/
def CountCell.value : CountCell → ℚ
  | .whole count => count
  | .quotient count total => (count : ℚ) / (total : ℚ)

/-- The output table of the histogram of one input table: its key, its columns, and per
row the upper bound (a float, by its bits) and the count. -/
structure HistogramTable where
  key : GroupKey
  cols : List ColMeta
  bounds : List Nat
  counts : List CountCell
deriving DecidableEq, Repr

/-- The floats of a column in a list of rows; nulls are skipped. -/
def floatsOf (column : String) (rows : List Object) : List Nat :=
  rows.filterMap (fun r =>
    match r.Get column with
    | some (Value.float bits) => some bits
    | _ => none)

/-- Modelled from the spec: `Process` of the histogram transformation on one input table
(`histogram.go` is not among the sources; the behaviour is the one of
`TestHistogram_Process`). The value column must be a float column. The table is read, and
every value that is not null is counted in the first of the sorted bins that it is at
most; a value greater than any bin is an error. The output has the key of the input, the
columns of the key, the upper-bound column and the count column, and one row per bin with
the running total of the counts, divided by the number of values when `Normalize` is
set. -/
def histogram (spec : HistogramOpSpec) (tbl : Table) : Except Error HistogramTable :=
  match tbl.cols.find? (fun c => c.Label == spec.Column) with
  | none => .error ⟨.FailedPrecondition, "column \"" ++ spec.Column ++ "\" is missing"⟩
  | some c =>
    if c.Typ ≠ ColType.TFloat then
      .error ⟨.FailedPrecondition, "column \"" ++ spec.Column ++ "\" must be a float got "
        ++ c.Typ.name⟩
    else
      match tbl.Do (fun (vs : List Nat) (cr : ColReader) =>
          (vs ++ floatsOf spec.Column cr.records, (none : Option Error))) [] with
      | (_, _, some e) => .error e
      | (_, vs, none) =>
        match vs.find? (fun v => searchBin v (sortFloats spec.Bins) = none) with
        | some _ => .error ⟨.Internal, "found value greater than any bin"⟩
        | none =>
          .ok { key := tbl.Key
                cols := tbl.Key.Cols ++ [⟨spec.UpperBoundColumn, .TFloat⟩,
                                         ⟨spec.CountColumn, .TFloat⟩]
                bounds := sortFloats spec.Bins
                counts := (cumulate 0 ((List.range (sortFloats spec.Bins).length).map
                    (fun i => (vs.filter
                      (fun v => searchBin v (sortFloats spec.Bins) = some i)).length))).map
                  (fun n => if spec.Normalize then CountCell.quotient n vs.length
                    else CountCell.whole n) }

/-- The input table of `TestHistogram_Process/linear`, with the given values (a value
that is none is a null), in one batch. -/
def histogramInput (vals : List (Option Nat)) : Table :=
  { key := ⟨[(⟨"_start", .TTime⟩, .time 1), (⟨"_stop", .TTime⟩, .time 3)]⟩
    cols := [⟨"_start", .TTime⟩, ⟨"_stop", .TTime⟩, ⟨"_time", .TTime⟩, ⟨"_value", .TFloat⟩]
    batches := [{ Key := ⟨[(⟨"_start", .TTime⟩, .time 1), (⟨"_stop", .TTime⟩, .time 3)]⟩,
                  Cols := [⟨"_start", .TTime⟩, ⟨"_stop", .TTime⟩, ⟨"_time", .TTime⟩,
                           ⟨"_value", .TFloat⟩],
                  Values := [vals.map (fun _ => Value.time 1), vals.map (fun _ => Value.time 3),
                             vals.map (fun _ => Value.time 2),
                             vals.map (fun v =>
                               match v with
                               | some n => Value.float (floatOfNat n)
                               | none => Value.null)] }]
    done := false }

/-- The input table of `TestHistogram_Process/linear`: the values 2, 31, 12, 38, 24, 40,
30, 28, 17, 8. -/
def histogramLinear : Table :=
  histogramInput [some 2, some 31, some 12, some 38, some 24, some 40, some 30, some 28,
    some 17, some 8]

/-- The input table of `TestHistogram_Process/linear+nulls`: three nulls among the values
of `linear`. -/
def histogramNulls : Table :=
  histogramInput [some 2, some 31, some 12, none, some 38, some 24, none, some 40, some 30,
    some 28, none, some 17, some 8]

/-- The spec of `TestHistogram_Process/linear`, with the given bins and `Normalize`. -/
def histogramSpec (bins : List Nat) (normalize : Bool) : HistogramOpSpec :=
  { Column := "_value", UpperBoundColumn := "le", CountColumn := "_value",
    Bins := bins.map floatOfNat, Normalize := normalize }

/-! ## The sample selector (`stdlib/universe/sample.go`, known from its tests) -/

/-- Modelled from the spec: the Go struct `universe.SampleSelector{N, Pos}` of
`sample_test.go` (`sample.go` is not among the sources) with its state: the index in the
next batch of the next row to select, and the indices selected last. -/
structure SampleSelector where
  N : Nat
  Pos : Int
  offset : Nat
  selected : List Nat
deriving DecidableEq, Repr

/-- Modelled from the spec: the start of a selection: the offset is `Pos`, and a number
drawn below `N` (here `rand`) when `Pos` is negative. -/
def SampleSelector.reset (s : SampleSelector) (rand : Nat) : SampleSelector :=
  { s with offset := if s.Pos < 0 then rand % s.N else s.Pos.toNat }

/-- Modelled from the spec: the loop `for i = offset; i < l; i += N` that appends `i` to
the selected indices; the selected indices and the last `i`. The loop does not end when
`N` is zero and the offset is below `l`: then the fuel runs out. -/
def sampleLoop (n l : Nat) : Nat → Nat → List Nat → Option (List Nat × Nat)
  | 0, _, _ => none
  | fuel + 1, i, sel =>
    if i < l then sampleLoop n l fuel (i + n) (sel ++ [i]) else some (sel, i)

/-- Modelled from the spec: the selection in one batch of `l` rows (`DoFloat(vs)` and its
like, which look at the length of the batch only): every `N`-th index from the offset on,
relative to the batch; the offset for the next batch is what the last step went beyond
the batch. -/
def SampleSelector.selectSample (s : SampleSelector) (l : Nat) :
    Option (SampleSelector × List Nat) :=
  match sampleLoop s.N l (l + 1) s.offset [] with
  | none => none
  | some (sel, i) => some ({ s with offset := i - l, selected := sel }, sel)

/-- The selections in the batches of a table, given by their lengths, one after the
other, as the test helper `IndexSelectorFuncTestHelper` collects them. -/
def SampleSelector.selectBatches (s : SampleSelector) :
    List Nat → Option (SampleSelector × List (List Nat))
  | [] => some (s, [])
  | l :: ls =>
    match s.selectSample l with
    | none => none
    | some (s1, sel) =>
      match SampleSelector.selectBatches s1 ls with
      | none => none
      | some (s2, sels) => some (s2, sel :: sels)

/-- The positions in the whole table of the rows selected in its batches: the indices of
every batch, counted from the position at which the batch starts. -/
def positionsFrom (start : Nat) : List Nat → List (List Nat) → List Nat
  | l :: ls, sel :: sels => sel.map (fun i => start + i) ++ positionsFrom (start + l) ls sels
  | _, _ => []

/-! ## The iox dependency (`dependencies/iox/client.go`) -/

/-- The Go type `Config` (`influxdb.Config`, which is not among the sources): the settings
of a client, by name. -/
structure Config where
  settings : List (String × String)
deriving DecidableEq, Repr

/-- A value of the Go interface `Client` that is not nil: an implementation, by its name. -/
structure Client where
  name : String
deriving DecidableEq, Repr

/-- The Go struct `ErrorProvider{}`, which has no fields. -/
structure ErrorProvider where
deriving DecidableEq, Repr

/-- A value of the Go interface `Provider` that is not nil: an `ErrorProvider`, or another
implementation, by its name. A value of the interface is an `Option Provider`, `none` for
nil. -/
inductive Provider
  | errorProvider (u : ErrorProvider)
  | other (name : String)
deriving DecidableEq, Repr

/-- The Go struct `Dependency{Provider}`. -/
structure Dependency where
  Provider : Option Provider
deriving DecidableEq, Repr

/-- A value that a context carries: one stored under `clientKey`, whose type `key` is not
exported, so that only `Inject` stores such a value and it is a `Provider` or nil; or one
stored under a key of another package. -/
inductive ContextEntry
  | client (val : Option Provider)
  | foreign (key val : String)
deriving DecidableEq, Repr

/-- A `context.Context`: the values stored by `context.WithValue`, the last one first. -/
abbrev Context := List ContextEntry

/-- The lookup `ctx.Value(clientKey)`: the value stored last under `clientKey`, nil when
there is none. -/
def Context.clientValue : Context → Option Provider
  | [] => none
  | ContextEntry.client val :: _ => val
  | ContextEntry.foreign _ _ :: rest => Context.clientValue rest

/-- `(Dependency).Inject(ctx)`: `context.WithValue(ctx, clientKey, d.Provider)`. -/
def Dependency.Inject (d : Dependency) (ctx : Context) : Context :=
  ContextEntry.client d.Provider :: ctx

/-- `GetProvider(ctx)`: the provider stored in the context, `ErrorProvider{}` when the
context has none. The result is a value of the interface `Provider`. -/
def GetProvider (ctx : Context) : Option Provider :=
  match ctx.clientValue with
  | none => some (Provider.errorProvider {})
  | some p => some p

/-- `(ErrorProvider).ClientFor(ctx, conf)`: a nil client and an error. -/
def ErrorProvider.ClientFor (_u : ErrorProvider) (_ctx : Context) (_conf : Config) :
    Option Client × Option Error :=
  (none, some ⟨.Invalid, "iox client has not been configured"⟩)

/-! ## Procedure specs of keys and yield (`stdlib/universe/keys.go`, `yield.go`) -/

/-- The Go struct `YieldOpSpec{Name}`. -/
structure YieldOpSpec where
  Name : String
deriving DecidableEq, Repr

/-- The Go struct `YieldProcedureSpec{Name}`. -/
structure YieldProcedureSpec where
  Name : String
deriving DecidableEq, Repr

/-- A value of the Go interface `flux.OperationSpec`: nil, a `*KeysOpSpec`, a
`*YieldOpSpec` (a pointer, which may be a nil pointer: `none`), or a value of another
type, by the name of the type. -/
inductive OperationSpec
  | nil
  | keys (p : Option KeysOpSpec)
  | yield (p : Option YieldOpSpec)
  | other (typeName : String)
deriving DecidableEq, Repr

/-- A value of the Go interface `plan.ProcedureSpec`: nil, a `*KeysProcedureSpec`, a
`*YieldProcedureSpec`, or a value of another type. -/
inductive ProcedureSpec
  | nil
  | keys (p : Option KeysProcedureSpec)
  | yield (p : Option YieldProcedureSpec)
  | other (typeName : String)
deriving DecidableEq, Repr

/-- The type of an operation spec as `%T` prints it. -/
def OperationSpec.typeName : OperationSpec → String
  | .nil => "<nil>"
  | .keys _ => "*universe.KeysOpSpec"
  | .yield _ => "*universe.YieldOpSpec"
  | .other name => name

/-- The type of a procedure spec as `%T` prints it. -/
def ProcedureSpec.typeName : ProcedureSpec → String
  | .nil => "<nil>"
  | .keys _ => "*universe.KeysProcedureSpec"
  | .yield _ => "*universe.YieldProcedureSpec"
  | .other name => name

/-- What a Go function with the results `(value, error)` does: it returns a value and a
nil error, it returns an error, or it panics. -/
inductive Call (α : Type)
  | returns (v : α)
  | fails (e : Error)
  | panics (msg : String)

/-- `newKeysProcedure(qs, pa)`: the type assertion `qs.(*KeysOpSpec)` holds for every
`*KeysOpSpec`, also for a nil pointer, on which `spec.Column` panics. -/
def newKeysProcedure (qs : OperationSpec) : Call ProcedureSpec :=
  match qs with
  | .keys (some spec) => .returns (.keys (some { Column := spec.Column }))
  | .keys none => .panics "invalid memory address or nil pointer dereference"
  | _ => .fails ⟨.Internal, "invalid spec type " ++ qs.typeName⟩

/-- `newYieldProcedure(qs, _)`. -/
def newYieldProcedure (qs : OperationSpec) : Call ProcedureSpec :=
  match qs with
  | .yield (some spec) => .returns (.yield (some { Name := spec.Name }))
  | .yield none => .panics "invalid memory address or nil pointer dereference"
  | _ => .fails ⟨.Internal, "invalid spec type " ++ qs.typeName⟩

/-- Modelled from the spec: `execute.AccumulationMode`. -/
inductive AccumulationMode
  | DiscardingMode
  | AccumulatingMode
deriving DecidableEq, Repr

/-- Modelled from the spec: `execute.NewDataset(id, mode, cache)`: a running dataset that
has sent nothing downstream; it has one upstream edge until more are attached. -/
def NewDataset (id : DatasetID) (_mode : AccumulationMode) (_cache : TableBuilderCache) :
    Dataset :=
  { id := id, upstream := 1, status := .Running, downstream := [] }

/-- `createKeysTransformation(id, mode, spec, a)`: the transformation and the dataset, or
the error (then both are nil). A nil `*KeysProcedureSpec` passes the type assertion, and
`NewKeysTransformation` panics on `spec.Column`. -/
def createKeysTransformation (id : DatasetID) (mode : AccumulationMode) (spec : ProcedureSpec) :
    Call (keysTransformation × Dataset) :=
  match spec with
  | .keys (some s) =>
    .returns (NewKeysTransformation (NewDataset id mode NewTableBuilderCache)
                NewTableBuilderCache s,
              NewDataset id mode NewTableBuilderCache)
  | .keys none => .panics "invalid memory address or nil pointer dereference"
  | _ => .fails ⟨.Internal, "invalid spec type " ++ spec.typeName⟩

/-! ## Int arrays (`arrow/int.go`) -/

/-- `NewIntBuilder(a)`: a fresh builder of ints (a nil allocator stands for the default
allocator; allocators are not modelled). -/
def NewIntBuilder : Builder := NewBuilder ColType.TInt

/-- Modelled from the spec: `UnsafeAppend(v)` of an int builder: the value is appended;
the capacity has been reserved by `Resize`. -/
def Builder.UnsafeAppend (b : Builder) (v : Int) : Builder :=
  { b with vals := b.vals ++ [Value.int v] }

/-- Modelled from the spec: `NewIntArray()` of an int builder, which is `NewArray()` with
the type of the array known. -/
def Builder.NewIntArray (b : Builder) : Arr × Builder := b.NewArray

/-- `NewInt(vs, alloc)`: the array of the values, and the builder as the function leaves
it behind. -/
def NewInt (vs : List Int) : Arr × Builder :=
  let b := NewIntBuilder
  let b := b.Resize vs.length
  let b := vs.foldl (fun b v => b.UnsafeAppend v) b
  let r := b.NewIntArray
  (r.1, r.2.Release)

/-! ## What the size hint of a builder touches -/

/-- A builder without what `Resize` reserves: its type, its values and whether it has
been released. -/
def Builder.eraseCapacity (b : Builder) : Builder := { b with capacity := 0 }

/-! ## The functions of package `regexp` (`stdlib/regexp/regexp.go`) -/

/-- A Go `error` that is not nil: an error of package `internal/errors`, which has a code,
or an error of another package, which has none. -/
inductive GoError
  | flux (e : Error)
  | foreign (msg : String)
deriving DecidableEq, Repr

/-- The code of a Go error, if it has one. -/
def GoError.code? : GoError → Option Code
  | .flux e => some e.code
  | .foreign _ => none

/-- The functions of the Go standard library package `regexp` that `regexp.go` calls. A
compiled regular expression is carried by its source, as `Value.regexp` carries it;
`Compile` gives the compiled expression or the message of the error of the library. -/
structure RegexpLib where
  Compile : String → Except String String
  QuoteMeta : String → String
  FindString : String → String → String
  FindStringIndex : String → String → List Int
  MatchString : String → String → Bool
  ReplaceAllString : String → String → String → String
  Split : String → String → Int → List String
  String : String → String

/-- Modelled from the spec: `v.Str()`: the string of a string value (the Go method panics
on another kind; every call is behind a test of the kind). -/
def Value.Str : Value → String
  | .string s => s
  | _ => ""

/-- Modelled from the spec: `v.Regexp()`: the regular expression of a regexp value. -/
def Value.Regexp : Value → String
  | .regexp src => src
  | _ => ""

/-- Modelled from the spec: `v.Int()`: the integer of an int value. -/
def Value.Int : Value → Int
  | .int i => i
  | _ => 0

/-- The message of the error of the functions with the arguments `r` and `v`. -/
def cannotExecuteRV (r v : Value) : String :=
  "cannot execute function containing argument r of type " ++ natureName r.Nature
    ++ " value " ++ r.render ++ " and argument v of type " ++ natureName v.Nature
    ++ " value " ++ v.render

/-- The message of the error of the functions with the arguments `r`, `v` and a third. -/
def cannotExecuteRVX (r v x : Value) (name : String) : String :=
  "cannot execute function containing argument r of type " ++ natureName r.Nature
    ++ " value " ++ r.render ++ ", argument v of type " ++ natureName v.Nature
    ++ " value " ++ v.render ++ ", and argument " ++ name ++ " of type "
    ++ natureName x.Nature ++ " value " ++ x.render

/-- The function `compile` of `SpecialFns`. -/
def SpecialFns.compile (lib : RegexpLib) (args : Object) : Except GoError Value :=
  match args.Get "v" with
  | none => .error (.flux ⟨.Invalid, "missing argument v"⟩)
  | some v =>
    if !v.IsNull && v.Nature = Kind.string then
      match lib.Compile v.Str with
      | .error err => .error (.foreign err)
      | .ok re => .ok (Value.regexp re)
    else
      .error (.flux ⟨.Invalid, "cannot convert argument v of type " ++ natureName v.Nature
        ++ " value " ++ v.render ++ " to Regex"⟩)

/-- The function `quoteMeta` of `SpecialFns`. -/
def SpecialFns.quoteMeta (lib : RegexpLib) (args : Object) : Except GoError Value :=
  match args.Get "v" with
  | none => .error (.flux ⟨.Invalid, "missing argument v"⟩)
  | some v =>
    if !v.IsNull && v.Nature = Kind.string then
      .ok (Value.string (lib.QuoteMeta v.Str))
    else
      .error (.flux ⟨.Invalid,
        "cannot escape all regular expression metacharacters inside argument v of type "
          ++ natureName v.Nature ++ " value " ++ v.render⟩)

/-- The function `findString` of `SpecialFns`. -/
def SpecialFns.findString (lib : RegexpLib) (args : Object) : Except GoError Value :=
  match args.Get "v", args.Get "r" with
  | some v, some r =>
    if !v.IsNull && !r.IsNull && v.Nature = Kind.string && r.Nature = Kind.regexp then
      .ok (Value.string (lib.FindString r.Regexp v.Str))
    else .error (.flux ⟨.Invalid, cannotExecuteRV r v⟩)
  | _, _ => .error (.flux ⟨.Invalid, "missing argument"⟩)

/-- The function `findStringIndex` of `SpecialFns`; the array is carried by its length. -/
def SpecialFns.findStringIndex (lib : RegexpLib) (args : Object) : Except GoError Value :=
  match args.Get "v", args.Get "r" with
  | some v, some r =>
    if !v.IsNull && !r.IsNull && v.Nature = Kind.string && r.Nature = Kind.regexp then
      .ok (Value.array (lib.FindStringIndex r.Regexp v.Str).length)
    else .error (.flux ⟨.Invalid, cannotExecuteRV r v⟩)
  | _, _ => .error (.flux ⟨.Invalid, "missing argument"⟩)

/-- The function `matchRegexpString` of `SpecialFns`. -/
def SpecialFns.matchRegexpString (lib : RegexpLib) (args : Object) : Except GoError Value :=
  match args.Get "v", args.Get "r" with
  | some v, some r =>
    if !v.IsNull && !r.IsNull && v.Nature = Kind.string && r.Nature = Kind.regexp then
      .ok (Value.bool (lib.MatchString r.Regexp v.Str))
    else .error (.flux ⟨.Invalid, cannotExecuteRV r v⟩)
  | _, _ => .error (.flux ⟨.Invalid, "missing argument"⟩)

/-- The function `replaceAllString` of `SpecialFns`. -/
def SpecialFns.replaceAllString (lib : RegexpLib) (args : Object) : Except GoError Value :=
  match args.Get "r", args.Get "v", args.Get "t" with
  | some r, some v, some t =>
    if !v.IsNull && !t.IsNull && !r.IsNull && v.Nature = Kind.string
        && t.Nature = Kind.string && r.Nature = Kind.regexp then
      .ok (Value.string (lib.ReplaceAllString r.Regexp v.Str t.Str))
    else .error (.flux ⟨.Invalid, cannotExecuteRVX r v t "t"⟩)
  | _, _, _ => .error (.flux ⟨.Invalid, "missing argument"⟩)

/-- The function `splitRegexp` of `SpecialFns`; the array is carried by its length. -/
def SpecialFns.splitRegexp (lib : RegexpLib) (args : Object) : Except GoError Value :=
  match args.Get "r", args.Get "v", args.Get "i" with
  | some r, some v, some i =>
    if !v.IsNull && !i.IsNull && !r.IsNull && v.Nature = Kind.string
        && i.Nature = Kind.int && r.Nature = Kind.regexp then
      .ok (Value.array (lib.Split r.Regexp v.Str i.Int).length)
    else .error (.flux ⟨.Invalid, cannotExecuteRVX r v i "i"⟩)
  | _, _, _ => .error (.flux ⟨.Invalid, "missing argument"⟩)

/-- The function `getString` of `SpecialFns`. -/
def SpecialFns.getString (lib : RegexpLib) (args : Object) : Except GoError Value :=
  match args.Get "r" with
  | none => .error (.flux ⟨.Invalid, "missing argument"⟩)
  | some r =>
    if !r.IsNull && r.Nature = Kind.regexp then
      .ok (Value.string (lib.String r.Regexp))
    else
      .error (.flux ⟨.Invalid, "cannot execute function containing argument r of type "
        ++ natureName r.Nature ++ " value " ++ r.render⟩)

/-- The map `SpecialFns`: the functions of the package by their names. -/
def SpecialFns (lib : RegexpLib) : List (String × (Object → Except GoError Value)) :=
  [("compile", SpecialFns.compile lib), ("quoteMeta", SpecialFns.quoteMeta lib),
   ("findString", SpecialFns.findString lib),
   ("findStringIndex", SpecialFns.findStringIndex lib),
   ("matchRegexpString", SpecialFns.matchRegexpString lib),
   ("replaceAllString", SpecialFns.replaceAllString lib),
   ("splitRegexp", SpecialFns.splitRegexp lib), ("getString", SpecialFns.getString lib)]

/-- The arguments that a function of package `regexp` requires, with their kinds. -/
def requiredArgs (name : String) : List (String × Kind) :=
  if name = "compile" ∨ name = "quoteMeta" then [("v", Kind.string)]
  else if name = "findString" ∨ name = "findStringIndex" ∨ name = "matchRegexpString" then
    [("v", Kind.string), ("r", Kind.regexp)]
  else if name = "replaceAllString" then
    [("r", Kind.regexp), ("v", Kind.string), ("t", Kind.string)]
  else if name = "splitRegexp" then [("r", Kind.regexp), ("v", Kind.string), ("i", Kind.int)]
  else [("r", Kind.regexp)]

/-- All the arguments of the list are present in the argument object, and each is a value
of its kind (so it is not null). -/
def argsPresent (req : List (String × Kind)) (args : Object) : Prop :=
  ∀ p ∈ req, ∃ v, args.Get p.1 = some v ∧ v ≠ Value.null ∧ v.Nature = p.2

/-- A regexp library for examples: it compiles every string but `(`. -/
def exampleRegexpLib : RegexpLib :=
  { Compile := fun s =>
      if s = "(" then .error "error parsing regexp: missing closing ): (" else .ok s
    QuoteMeta := fun s => s
    FindString := fun _ v => v
    FindStringIndex := fun _ _ => []
    MatchString := fun _ _ => true
    ReplaceAllString := fun _ v _ => v
    Split := fun _ v _ => [v]
    String := fun r => r }

/-- The output table of `keys` for a group key in the words of the specification, to be
compared with what `Process` builds: "columns are the m key columns followed by one string
column named by the `column` setting, with exactly m rows: row i carries the group key's
values in the key columns and the label l_i in the string column". -/
def keysOutputSpec (key : GroupKey) (column : String) : TableBuilder :=
  { key := key
    cols := key.Cols ++ [{ Label := column, Typ := ColType.TString }]
    data := key.pairs.map (fun p => List.replicate key.Cols.length p.2)
      ++ [(key.Cols.map (fun c => c.Label)).map Value.string] }

/-! # Theorems -/

/-! ## ChunkBuilder: the loop of `AppendRecord` -/
theorem appendRecordLoop_eq_appendZip (record : Object) (cols : List ColMeta) :
    ∀ (pre bs : List Builder),
      appendRecordLoop record cols pre.length (pre ++ bs)
        = (pre ++ (appendZip record cols bs).1, (appendZip record cols bs).2) := by
  induction cols with
  | nil => intro pre bs; simp [appendRecordLoop, appendZip]
  | cons col rest ih =>
    intro pre bs
    cases hg : record.Get col.Label with
    | none => simp [appendRecordLoop, appendZip, hg]
    | some v =>
      cases bs with
      | nil => simp [appendRecordLoop, appendZip, hg]
      | cons bi bs1 =>
        have hget : (pre ++ bi :: bs1)[pre.length]? = some bi := by
          rw [List.getElem?_append_right (Nat.le_refl _)]; simp
        have hset : (pre ++ bi :: bs1).set pre.length = fun x => pre ++ x :: bs1 := by
          funext x; simp
        cases ha : AppendValue bi v with
        | error e => simp only [appendRecordLoop, appendZip, hg, hget, ha]
        | ok bi' =>
          have h := ih (pre ++ [bi']) bs1
          simp only [List.length_append, List.length_singleton, List.append_assoc,
            List.singleton_append] at h
          simp only [appendRecordLoop, appendZip, hg, hget, ha, hset, h]

theorem AppendRecord_eq_appendZip (b : ChunkBuilder) (record : Object) :
    b.AppendRecord record
      = ({ b with builders := (appendZip record b.cols b.builders).1 },
         (appendZip record b.cols b.builders).2) := by
  have h := appendRecordLoop_eq_appendZip record b.cols [] b.builders
  simp only [List.length_nil, List.nil_append] at h
  simp [ChunkBuilder.AppendRecord, h]

theorem AppendValue_ok_eq {b b1 : Builder} {v : Value} (h : AppendValue b v = .ok b1) :
    b1 = b.Append v := by
  unfold AppendValue at h
  cases v <;> simp only [Builder.AppendNull, Value.colType] at h
  case null => exact (Except.ok.inj h).symm
  all_goals
    first
    | (split at h
       · exact (Except.ok.inj h).symm
       · exact absurd h (by simp))
    | exact absurd h (by simp)

theorem appendZip_length (record : Object) (cols : List ColMeta) :
    ∀ bs : List Builder, (appendZip record cols bs).1.length = bs.length := by
  induction cols with
  | nil => intro bs; simp [appendZip]
  | cons col rest ih =>
    intro bs
    cases hg : record.Get col.Label with
    | none => simp [appendZip, hg]
    | some v =>
      cases bs with
      | nil => simp [appendZip, hg]
      | cons bi bs1 =>
        cases ha : AppendValue bi v with
        | error e => simp [appendZip, hg, ha]
        | ok bi1 => simp [appendZip, hg, ha, ih bs1]

/-- What it means that the loop of `AppendRecord` gets through a column: the record has a
value under its label and `AppendValue` takes it. -/
theorem appendZip_nil_iff (record : Object) (cols : List ColMeta) :
    ∀ bs : List Builder, bs.length = cols.length →
      ((appendZip record cols bs).2 = .nil ↔
        List.Forall₂ (fun (c : ColMeta) (b : Builder) =>
          ∃ v b1, record.Get c.Label = some v ∧ AppendValue b v = .ok b1) cols bs) := by
  induction cols with
  | nil =>
    intro bs hlen
    cases bs with
    | nil => simp [appendZip]
    | cons _ _ => simp at hlen
  | cons col rest ih =>
    intro bs hlen
    cases bs with
    | nil => simp at hlen
    | cons bi bs1 =>
      have hlen1 : bs1.length = rest.length := by simpa using hlen
      rw [List.forall₂_cons]
      cases hg : record.Get col.Label with
      | none => simp [appendZip, hg]
      | some v =>
        cases ha : AppendValue bi v with
        | error e => simp [appendZip, hg, ha]
        | ok bi1 => simp [appendZip, hg, ha, ih bs1 hlen1]

theorem appendZip_of_nil (record : Object) (cols : List ColMeta) :
    ∀ bs : List Builder, bs.length = cols.length → (appendZip record cols bs).2 = .nil →
      (appendZip record cols bs).1
        = List.zipWith (fun (c : ColMeta) (b : Builder) =>
            b.Append ((record.Get c.Label).getD Value.null)) cols bs
      ∧ ∀ c ∈ cols, ∃ v, record.Get c.Label = some v := by
  induction cols with
  | nil =>
    intro bs hlen _
    cases bs with
    | nil => simp [appendZip]
    | cons _ _ => simp at hlen
  | cons col rest ih =>
    intro bs hlen hnil
    cases bs with
    | nil => simp at hlen
    | cons bi bs1 =>
      have hlen1 : bs1.length = rest.length := by simpa using hlen
      cases hg : record.Get col.Label with
      | none => simp [appendZip, hg] at hnil
      | some v =>
        cases ha : AppendValue bi v with
        | error e => simp [appendZip, hg, ha] at hnil
        | ok bi1 =>
          simp only [appendZip, hg, ha] at hnil
          obtain ⟨h1, h2⟩ := ih bs1 hlen1 hnil
          refine ⟨?_, ?_⟩
          · simp [appendZip, hg, ha, h1, AppendValue_ok_eq ha]
          · intro c hc
            rcases List.mem_cons.mp hc with rfl | hc
            · exact ⟨v, hg⟩
            · exact h2 c hc

theorem zipWith_zipWith_right {α β γ δ : Type} (g : α → γ → δ) (f : α → β → γ) :
    ∀ (l : List α) (bs : List β),
      List.zipWith g l (List.zipWith f l bs) = List.zipWith (fun a b => g a (f a b)) l bs := by
  intro l
  induction l with
  | nil => intro bs; simp
  | cons a l ih =>
    intro bs
    cases bs with
    | nil => simp
    | cons b bs => simp [ih bs]

theorem zipWith_map_self {α β γ : Type} (g : α → β → γ) (f : α → β) :
    ∀ l : List α, List.zipWith g l (l.map f) = l.map (fun a => g a (f a)) := by
  intro l
  induction l with
  | nil => simp
  | cons a l ih => simp [ih]

theorem newArrays_fst : ∀ bs : List Builder, (newArrays bs).1 = bs.map (fun b => b.vals) := by
  intro bs
  induction bs with
  | nil => simp [newArrays]
  | cons b bs ih => simp [newArrays, ih, Builder.NewArray]

theorem newArrays_snd : ∀ bs : List Builder,
    (newArrays bs).2 = bs.map (fun b => b.NewArray.2) := by
  intro bs
  induction bs with
  | nil => simp [newArrays]
  | cons b bs ih => simp [newArrays, ih]

theorem AppendRecord_cols (b : ChunkBuilder) (record : Object) :
    (b.AppendRecord record).1.cols = b.cols := by
  simp [ChunkBuilder.AppendRecord]

theorem AppendRecord_builders_length (b : ChunkBuilder) (record : Object) :
    (b.AppendRecord record).1.builders.length = b.builders.length := by
  rw [AppendRecord_eq_appendZip]
  exact appendZip_length record b.cols b.builders

/-- After calls of `AppendRecord` that all returned nil, every builder holds, after what
it held before, the values of the records under the label of its column, in call order. -/
theorem AppendRecords_all_nil (recs : List Object) :
    ∀ b : ChunkBuilder, b.builders.length = b.cols.length →
      (∀ o ∈ (b.AppendRecords recs).2, o = Outcome.nil) →
      (b.AppendRecords recs).1.cols = b.cols
      ∧ (b.AppendRecords recs).1.builders.map (fun x => x.vals)
          = List.zipWith (fun (c : ColMeta) (x : Builder) =>
              x.vals ++ recs.map (fun r => (r.Get c.Label).getD Value.null)) b.cols b.builders
      ∧ ∀ r ∈ recs, ∀ c ∈ b.cols, ∃ v, r.Get c.Label = some v := by
  induction recs with
  | nil =>
    intro b hlen _
    refine ⟨rfl, ?_, by simp⟩
    simp only [ChunkBuilder.AppendRecords, List.map_nil, List.append_nil]
    clear * - hlen
    generalize b.cols = cols at hlen
    generalize b.builders = bs at hlen
    induction bs generalizing cols with
    | nil => simp
    | cons x bs ih =>
      cases cols with
      | nil => simp at hlen
      | cons c cols => simp [ih cols (by simpa using hlen)]
  | cons r rs ih =>
    intro b hlen hall
    have hstep : (b.AppendRecord r).2 = Outcome.nil :=
      hall _ (by simp [ChunkBuilder.AppendRecords])
    have hrest : ∀ o ∈ ((b.AppendRecord r).1.AppendRecords rs).2, o = Outcome.nil := by
      intro o ho
      exact hall o (by simp [ChunkBuilder.AppendRecords, ho])
    have hz := AppendRecord_eq_appendZip b r
    have hnil : (appendZip r b.cols b.builders).2 = Outcome.nil := by
      rw [hz] at hstep; exact hstep
    obtain ⟨hb1, hget⟩ := appendZip_of_nil r b.cols b.builders hlen hnil
    have hlen1 : (b.AppendRecord r).1.builders.length = (b.AppendRecord r).1.cols.length := by
      rw [AppendRecord_builders_length, AppendRecord_cols]; exact hlen
    obtain ⟨hc, hv, hg⟩ := ih (b.AppendRecord r).1 hlen1 hrest
    refine ⟨?_, ?_, ?_⟩
    · simpa [ChunkBuilder.AppendRecords, AppendRecord_cols] using hc
    · have hbs : (b.AppendRecord r).1.builders
          = List.zipWith (fun (c : ColMeta) (x : Builder) =>
              x.Append ((r.Get c.Label).getD Value.null)) b.cols b.builders := by
        rw [hz]; exact hb1
      simp only [ChunkBuilder.AppendRecords]
      rw [hv, AppendRecord_cols, hbs, zipWith_zipWith_right]
      simp [Builder.Append]
    · intro r1 hr1 c hc1
      rcases List.mem_cons.mp hr1 with rfl | hr1
      · exact hget c hc1
      · exact hg r1 hr1 c (by rw [AppendRecord_cols]; exact hc1)

theorem NewChunkBuilder_wf (cols : List ColMeta) (size : Int) :
    (NewChunkBuilder cols size).builders.length = (NewChunkBuilder cols size).cols.length := by
  simp [NewChunkBuilder]

/-- The chunk that `Build` returns after calls of `AppendRecord` on a fresh ChunkBuilder
that all returned nil. -/
theorem Build_after_AppendRecords (cols : List ColMeta) (size : Int) (k : GroupKey)
    (recs : List Object)
    (hall : ∀ o ∈ ((NewChunkBuilder cols size).AppendRecords recs).2, o = Outcome.nil) :
    (((NewChunkBuilder cols size).AppendRecords recs).1.Build k).2
      = ChunkFromBuffer (TableBuffer.mk k cols
          (cols.map (fun c => recs.map (fun r => (r.Get c.Label).getD Value.null)))) := by
  obtain ⟨hc, hv, _⟩ :=
    AppendRecords_all_nil recs (NewChunkBuilder cols size) (NewChunkBuilder_wf cols size) hall
  simp only [ChunkBuilder.Build, newArrays_fst, hc, hv]
  simp [NewChunkBuilder, zipWith_map_self, NewBuilder, Builder.Resize]

/-- The loop stops at the first column that the record lacks or whose value `AppendValue`
rejects, provided it got through all columns before it. -/
theorem appendZip_first_stop (record : Object) :
    ∀ (i : Nat) (cols : List ColMeta) (bs : List Builder) (c : ColMeta) (bi : Builder),
      (∀ j, j < i → ∀ cj bj, cols[j]? = some cj → bs[j]? = some bj →
        ∃ v b1, record.Get cj.Label = some v ∧ AppendValue bj v = .ok b1) →
      cols[i]? = some c → bs[i]? = some bi →
      (record.Get c.Label = none →
        (appendZip record cols bs).2 = .err (missingColumn c.Label))
      ∧ (∀ v e, record.Get c.Label = some v → AppendValue bi v = .error e →
        (appendZip record cols bs).2 = .err e) := by
  intro i
  induction i with
  | zero =>
    intro cols bs c bi _ hc hb
    cases cols with
    | nil => simp at hc
    | cons c0 rest =>
      cases bs with
      | nil => simp at hb
      | cons b0 bs1 =>
        simp only [List.getElem?_cons_zero, Option.some.injEq] at hc hb
        subst hc; subst hb
        refine ⟨?_, ?_⟩
        · intro hg; simp [appendZip, hg]
        · intro v e hg ha; simp [appendZip, hg, ha]
  | succ i ih =>
    intro cols bs c bi hprev hc hb
    cases cols with
    | nil => simp at hc
    | cons c0 rest =>
      cases bs with
      | nil => simp at hb
      | cons b0 bs1 =>
        simp only [List.getElem?_cons_succ] at hc hb
        obtain ⟨v0, b01, hg0, ha0⟩ := hprev 0 (Nat.succ_pos i) c0 b0 (by simp) (by simp)
        have hprev1 : ∀ j, j < i → ∀ cj bj, rest[j]? = some cj → bs1[j]? = some bj →
            ∃ v b1, record.Get cj.Label = some v ∧ AppendValue bj v = .ok b1 := by
          intro j hj cj bj hcj hbj
          exact hprev (j + 1) (Nat.succ_lt_succ hj) cj bj (by simpa using hcj) (by simpa using hbj)
        obtain ⟨h1, h2⟩ := ih rest bs1 c bi hprev1 hc hb
        refine ⟨?_, ?_⟩
        · intro hg; simp [appendZip, hg0, ha0, h1 hg]
        · intro v e hg ha; simp [appendZip, hg0, ha0, h2 v e hg ha]

/-- A column that the record lacks, or whose value `AppendValue` rejects, makes the loop
return an error, and the builders from that column on are as they were. -/
theorem appendZip_stop_before (record : Object) :
    ∀ (i : Nat) (cols : List ColMeta) (bs : List Builder) (c : ColMeta) (bi : Builder),
      cols[i]? = some c → bs[i]? = some bi →
      (record.Get c.Label = none ∨
        ∃ v e, record.Get c.Label = some v ∧ AppendValue bi v = .error e) →
      (∃ e, (appendZip record cols bs).2 = .err e)
      ∧ (appendZip record cols bs).1.drop i = bs.drop i := by
  intro i
  induction i with
  | zero =>
    intro cols bs c bi hc hb hstop
    cases cols with
    | nil => simp at hc
    | cons c0 rest =>
      cases bs with
      | nil => simp at hb
      | cons b0 bs1 =>
        simp only [List.getElem?_cons_zero, Option.some.injEq] at hc hb
        subst hc; subst hb
        rcases hstop with hg | ⟨v, e, hg, ha⟩
        · simp [appendZip, hg]
        · simp [appendZip, hg, ha]
  | succ i ih =>
    intro cols bs c bi hc hb hstop
    cases cols with
    | nil => simp at hc
    | cons c0 rest =>
      cases bs with
      | nil => simp at hb
      | cons b0 bs1 =>
        simp only [List.getElem?_cons_succ] at hc hb
        cases hg0 : record.Get c0.Label with
        | none => simp [appendZip, hg0]
        | some v0 =>
          cases ha0 : AppendValue b0 v0 with
          | error e0 => simp [appendZip, hg0, ha0]
          | ok b01 =>
            obtain ⟨h1, h2⟩ := ih rest bs1 c bi hc hb hstop
            simp [appendZip, hg0, ha0, h1, h2]

theorem appendZip_no_panic (record : Object) (cols : List ColMeta) :
    ∀ bs : List Builder, bs.length = cols.length →
      (appendZip record cols bs).2 ≠ Outcome.panic := by
  induction cols with
  | nil => intro bs _; simp [appendZip]
  | cons col rest ih =>
    intro bs hlen
    cases bs with
    | nil => simp at hlen
    | cons bi bs1 =>
      cases hg : record.Get col.Label with
      | none => simp [appendZip, hg]
      | some v =>
        cases ha : AppendValue bi v with
        | error e => simp [appendZip, hg, ha]
        | ok b1 =>
          simp only [appendZip, hg, ha]
          exact ih bs1 (by simpa using hlen)

theorem forall₂_of_getElem? {α β : Type} (R : α → β → Prop) :
    ∀ (l : List α) (m : List β), l.length = m.length →
      (∀ (j : Nat) a b, l[j]? = some a → m[j]? = some b → R a b) → List.Forall₂ R l m := by
  intro l
  induction l with
  | nil =>
    intro m hlen _
    cases m with
    | nil => exact List.Forall₂.nil
    | cons _ _ => simp at hlen
  | cons a l ih =>
    intro m hlen h
    cases m with
    | nil => simp at hlen
    | cons b m =>
      refine List.Forall₂.cons (h 0 a b (by simp) (by simp)) (ih m (by simpa using hlen) ?_)
      intro j a1 b1 ha1 hb1
      exact h (j + 1) a1 b1 (by simpa using ha1) (by simpa using hb1)

theorem getElem?_of_forall₂ {α β : Type} (R : α → β → Prop) :
    ∀ (l : List α) (m : List β), List.Forall₂ R l m →
      ∀ (j : Nat) a b, l[j]? = some a → m[j]? = some b → R a b := by
  intro l m h
  induction h with
  | nil => intro j a b ha; simp at ha
  | cons hab _ ih =>
    intro j a b ha hb
    cases j with
    | zero =>
      simp only [List.getElem?_cons_zero, Option.some.injEq] at ha hb
      subst ha; subst hb; exact hab
    | succ j => exact ih j a b (by simpa using ha) (by simpa using hb)

theorem appendZip_congr (r r1 : Object) (cols : List ColMeta) :
    (∀ c ∈ cols, r.Get c.Label = r1.Get c.Label) →
      ∀ bs : List Builder, appendZip r cols bs = appendZip r1 cols bs := by
  induction cols with
  | nil => intro _ bs; simp [appendZip]
  | cons col rest ih =>
    intro h bs
    have h0 : r.Get col.Label = r1.Get col.Label := h col (by simp)
    have hr := ih (fun c hc => h c (by simp [hc]))
    cases hg : r1.Get col.Label with
    | none => simp [appendZip, h0, hg]
    | some v =>
      cases bs with
      | nil => simp [appendZip, h0, hg]
      | cons bi bs1 => simp [appendZip, h0, hg, hr bs1]

theorem AppendRecords_congr (recs recs1 : List Object) (cols : List ColMeta)
    (h : List.Forall₂ (fun r r1 => ∀ c ∈ cols, r.Get c.Label = r1.Get c.Label) recs recs1) :
    ∀ b : ChunkBuilder, b.cols = cols → b.AppendRecords recs = b.AppendRecords recs1 := by
  induction h with
  | nil => intro b _; rfl
  | cons hr _ ih =>
    intro b hb
    have h1 := AppendRecord_eq_appendZip b
    simp only [ChunkBuilder.AppendRecords, h1, hb, appendZip_congr _ _ cols hr]
    rw [ih _ rfl]

/-! ## ChunkBuilder: the claims -/

/-- C1 (as amended): after `n` calls of `AppendRecord` on a fresh ChunkBuilder that all
returned nil, `Build(k)` returns a chunk whose group key is `k`; its row count is `n` when
the column list is not empty, and 0 when the column list is empty. -/
theorem C1_build_key_and_row_count (cols : List ColMeta) (size : Int) (k : GroupKey)
    (recs : List Object)
    (hall : ∀ o ∈ ((NewChunkBuilder cols size).AppendRecords recs).2, o = Outcome.nil) :
    (((NewChunkBuilder cols size).AppendRecords recs).1.Build k).2.Key = k
    ∧ (cols ≠ [] →
        (((NewChunkBuilder cols size).AppendRecords recs).1.Build k).2.Len = recs.length)
    ∧ (cols = [] →
        (((NewChunkBuilder cols size).AppendRecords recs).1.Build k).2.Len = 0) := by
  rw [Build_after_AppendRecords cols size k recs hall]
  refine ⟨rfl, ?_, ?_⟩
  · intro hne
    cases cols with
    | nil => exact absurd rfl hne
    | cons c cols => simp [ChunkFromBuffer, Chunk.Len]
  · intro he
    subst he
    simp [ChunkFromBuffer, Chunk.Len]

/-- Witness of C1: one int column, two records (the second with a null). -/
theorem C1_build_key_and_row_count_witness :
    (((NewChunkBuilder [⟨"a", .TInt⟩] 4).AppendRecords
        [⟨[("a", .int 1)]⟩, ⟨[("x", .array 0), ("a", .null)]⟩]).1.Build ⟨[]⟩).2.Len = 2 :=
  (C1_build_key_and_row_count [⟨"a", .TInt⟩] 4 ⟨[]⟩
    [⟨[("a", .int 1)]⟩, ⟨[("x", .array 0), ("a", .null)]⟩] (by decide)).2.1 (by decide)

/-- C1 fails as stated for the empty column list: one call of `AppendRecord` returns nil,
and the chunk that `Build` returns has no arrays and so no rows; it is the same chunk as
after two calls. -/
theorem C1_counterexample :
    ((NewChunkBuilder [] 0).AppendRecords [⟨[]⟩]).2 = [Outcome.nil]
    ∧ (((NewChunkBuilder [] 0).AppendRecords [⟨[]⟩]).1.Build ⟨[]⟩).2.Len = 0
    ∧ (((NewChunkBuilder [] 0).AppendRecords [⟨[]⟩]).1.Build ⟨[]⟩).2.Len ≠ [(⟨[]⟩ : Object)].length
    ∧ (((NewChunkBuilder [] 0).AppendRecords [⟨[]⟩]).1.Build ⟨[]⟩).2
        = (((NewChunkBuilder [] 0).AppendRecords [⟨[]⟩, ⟨[]⟩]).1.Build ⟨[]⟩).2 := by
  decide

/-- C2: on a ChunkBuilder with one builder per column, (1) a record that lacks the label
of some column makes `AppendRecord` return a non-nil error; (2) when the record lacks the
label of column `i` and the values of all earlier columns were appended successfully, the
error has code `Internal` and names column `i`; (3) when the record has, for every column,
a value that `AppendValue` takes, `AppendRecord` returns nil. -/
theorem C2_appendRecord_missing_column (b : ChunkBuilder) (record : Object)
    (hwf : b.builders.length = b.cols.length) :
    ((∃ c ∈ b.cols, record.Get c.Label = none) → ∃ e, (b.AppendRecord record).2 = .err e)
    ∧ (∀ (i : Nat) (c : ColMeta), b.cols[i]? = some c → record.Get c.Label = none →
        (∀ j, j < i → ∀ cj bj, b.cols[j]? = some cj → b.builders[j]? = some bj →
          ∃ v b1, record.Get cj.Label = some v ∧ AppendValue bj v = .ok b1) →
        (b.AppendRecord record).2
          = .err ⟨Code.Internal, "could not find column " ++ c.Label ++ " in record"⟩)
    ∧ ((∀ (j : Nat) cj bj, b.cols[j]? = some cj → b.builders[j]? = some bj →
          ∃ v b1, record.Get cj.Label = some v ∧ AppendValue bj v = .ok b1) →
        (b.AppendRecord record).2 = Outcome.nil) := by
  rw [AppendRecord_eq_appendZip]
  refine ⟨?_, ?_, ?_⟩
  · rintro ⟨c, hc, hg⟩
    obtain ⟨i, hi, hci⟩ := List.getElem_of_mem hc
    have hib : i < b.builders.length := by rw [hwf]; exact hi
    exact (appendZip_stop_before record i b.cols b.builders c b.builders[i]
      (by rw [List.getElem?_eq_getElem hi, hci]) (List.getElem?_eq_getElem hib) (Or.inl hg)).1
  · intro i c hc hg hprev
    have hi : i < b.cols.length := by
      by_contra hn
      rw [List.getElem?_eq_none (Nat.le_of_not_lt hn)] at hc
      exact Option.noConfusion hc
    have hib : i < b.builders.length := by rw [hwf]; exact hi
    exact (appendZip_first_stop record i b.cols b.builders c b.builders[i] hprev hc
      (List.getElem?_eq_getElem hib)).1 hg
  · intro h
    exact (appendZip_nil_iff record b.cols b.builders hwf).mpr
      (forall₂_of_getElem? _ b.cols b.builders hwf.symm h)

/-- Witness of C2: columns `a`, `b` and a record without `b`. -/
theorem C2_appendRecord_missing_column_witness :
    ((NewChunkBuilder [⟨"a", .TInt⟩, ⟨"b", .TString⟩] 0).AppendRecord ⟨[("a", .int 7)]⟩).2
      = .err ⟨Code.Internal, "could not find column b in record"⟩ :=
  (C2_appendRecord_missing_column (NewChunkBuilder [⟨"a", .TInt⟩, ⟨"b", .TString⟩] 0)
    ⟨[("a", .int 7)]⟩ (by decide)).2.1 1 ⟨"b", .TString⟩ (by decide) (by decide)
    (by
      intro j hj cj bj hc hb
      have hj0 : j = 0 := by omega
      subst hj0
      simp only [NewChunkBuilder, List.getElem?_cons_zero, List.map_cons,
        Option.some.injEq] at hc hb
      subst hc; subst hb
      exact ⟨.int 7, _, by decide, rfl⟩)

/-- C3: after calls of `AppendRecord` on a fresh ChunkBuilder that all returned nil, the
chunk that `Build` returns has the column list `cols` in the same order and one array per
column; the array of column `c` has one entry per record and holds at row `j` the value
`r_j.Get(cols[c].Label)` (so a null value is a null entry); and records that agree with
these on the labels of the columns, whatever other properties they have, give the same
results and the same ChunkBuilder. -/
theorem C3_build_columns_and_cells (cols : List ColMeta) (size : Int) (k : GroupKey)
    (recs : List Object)
    (hall : ∀ o ∈ ((NewChunkBuilder cols size).AppendRecords recs).2, o = Outcome.nil) :
    (((NewChunkBuilder cols size).AppendRecords recs).1.Build k).2.Cols = cols
    ∧ (((NewChunkBuilder cols size).AppendRecords recs).1.Build k).2.buf.Values.length
        = cols.length
    ∧ (∀ (c j : Nat) (col : ColMeta) (r : Object), cols[c]? = some col → recs[j]? = some r →
        ∃ a, (((NewChunkBuilder cols size).AppendRecords recs).1.Build k).2.buf.Values[c]?
              = some a
          ∧ a.length = recs.length ∧ a[j]? = r.Get col.Label)
    ∧ (∀ recs1 : List Object,
        List.Forall₂ (fun r r1 => ∀ c ∈ cols, r.Get c.Label = r1.Get c.Label) recs recs1 →
        (NewChunkBuilder cols size).AppendRecords recs1
          = (NewChunkBuilder cols size).AppendRecords recs) := by
  obtain ⟨_, _, hget⟩ :=
    AppendRecords_all_nil recs (NewChunkBuilder cols size) (NewChunkBuilder_wf cols size) hall
  rw [Build_after_AppendRecords cols size k recs hall]
  refine ⟨rfl, by simp [ChunkFromBuffer], ?_, ?_⟩
  · intro c j col r hc hr
    refine ⟨recs.map (fun r => (r.Get col.Label).getD Value.null), ?_, by simp, ?_⟩
    · simp [ChunkFromBuffer, List.getElem?_map, hc]
    · have hrm : r ∈ recs := List.getElem?_mem hr
      have hcm : col ∈ (NewChunkBuilder cols size).cols := List.getElem?_mem hc
      obtain ⟨v, hv⟩ := hget r hrm col hcm
      simp [List.getElem?_map, hr, hv]
  · intro recs1 h
    exact (AppendRecords_congr recs recs1 cols h (NewChunkBuilder cols size) rfl).symm

/-- Witness of C3: two columns, two records, the second with a null and an extra property. -/
theorem C3_build_columns_and_cells_witness :
    (((NewChunkBuilder [⟨"a", .TInt⟩, ⟨"b", .TString⟩] 4).AppendRecords
        [⟨[("a", .int 1), ("b", .string "x")]⟩,
         ⟨[("z", .array 0), ("b", .string "y"), ("a", .null)]⟩]).1.Build ⟨[]⟩).2.Cols
      = [⟨"a", .TInt⟩, ⟨"b", .TString⟩] :=
  (C3_build_columns_and_cells [⟨"a", .TInt⟩, ⟨"b", .TString⟩] 4 ⟨[]⟩
    [⟨[("a", .int 1), ("b", .string "x")]⟩,
     ⟨[("z", .array 0), ("b", .string "y"), ("a", .null)]⟩] (by decide)).1

/-- C4 (as amended): when the value of the record for column `i` is one that `AppendValue`
rejects for the builder of that column, `AppendRecord` returns a non-nil error and nothing
is appended to builder `i` or to any later builder. When column `i` is the first such
column (the values that the record has for the earlier columns are accepted), the error is
the one of `AppendValue` for column `i` if the record has a value for every earlier column,
and otherwise it is the error of code `Internal` for the first column that is missing from
the record, `could not find column ... in record`. -/
theorem C4_appendRecord_rejected_value (b : ChunkBuilder) (record : Object)
    (i : Nat) (c : ColMeta) (bi : Builder) (v : Value) (e : Error)
    (hc : b.cols[i]? = some c) (hb : b.builders[i]? = some bi)
    (hg : record.Get c.Label = some v) (ha : AppendValue bi v = .error e) :
    (∃ e1, (b.AppendRecord record).2 = .err e1)
    ∧ ((∀ j, j < i → ∀ cj bj vj, b.cols[j]? = some cj → b.builders[j]? = some bj →
            record.Get cj.Label = some vj → ∃ b1, AppendValue bj vj = .ok b1) →
        ((∀ j, j < i → ∀ cj, b.cols[j]? = some cj → ∃ vj, record.Get cj.Label = some vj) →
          (b.AppendRecord record).2 = .err e)
        ∧ (∀ k ck, k < i → b.cols[k]? = some ck → record.Get ck.Label = none →
            (∀ j, j < k → ∀ cj, b.cols[j]? = some cj → ∃ vj, record.Get cj.Label = some vj) →
            (b.AppendRecord record).2
                = .err ⟨Code.Internal, "could not find column " ++ ck.Label ++ " in record"⟩))
    ∧ (b.AppendRecord record).1.builders.drop i = b.builders.drop i := by
  rw [AppendRecord_eq_appendZip]
  obtain ⟨h1, h2⟩ := appendZip_stop_before record i b.cols b.builders c bi hc hb
    (Or.inr ⟨v, e, hg, ha⟩)
  refine ⟨h1, ?_, h2⟩
  intro hfirst
  constructor
  · intro hpresent
    refine (appendZip_first_stop record i b.cols b.builders c bi ?_ hc hb).2 v e hg ha
    intro j hj cj bj hcj hbj
    obtain ⟨vj, hvj⟩ := hpresent j hj cj hcj
    obtain ⟨b1, hb1⟩ := hfirst j hj cj bj vj hcj hbj hvj
    exact ⟨vj, b1, hvj, hb1⟩
  · intro k ck hk hck hmiss hpresent
    have hib : i < b.builders.length := (List.getElem?_eq_some.mp hb).1
    have hkb : k < b.builders.length := by omega
    have hbk : b.builders[k]? = some (b.builders[k]) := List.getElem?_eq_getElem hkb
    refine (appendZip_first_stop record k b.cols b.builders ck _ ?_ hck hbk).1 hmiss
    intro j hj cj bj hcj hbj
    obtain ⟨vj, hvj⟩ := hpresent j hj cj hcj
    obtain ⟨b1, hb1⟩ := hfirst j (by omega) cj bj vj hcj hbj hvj
    exact ⟨vj, b1, hvj, hb1⟩

/-- Witness of C4: the second column gets an array value. -/
theorem C4_appendRecord_rejected_value_witness :
    ((NewChunkBuilder [⟨"a", .TInt⟩, ⟨"b", .TString⟩] 0).AppendRecord
        ⟨[("a", .int 7), ("b", .array 2)]⟩).1.builders.drop 1
      = (NewChunkBuilder [⟨"a", .TInt⟩, ⟨"b", .TString⟩] 0).builders.drop 1 :=
  (C4_appendRecord_rejected_value (NewChunkBuilder [⟨"a", .TInt⟩, ⟨"b", .TString⟩] 0)
    ⟨[("a", .int 7), ("b", .array 2)]⟩ 1 ⟨"b", .TString⟩
    ((NewBuilder .TString).Resize 0) (.array 2)
    ⟨Code.Invalid, "cannot append value of type array"⟩
    (by decide) (by decide) (by decide) rfl).2.2

/-- C4 fails as stated: with columns `a`, `b` and a record that has an array under `b` and
nothing under `a`, the error that `AppendRecord` returns is the `Internal` error of the
missing column `a`, not the error of `AppendValue` for column `b`. -/
theorem C4_counterexample :
    (⟨[("b", .array 2)]⟩ : Object).Get "b" = some (.array 2)
    ∧ AppendValue ((NewBuilder .TInt).Resize 0) (.array 2)
        = .error ⟨Code.Invalid, "cannot append value of type array"⟩
    ∧ ((NewChunkBuilder [⟨"a", .TInt⟩, ⟨"b", .TInt⟩] 0).AppendRecord ⟨[("b", .array 2)]⟩).2
        = .err ⟨Code.Internal, "could not find column a in record"⟩
    ∧ ((NewChunkBuilder [⟨"a", .TInt⟩, ⟨"b", .TInt⟩] 0).AppendRecord ⟨[("b", .array 2)]⟩).2
        ≠ .err ⟨Code.Invalid, "cannot append value of type array"⟩ :=
  ⟨by decide, rfl, by decide, by decide⟩

/-- C5 (as amended): `Build` sets nothing in the ChunkBuilder that would reject a later
call. After `Build(key)` the ChunkBuilder has the same columns and as many builders; a
later `Build(key2)` returns another chunk, with key `key2`, the same column list and one
array per column; and a later `AppendRecord` returns nil exactly when the record has, for
every column, a value that `AppendValue` takes on the builder of that column. -/
theorem C5_reuse_after_build (b : ChunkBuilder) (key key2 : GroupKey) (record : Object)
    (hwf : b.builders.length = b.cols.length) :
    (b.Build key).1.cols = b.cols
    ∧ (b.Build key).1.builders.length = b.builders.length
    ∧ ((b.Build key).1.Build key2).2.Key = key2
    ∧ ((b.Build key).1.Build key2).2.Cols = b.cols
    ∧ ((b.Build key).1.Build key2).2.buf.Values.length = b.cols.length
    ∧ (((b.Build key).1.AppendRecord record).2 = Outcome.nil ↔
        ∀ (j : Nat) cj bj, (b.Build key).1.cols[j]? = some cj →
          (b.Build key).1.builders[j]? = some bj →
          ∃ v b1, record.Get cj.Label = some v ∧ AppendValue bj v = .ok b1) := by
  have hlen : (b.Build key).1.builders.length = b.builders.length := by
    simp [ChunkBuilder.Build, newArrays_snd]
  have hwf1 : (b.Build key).1.builders.length = (b.Build key).1.cols.length := by
    rw [hlen, hwf]; rfl
  refine ⟨rfl, hlen, rfl, rfl, ?_, ?_⟩
  · simp [ChunkBuilder.Build, ChunkFromBuffer, newArrays_fst, newArrays_snd, hwf]
  · rw [AppendRecord_eq_appendZip, appendZip_nil_iff record _ _ hwf1]
    constructor
    · intro h j cj bj hc hb
      exact getElem?_of_forall₂ _ _ _ h j cj bj hc hb
    · intro h
      exact forall₂_of_getElem? _ _ _ hwf1.symm h

/-- Witness of C5: a ChunkBuilder with one column, built after one record. -/
theorem C5_reuse_after_build_witness :
    ((((NewChunkBuilder [⟨"a", .TInt⟩] 0).AppendRecord ⟨[("a", .int 1)]⟩).1.Build
        ⟨[]⟩).1.Build ⟨[(⟨"t", .TString⟩, .string "x")]⟩).2.Key
      = ⟨[(⟨"t", .TString⟩, .string "x")]⟩ :=
  (C5_reuse_after_build ((NewChunkBuilder [⟨"a", .TInt⟩] 0).AppendRecord ⟨[("a", .int 1)]⟩).1
    ⟨[]⟩ ⟨[(⟨"t", .TString⟩, .string "x")]⟩ ⟨[]⟩ (by decide)).2.2.1

/-- C5 fails as stated: on a ChunkBuilder without columns, after `Build` has returned, a
call of `AppendRecord` returns nil and a second `Build` returns another chunk, with the
new key. -/
theorem C5_counterexample :
    (((NewChunkBuilder [] 0).Build ⟨[]⟩).1.AppendRecord ⟨[("a", .int 1)]⟩).2 = Outcome.nil
    ∧ (((NewChunkBuilder [] 0).Build ⟨[]⟩).1.Build ⟨[(⟨"t", .TString⟩, .string "x")]⟩).2
        = ChunkFromBuffer (TableBuffer.mk ⟨[(⟨"t", .TString⟩, .string "x")]⟩ [] []) := by
  decide

/-! ## The table builder cache and the keys transformation -/

theorem lookup_eq_none_iff (c : TableBuilderCache) (key : GroupKey) :
    c.lookup key = none ↔ key ∉ c.keys := by
  simp only [TableBuilderCache.lookup, TableBuilderCache.keys, Option.map_eq_none',
    List.find?_eq_none, List.mem_map, not_exists, not_and]
  constructor
  · intro h p hp hk
    exact h p hp (by simpa using hk)
  · intro h p hp
    simpa using fun hk => h p hp hk

theorem store_keys (c : TableBuilderCache) (key : GroupKey) (b : TableBuilder) :
    (c.store key b).keys = c.keys := by
  simp only [TableBuilderCache.store, TableBuilderCache.keys, List.map_map]
  apply List.map_congr_left
  intro p _
  by_cases h : p.1 = key <;> simp [h]

theorem TableBuilder_created_iff (c : TableBuilderCache) (key : GroupKey) :
    ((c.TableBuilder key).2.2 = true ↔ key ∉ c.keys) := by
  rw [← lookup_eq_none_iff]
  unfold TableBuilderCache.TableBuilder
  cases h : c.lookup key <;> simp

theorem TableBuilder_not_created (c : TableBuilderCache) (key : GroupKey) (h : key ∈ c.keys) :
    (c.TableBuilder key).1 = c ∧ (c.TableBuilder key).2.2 = false := by
  unfold TableBuilderCache.TableBuilder
  cases hl : c.lookup key with
  | none => exact absurd h ((lookup_eq_none_iff c key).mp hl)
  | some b => simp

theorem TableBuilder_created_keys (c : TableBuilderCache) (key : GroupKey) (h : key ∉ c.keys) :
    (c.TableBuilder key).1.keys = c.keys ++ [key] ∧ (c.TableBuilder key).2.2 = true := by
  unfold TableBuilderCache.TableBuilder
  rw [(lookup_eq_none_iff c key).mpr h]
  simp [TableBuilderCache.keys]

/-- A `Process` call for a key that the cache holds returns the duplicate-table error and
changes neither the transformation nor the table. -/
theorem Process_duplicate (t : keysTransformation) (id : DatasetID) (tbl : Table)
    (h : tbl.Key ∈ t.cache.keys) :
    t.Process id tbl = (t, tbl, some (duplicateTable tbl.Key)) := by
  obtain ⟨h1, h2⟩ := TableBuilder_not_created t.cache tbl.Key h
  unfold keysTransformation.Process
  split
  · rename_i cache b heq
    have : cache = t.cache := by rw [← h1, heq]
    simp [this]
  · rename_i cache b heq
    rw [heq] at h2
    simp at h2

/-- A `Process` call for a key that the cache does not hold leaves a builder for the key
in the cache, whether it fails later or not. -/
theorem Process_new_keys (t : keysTransformation) (id : DatasetID) (tbl : Table)
    (h : tbl.Key ∉ t.cache.keys) :
    (t.Process id tbl).1.cache.keys = t.cache.keys ++ [tbl.Key] := by
  obtain ⟨h1, h2⟩ := TableBuilder_created_keys t.cache tbl.Key h
  unfold keysTransformation.Process
  split
  · rename_i cache b heq
    rw [heq] at h2
    simp at h2
  · rename_i cache b heq
    have hc : cache.keys = t.cache.keys ++ [tbl.Key] := by rw [← h1, heq]
    simp only
    repeat' split
    all_goals simp [store_keys, hc]

theorem Process_mem_keys (t : keysTransformation) (id : DatasetID) (tbl : Table)
    (key : GroupKey) :
    key ∈ (t.Process id tbl).1.cache.keys ↔ key ∈ t.cache.keys ∨ key = tbl.Key := by
  by_cases h : tbl.Key ∈ t.cache.keys
  · rw [Process_duplicate t id tbl h]
    constructor
    · intro hk; exact Or.inl hk
    · rintro (hk | hk)
      · exact hk
      · rw [hk]; exact h
  · rw [Process_new_keys t id tbl h]
    simp

theorem ProcessAll_length (calls : List (DatasetID × Table)) :
    ∀ t : keysTransformation, (t.ProcessAll calls).2.length = calls.length := by
  induction calls with
  | nil => intro t; rfl
  | cons c rest ih =>
    intro t
    obtain ⟨id, tbl⟩ := c
    simp [keysTransformation.ProcessAll, ih]

/-- Every call in a sequence of `Process` calls: the cache says `created` exactly when the
key is neither in the cache at the start nor the key of an earlier call, and otherwise the
call returns the duplicate-table error and leaves the cache as it was. -/
theorem ProcessAll_trace (calls : List (DatasetID × Table)) :
    ∀ (t : keysTransformation) (i : Nat) (id : DatasetID) (tbl : Table)
      (e : Bool × TableBuilderCache × TableBuilderCache × Table × Option Error),
      calls[i]? = some (id, tbl) → (t.ProcessAll calls).2[i]? = some e →
      (e.1 = true ↔
        (tbl.Key ∉ t.cache.keys ∧ tbl.Key ∉ (calls.take i).map (fun c => c.2.Key)))
      ∧ ((tbl.Key ∈ t.cache.keys ∨ tbl.Key ∈ (calls.take i).map (fun c => c.2.Key)) →
          e.2.2.2.2 = some (duplicateTable tbl.Key) ∧ e.2.2.1 = e.2.1 ∧ e.2.2.2.1 = tbl) := by
  induction calls with
  | nil => intro t i id tbl e hc; simp at hc
  | cons c rest ih =>
    intro t i id tbl e hc he
    obtain ⟨id0, tbl0⟩ := c
    cases i with
    | zero =>
      simp only [List.getElem?_cons_zero, Option.some.injEq, Prod.mk.injEq] at hc
      obtain ⟨rfl, rfl⟩ := hc
      simp only [keysTransformation.ProcessAll, List.getElem?_cons_zero,
        Option.some.injEq] at he
      subst he
      refine ⟨?_, ?_⟩
      · simp [TableBuilder_created_iff]
      · intro h
        have hk : tbl0.Key ∈ t.cache.keys := by simpa using h
        simp [Process_duplicate t id0 tbl0 hk]
    | succ i =>
      simp only [List.getElem?_cons_succ] at hc
      simp only [keysTransformation.ProcessAll, List.getElem?_cons_succ] at he
      obtain ⟨h1, h2⟩ := ih (t.Process id0 tbl0).1 i id tbl e hc he
      have hm := Process_mem_keys t id0 tbl0 tbl.Key
      refine ⟨?_, ?_⟩
      · rw [h1, hm]
        simp only [List.take_succ_cons, List.map_cons, List.mem_cons, not_or]
        constructor
        · rintro ⟨⟨ha, hb⟩, hc1⟩; exact ⟨ha, hb, hc1⟩
        · rintro ⟨ha, hb, hc1⟩; exact ⟨⟨ha, hb⟩, hc1⟩
      · intro h
        apply h2
        rw [hm]
        simp only [List.take_succ_cons, List.map_cons, List.mem_cons] at h
        rcases h with h | h | h
        · exact Or.inl (Or.inl h)
        · exact Or.inl (Or.inr h)
        · exact Or.inr h

/-- C6: in a sequence of `Process` calls on one keys transformation with a fresh cache,
every call has an entry in the trace; the cache answers `created = true` to a call exactly
when no earlier call had a table with the same group key; and a call whose table has the
group key of an earlier call returns the error with code `FailedPrecondition` and message
`keys found duplicate table with key: ...`, and leaves the cache, and so the builder of
that key, as it was. -/
theorem C6_keys_duplicate_table (d : Dataset) (spec : KeysProcedureSpec)
    (calls : List (DatasetID × Table)) :
    ((NewKeysTransformation d NewTableBuilderCache spec).ProcessAll calls).2.length
      = calls.length
    ∧ ∀ (i : Nat) (id : DatasetID) (tbl : Table) (created : Bool)
        (before after : TableBuilderCache) (tbl1 : Table) (err : Option Error),
        calls[i]? = some (id, tbl) →
        ((NewKeysTransformation d NewTableBuilderCache spec).ProcessAll calls).2[i]?
          = some (created, before, after, tbl1, err) →
        (created = true ↔ tbl.Key ∉ (calls.take i).map (fun c => c.2.Key))
        ∧ (tbl.Key ∈ (calls.take i).map (fun c => c.2.Key) →
            err = some ⟨Code.FailedPrecondition,
                "keys found duplicate table with key: " ++ tbl.Key.render⟩
            ∧ after = before
            ∧ after.lookup tbl.Key = before.lookup tbl.Key) := by
  refine ⟨ProcessAll_length calls _, ?_⟩
  intro i id tbl created before after tbl1 err hc he
  obtain ⟨h1, h2⟩ := ProcessAll_trace calls _ i id tbl _ hc he
  refine ⟨?_, ?_⟩
  · rw [h1]
    simp [NewKeysTransformation, NewTableBuilderCache, TableBuilderCache.keys]
  · intro h
    obtain ⟨ha, hb, _⟩ := h2 (Or.inr h)
    simp only at ha hb
    exact ⟨ha, hb, by rw [hb]⟩

/-- Witness of C6: the same table processed twice; the second call is the duplicate. -/
theorem C6_keys_duplicate_table_witness :
    (((NewKeysTransformation exampleDataset NewTableBuilderCache ⟨"_value"⟩).ProcessAll
        [(1, exampleTable), (1, exampleTable)]).2.map (fun e => (e.1, e.2.2.2.2)))
      = [(true, none),
         (false, some ⟨Code.FailedPrecondition, "keys found duplicate table with key: \x7bt0=a\x7d"⟩)]
    ∧ ((NewKeysTransformation exampleDataset NewTableBuilderCache ⟨"_value"⟩).ProcessAll
        [(1, exampleTable), (1, exampleTable)]).2.length = 2 :=
  ⟨by decide,
   (C6_keys_duplicate_table exampleDataset ⟨"_value"⟩ [(1, exampleTable), (1, exampleTable)]).1⟩

/-! ## Tables: single consumption -/

theorem Do_done {σ : Type} (t : Table) (f : σ → ColReader → σ × Option Error) (s : σ) :
    (t.Do f s).1.done = true := by
  unfold Table.Do
  by_cases h : t.done = true
  · simp [h]
  · simp [h, Table.Done]

theorem Do_of_done {σ : Type} (t : Table) (f : σ → ColReader → σ × Option Error) (s : σ)
    (h : t.done = true) : t.Do f s = (t, s, some tableAlreadyRead) := by
  simp [Table.Do, h]

theorem Done_iterate_done (n : Nat) : ∀ t : Table, t.done = true →
    (Nat.iterate Table.Done n t).done = true := by
  induction n with
  | zero => intro t h; exact h
  | succ n ih => intro t _; exact ih t.Done rfl

/-- After a `Process` call of the keys transformation that returned nil, the table has
been consumed. -/
theorem Process_nil_consumes (t : keysTransformation) (id : DatasetID) (tbl : Table)
    (h : (t.Process id tbl).2.2 = none) : (t.Process id tbl).2.1.IsDone = true := by
  unfold keysTransformation.Process at h ⊢
  dsimp only at h ⊢
  split
  · rename_i h1; rw [h1] at h; simp at h
  · rename_i h1; rw [h1] at h; dsimp only at h
    split
    · rename_i h2; rw [h2] at h; simp at h
    · rename_i h2; rw [h2] at h; dsimp only at h
      split
      · rename_i h3; rw [h3] at h; simp at h
      · rename_i h3; rw [h3] at h; dsimp only at h
        split
        · rename_i h4; rw [h4] at h; simp at h
        · rename_i h4; rw [h4] at h; dsimp only at h
          split
          · rename_i h5; rw [h5] at h; simp at h
          · exact Do_done tbl _ ()

/-- C7: for every table, however the first `Do` went and however often `Done` is called
before, between and after, a second `Do` fails with the error of code `Internal` and leaves
the state of its consumer untouched; `Done` is idempotent and leaves the key and the
columns alone; after the first `Do` the table reports that it is done; and a `Process`
call of the keys transformation that returned nil has consumed its table. -/
theorem C7_table_consumed_once {σ τ : Type} (t : Table)
    (f : σ → ColReader → σ × Option Error) (s : σ)
    (g : τ → ColReader → τ × Option Error) (s2 : τ) (n m : Nat)
    (kt : keysTransformation) (id : DatasetID) :
    ((Nat.iterate Table.Done m ((Nat.iterate Table.Done n t).Do f s).1).Do g s2).2.2
        = some ⟨Code.Internal, "table already read"⟩
    ∧ ((Nat.iterate Table.Done m ((Nat.iterate Table.Done n t).Do f s).1).Do g s2).2.1 = s2
    ∧ (t.Do f s).1.IsDone = true
    ∧ t.Done.Done = t.Done
    ∧ t.Done.IsDone = true
    ∧ t.Done.Key = t.Key ∧ t.Done.Cols = t.Cols
    ∧ (t.Do f s).1.Done.Done = (t.Do f s).1.Done
    ∧ ((kt.Process id t).2.2 = none → (kt.Process id t).2.1.IsDone = true) := by
  have h1 : (Nat.iterate Table.Done m ((Nat.iterate Table.Done n t).Do f s).1).done = true :=
    Done_iterate_done m _ (Do_done _ f s)
  refine ⟨?_, ?_, Do_done t f s, rfl, rfl, rfl, rfl, rfl, Process_nil_consumes kt id t⟩
  · rw [Do_of_done _ g s2 h1]; rfl
  · rw [Do_of_done _ g s2 h1]

/-- Witness of C7: the example table is consumed by a `Process` call of the keys
transformation and then reports that it is done. -/
theorem C7_table_consumed_once_witness :
    ((NewKeysTransformation exampleDataset NewTableBuilderCache ⟨"_value"⟩).Process 1
        exampleTable).2.1.IsDone = true :=
  (C7_table_consumed_once exampleTable (fun (_ : Unit) (_ : ColReader) => ((), none)) ()
    (fun (_ : Unit) (_ : ColReader) => ((), none)) () 0 0
    (NewKeysTransformation exampleDataset NewTableBuilderCache ⟨"_value"⟩) 1).2.2.2.2.2.2.2.2
    (by decide)

/-! ## Datasets: finish after all upstream edges -/

/-- C8: a dataset with two upstream edges defers `Finish` to its downstream until both
edges have finished, and an error of the first edge goes downstream at once. For the keys
transformation, whose `Finish(id, err)` is the call `Finish(err)` of its dataset: when the
dataset is running and has two upstream edges, the first `Finish(id1, nil)` does not yet
finish the dataset (it stays running and nothing is sent downstream); the `Finish(id2, nil)`
of the second edge finishes it and sends exactly one `Finish(nil)` downstream; and a
`Finish(id1, err)` with an error as the first call sends `Finish(err)` downstream at once
and leaves the dataset failed, after which a `Finish` of the other edge changes nothing. -/
theorem C8_finish_after_both_edges (t : keysTransformation) (id1 id2 : DatasetID) (e : Error)
    (err2 : Option Error)
    (hrun : t.d.status = DatasetStatus.Running) (hup : t.d.upstream = 2) :
    (∀ err, (t.Finish id1 err).d = t.d.Finish err)
    ∧ (t.Finish id1 none).d.status = DatasetStatus.Running
    ∧ (t.Finish id1 none).d.downstream = t.d.downstream
    ∧ ((t.Finish id1 none).Finish id2 none).d.status = DatasetStatus.Finished
    ∧ ((t.Finish id1 none).Finish id2 none).d.downstream
        = t.d.downstream ++ [Signal.Finish none]
    ∧ (t.Finish id1 (some e)).d.status = DatasetStatus.Failed
    ∧ (t.Finish id1 (some e)).d.downstream = t.d.downstream ++ [Signal.Finish (some e)]
    ∧ ((t.Finish id1 (some e)).Finish id2 err2).d = (t.Finish id1 (some e)).d := by
  have hfirst : (t.Finish id1 none).d = { t.d with upstream := 1 } := by
    simp [keysTransformation.Finish, Dataset.Finish, hrun, hup]
  have hfail : (t.Finish id1 (some e)).d
      = { t.d with status := DatasetStatus.Failed,
                   downstream := t.d.downstream ++ [Signal.Finish (some e)] } := by
    simp [keysTransformation.Finish, Dataset.Finish, hrun]
  refine ⟨fun _ => rfl, ?_, ?_, ?_, ?_, ?_, ?_, ?_⟩
  · rw [hfirst]; exact hrun
  · rw [hfirst]
  · simp [keysTransformation.Finish, Dataset.Finish, hrun, hup]
  · simp [keysTransformation.Finish, Dataset.Finish, hrun, hup]
  · rw [hfail]
  · rw [hfail]
  · simp [keysTransformation.Finish, Dataset.Finish, hrun]

/-- Witness of C8: the example dataset, running with two upstream edges. -/
theorem C8_finish_after_both_edges_witness :
    (((NewKeysTransformation exampleDataset NewTableBuilderCache ⟨"_value"⟩).Finish 1
        none).Finish 2 none).d.downstream = [Signal.Finish none] :=
  (C8_finish_after_both_edges
    (NewKeysTransformation exampleDataset NewTableBuilderCache ⟨"_value"⟩) 1 2
    ⟨Code.Internal, "boom"⟩ none (by decide) (by decide)).2.2.2.2.1

/-! ## The map transformation -/

theorem mapRows_append (f : PreparedFn) (k : GroupKey) (xs ys : List Object) :
    ∀ cache : TableBuilderCache,
      mapRows f k cache (xs ++ ys)
        = match mapRows f k cache xs with
          | (c1, some e) => (c1, some e)
          | (c1, none) => mapRows f k c1 ys := by
  induction xs with
  | nil => intro cache; simp [mapRows]
  | cons x xs ih =>
    intro cache
    simp only [List.cons_append, mapRows]
    cases h : mapRow f k cache x with
    | mk c1 o =>
      cases o with
      | some e => simp
      | none => simp [ih c1]

theorem doBatches_mapRows (f : PreparedFn) (k : GroupKey) (batches : List ColReader) :
    ∀ cache : TableBuilderCache,
      doBatches (fun c (cr : ColReader) => mapRows f k c cr.records) cache batches
        = mapRows f k cache (batches.flatMap ColReader.records) := by
  induction batches with
  | nil => intro cache; simp [doBatches, mapRows]
  | cons cr rest ih =>
    intro cache
    simp only [doBatches, List.flatMap_cons, mapRows_append]
    cases h : mapRows f k cache cr.records with
    | mk c1 o =>
      cases o with
      | some e => simp
      | none => simp [ih c1]

/-- `Process` of the map transformation on a table that has not been consumed and for
which the function can be prepared: map on all rows of the table. -/
theorem map_Process_eq (t : mapTransformation) (id : DatasetID) (tbl : Table) (f : PreparedFn)
    (hdone : tbl.done = false) (hf : t.fn tbl.Cols = .ok f) :
    t.Process id tbl
      = ({ t with cache := (mapRows f tbl.Key t.cache tbl.records).1 }, tbl.Done,
         (mapRows f tbl.Key t.cache tbl.records).2) := by
  simp [mapTransformation.Process, hf, Table.Do, hdone, doBatches_mapRows, Table.records]

theorem MergeCols_collision (pre : List ColMeta) (c : ColMeta) (post : List ColMeta)
    (ec : ColMeta) :
    ∀ b : TableBuilder,
      b.cols.find? (fun x => x.Label == c.Label) = some ec → ec.Typ ≠ c.Typ →
      (pre.map (fun x => x.Label)).Nodup →
      (∀ c1 ∈ pre, ∀ e1, b.cols.find? (fun x => x.Label == c1.Label) = some e1 →
        e1.Typ = c1.Typ) →
      (b.MergeCols (pre ++ c :: post)).2 = some (schemaCollision c.Label c.Typ ec.Typ) := by
  induction pre with
  | nil =>
    intro b hfind ht _ _
    simp [TableBuilder.MergeCols, TableBuilder.MergeCol, hfind, ht]
  | cons c1 pre ih =>
    intro b hfind ht hnd hfirst
    have hnd1 : (pre.map (fun x => x.Label)).Nodup := (List.nodup_cons.mp hnd).2
    have hnot : c1.Label ∉ pre.map (fun x => x.Label) := (List.nodup_cons.mp hnd).1
    simp only [List.cons_append, TableBuilder.MergeCols, TableBuilder.MergeCol]
    cases h1 : b.cols.find? (fun x => x.Label == c1.Label) with
    | some e1 =>
      have := hfirst c1 (by simp) e1 h1
      simp only [this, if_true]
      exact ih b hfind ht hnd1 (fun c2 hc2 e2 he2 => hfirst c2 (by simp [hc2]) e2 he2)
    | none =>
      simp only
      apply ih
      · simp [List.find?_append, hfind]
      · exact ht
      · exact hnd1
      · intro c2 hc2 e2 he2
        simp only [List.find?_append] at he2
        cases h2 : b.cols.find? (fun x => x.Label == c2.Label) with
        | some e3 =>
          rw [h2] at he2
          have he3 : e3 = e2 := by simpa using he2
          subst he3
          exact hfirst c2 (by simp [hc2]) e3 h2
        | none =>
          rw [h2] at he2
          by_cases hl : c1.Label = c2.Label
          · exact absurd (by rw [hl]; exact List.mem_map_of_mem _ hc2) hnot
          · simp [hl] at he2

theorem AddRow_collision (cache : TableBuilderCache) (key : GroupKey) (b : TableBuilder)
    (cols : List ColMeta) (m : Object) (e : Error)
    (hb : cache.lookup key = some b) (he : (b.MergeCols cols).2 = some e) :
    cache.AddRow key cols m = (cache, some e) := by
  unfold TableBuilderCache.AddRow TableBuilderCache.TableBuilder
  rw [hb]
  simp only
  cases h : b.MergeCols cols with
  | mk b1 o =>
    rw [h] at he
    simp only at he
    subst he
    rfl

/-- C9 (as amended): when a row of a table processed by map gives an output row for a
group key for which the cache holds an output table already, and a column of the output
row has a label that the table has with another type (the first such column of the output
row), then `Process` fails with the error of code `FailedPrecondition` and message `schema
collision detected: column "<label>" is both of type <A> and <B>`, where `<A>` is the type
of the column in the incoming row and `<B>` the type that the output table has from
the rows before: the type met last is named first. -/
theorem C9_schema_collision (t : mapTransformation) (id : DatasetID) (tbl : Table)
    (f : PreparedFn) (pre post : List Object) (r m : Object)
    (colsPre colsPost : List ColMeta) (c ec : ColMeta) (b : TableBuilder)
    (cache1 : TableBuilderCache)
    (hdone : tbl.done = false) (hf : t.fn tbl.Cols = .ok f)
    (hrows : tbl.records = pre ++ r :: post)
    (hpre : mapRows f tbl.Key t.cache pre = (cache1, none))
    (hm : f.Eval r = .ok m)
    (hcols : outputCols f.Typ = .ok (colsPre ++ c :: colsPost))
    (hb : cache1.lookup (groupKeyForObject tbl.Key (colsPre ++ c :: colsPost)
            (project (colsPre ++ c :: colsPost) m)) = some b)
    (hfind : b.cols.find? (fun x => x.Label == c.Label) = some ec)
    (ht : ec.Typ ≠ c.Typ)
    (hnd : (colsPre.map (fun x => x.Label)).Nodup)
    (hfirst : ∀ c1 ∈ colsPre, ∀ e1, b.cols.find? (fun x => x.Label == c1.Label) = some e1 →
        e1.Typ = c1.Typ) :
    (t.Process id tbl).2.2
      = some ⟨Code.FailedPrecondition, "schema collision detected: column \"" ++ c.Label
          ++ "\" is both of type " ++ c.Typ.name ++ " and " ++ ec.Typ.name⟩ := by
  rw [map_Process_eq t id tbl f hdone hf, hrows, mapRows_append, hpre]
  have hcol := MergeCols_collision colsPre c colsPost ec b hfind ht hnd hfirst
  simp only [mapRows, mapRow, hm, hcols, AddRow_collision cache1 _ b _ _ _ hb hcol]
  rfl

/-- Witness of C9: the two tables of `TestMap_Process/mismatched types`; the first row of
the second table meets the output table of the first. -/
theorem C9_schema_collision_witness :
    (((NewMapTransformation ⟨fnValueTime, false⟩).Process 0 mismatchedInt).1.Process 0
        mismatchedFloat).2.2
      = some ⟨Code.FailedPrecondition,
          "schema collision detected: column \"_value\" is both of type float and int"⟩ :=
  C9_schema_collision ((NewMapTransformation ⟨fnValueTime, false⟩).Process 0 mismatchedInt).1
    0 mismatchedFloat (preparedValueTime mismatchedFloat.cols) []
    [⟨[("_time", .time 2), ("_value", .float 4618441417868443648)]⟩]
    ⟨[("_time", .time 1), ("_value", .float 4607182418800017408)]⟩
    ⟨[("_value", .float 4607182418800017408), ("_time", .time 1)]⟩
    [⟨"_time", .TTime⟩] [] ⟨"_value", .TFloat⟩ ⟨"_value", .TInt⟩
    { key := ⟨[]⟩, cols := [⟨"_time", .TTime⟩, ⟨"_value", .TInt⟩],
      data := [[.time 1, .time 2], [.int 1, .int 6]] }
    ((NewMapTransformation ⟨fnValueTime, false⟩).Process 0 mismatchedInt).1.cache
    rfl rfl (by decide) rfl rfl rfl (by decide) (by decide) (by decide) (by decide)
    (by decide)

/-- C9 fails as stated: in `TestMap_Process/mismatched types` the table with the int column
`_value` is processed first and alone gives an output table with `_value` of type int; the
table with the float column comes second, and the error names `float` before `int`, not
the two types in the order in which they were met. -/
theorem C9_counterexample :
    ((NewMapTransformation ⟨fnValueTime, false⟩).Process 0 mismatchedInt).2.2 = none
    ∧ ((NewMapTransformation ⟨fnValueTime, false⟩).Process 0 mismatchedInt).1.cache.tables.map
          (fun p => p.2.cols)
        = [[⟨"_time", .TTime⟩, ⟨"_value", .TInt⟩]]
    ∧ ((NewMapTransformation ⟨fnValueTime, false⟩).ProcessAll
          [(0, mismatchedInt), (0, mismatchedFloat)]).2
        = some ⟨Code.FailedPrecondition,
            "schema collision detected: column \"_value\" is both of type float and int"⟩
    ∧ ((NewMapTransformation ⟨fnValueTime, false⟩).ProcessAll
          [(0, mismatchedInt), (0, mismatchedFloat)]).2
        ≠ some ⟨Code.FailedPrecondition,
            "schema collision detected: column \"_value\" is both of type int and float"⟩ := by
  decide

/-! ### Output tables hold the output rows of their key -/

/-- `Process` of the map transformation never reads the flag `mergeKey`. -/
theorem Process_mergeKey (t : mapTransformation) (b : Bool) (id : DatasetID) (tbl : Table) :
    ({ t with mergeKey := b } : mapTransformation).Process id tbl
      = ({ (t.Process id tbl).1 with mergeKey := b }, (t.Process id tbl).2) := by
  unfold mapTransformation.Process
  cases t.fn tbl.Cols <;> rfl

theorem ProcessAll_mergeKey (calls : List (DatasetID × Table)) :
    ∀ (t : mapTransformation) (b : Bool),
      ({ t with mergeKey := b } : mapTransformation).ProcessAll calls
        = ({ (t.ProcessAll calls).1 with mergeKey := b }, (t.ProcessAll calls).2) := by
  induction calls with
  | nil => intro t b; rfl
  | cons c calls ih =>
    intro t b
    obtain ⟨id, tbl⟩ := c
    simp only [mapTransformation.ProcessAll, Process_mergeKey]
    cases hp : t.Process id tbl with
    | mk t1 rest =>
      obtain ⟨tbl1, o⟩ := rest
      cases o with
      | some e => rfl
      | none => exact ih t1 b

/-- The keys of the cache after one output row: the keys before, and the key of the row. -/
theorem AddRow_keys (cache : TableBuilderCache) (key : GroupKey) (cols : List ColMeta)
    (m : Object) :
    ∀ k ∈ (cache.AddRow key cols m).1.keys, k ∈ cache.keys ∨ k = key := by
  intro k hk
  unfold TableBuilderCache.AddRow TableBuilderCache.TableBuilder at hk
  have hstore : ∀ (c : TableBuilderCache) (b : TableBuilder),
      (c.store key b).keys = c.keys := by
    intro c b
    simp only [TableBuilderCache.store, TableBuilderCache.keys, List.map_map]
    apply List.map_congr_left
    intro p _
    by_cases h : p.1 = key <;> simp [h]
  cases hl : cache.lookup key with
  | some b0 =>
    rw [hl] at hk
    simp only at hk
    cases hm : b0.MergeCols cols with
    | mk b1 o =>
      rw [hm] at hk
      cases o with
      | some e => exact Or.inl hk
      | none =>
        simp only at hk
        cases ha : b1.AppendRow m with
        | mk b2 o2 =>
          rw [ha] at hk
          cases o2 with
          | some e => exact Or.inl hk
          | none =>
            simp only [hstore] at hk
            exact Or.inl hk
  | none =>
    rw [hl] at hk
    simp only at hk
    cases hm : TableBuilder.MergeCols { key := key, cols := [], data := [] } cols with
    | mk b1 o =>
      rw [hm] at hk
      cases o with
      | some e => exact Or.inl hk
      | none =>
        simp only at hk
        cases ha : b1.AppendRow m with
        | mk b2 o2 =>
          rw [ha] at hk
          cases o2 with
          | some e => exact Or.inl hk
          | none =>
            simp only [hstore] at hk
            simp only [TableBuilderCache.keys, List.map_append, List.map_cons, List.map_nil,
              List.mem_append, List.mem_singleton] at hk ⊢
            exact hk

theorem mapRow_keys (P : GroupKey → Prop) (f : PreparedFn) (k : GroupKey)
    (cache : TableBuilderCache) (r : Object)
    (hc : ∀ x ∈ cache.keys, P x)
    (hr : ∀ row, outputRowOf f k r = some row → P row.key) :
    ∀ x ∈ (mapRow f k cache r).1.keys, P x := by
  intro x hx
  unfold mapRow at hx
  unfold outputRowOf at hr
  cases he : f.Eval r with
  | error e => rw [he] at hx; exact hc x hx
  | ok m =>
    rw [he] at hx hr
    cases hcols : outputCols f.Typ with
    | error e => rw [hcols] at hx; exact hc x hx
    | ok cols =>
      rw [hcols] at hx hr
      simp only at hx hr
      rcases AddRow_keys cache _ cols _ x hx with h | h
      · exact hc x h
      · rw [h]; exact hr _ rfl

theorem mapRows_keys (P : GroupKey → Prop) (f : PreparedFn) (k : GroupKey) (rs : List Object) :
    ∀ cache : TableBuilderCache,
      (∀ x ∈ cache.keys, P x) →
      (∀ r ∈ rs, ∀ row, outputRowOf f k r = some row → P row.key) →
      ∀ x ∈ (mapRows f k cache rs).1.keys, P x := by
  induction rs with
  | nil => intro cache hc _ x hx; exact hc x hx
  | cons r rs ih =>
    intro cache hc hr x hx
    have h1 := mapRow_keys P f k cache r hc (hr r (List.mem_cons_self _ _))
    unfold mapRows at hx
    cases hm : mapRow f k cache r with
    | mk c1 o =>
      rw [hm] at hx h1
      cases o with
      | some e => exact h1 x hx
      | none =>
        exact ih c1 h1 (fun r0 hr0 => hr r0 (List.mem_cons_of_mem _ hr0)) x hx

theorem Process_keys (P : GroupKey → Prop) (t : mapTransformation) (id : DatasetID)
    (tbl : Table)
    (hc : ∀ x ∈ t.cache.keys, P x)
    (hr : ∀ row ∈ tableOutputRows t.fn tbl, P row.key) :
    (t.Process id tbl).1.fn = t.fn ∧ ∀ x ∈ (t.Process id tbl).1.cache.keys, P x := by
  unfold mapTransformation.Process
  unfold tableOutputRows at hr
  cases hf : t.fn tbl.Cols with
  | error e => exact ⟨rfl, hc⟩
  | ok f =>
    rw [hf] at hr
    simp only at hr ⊢
    refine ⟨trivial, ?_⟩
    unfold Table.Do
    cases hd : tbl.done with
    | true => simpa using hc
    | false =>
      simp only [Bool.false_eq_true, if_false, doBatches_mapRows]
      apply mapRows_keys P f tbl.Key _ t.cache hc
      intro r hr0 row hrow
      exact hr row (List.mem_filterMap.mpr ⟨r, hr0, hrow⟩)

theorem ProcessAll_keys (P : GroupKey → Prop) (calls : List (DatasetID × Table)) :
    ∀ t : mapTransformation,
      (∀ x ∈ t.cache.keys, P x) →
      (∀ c ∈ calls, ∀ row ∈ tableOutputRows t.fn c.2, P row.key) →
      ∀ x ∈ (t.ProcessAll calls).1.cache.keys, P x := by
  induction calls with
  | nil => intro t hc _ x hx; exact hc x hx
  | cons c calls ih =>
    intro t hc hr x hx
    obtain ⟨id, tbl⟩ := c
    obtain ⟨hfn, h1⟩ := Process_keys P t id tbl hc (hr (id, tbl) (List.mem_cons_self _ _))
    unfold mapTransformation.ProcessAll at hx
    cases hp : t.Process id tbl with
    | mk t1 rest =>
      obtain ⟨tbl1, o⟩ := rest
      rw [hp] at hx hfn h1
      cases o with
      | some e => exact h1 x hx
      | none =>
        simp only at hx hfn h1
        apply ih t1 h1 _ x hx
        intro c0 hc0 row hrow
        rw [hfn] at hrow
        exact hr c0 (List.mem_cons_of_mem _ hc0) row hrow

/-- The group key of an output row: its labels are the labels of the input key that are
labels of output columns, in the order of the input key; its columns are output columns
and its values the values of the row. -/
theorem groupKeyForObject_spec (inKey : GroupKey) (cols : List ColMeta) (m : Object) :
    (groupKeyForObject inKey cols m).Cols.map (fun c => c.Label)
        = (inKey.Cols.map (fun c => c.Label)).filter
            (fun l => l ∈ cols.map (fun c => c.Label))
    ∧ ∀ p ∈ (groupKeyForObject inKey cols m).pairs,
        p.1 ∈ cols ∧ p.2 = (m.Get p.1.Label).getD Value.null := by
  unfold groupKeyForObject GroupKey.Cols
  simp only
  generalize inKey.pairs.map (fun p => p.1) = ks
  constructor
  · induction ks with
    | nil => rfl
    | cons kc ks ih =>
      simp only [List.filterMap_cons, List.map_cons, List.filter_cons]
      cases hfind : cols.find? (fun c => c.Label == kc.Label) with
      | none =>
        have hn : kc.Label ∉ cols.map (fun c => c.Label) := by
          intro hmem
          obtain ⟨c, hc, hl⟩ := List.mem_map.mp hmem
          have := List.find?_eq_none.mp hfind c hc
          simp [hl] at this
        simp only [Option.map_none', hn, decide_False, Bool.false_eq_true, if_false]
        exact ih
      | some c =>
        have hl : c.Label = kc.Label := by simpa using List.find?_some hfind
        have hm : kc.Label ∈ cols.map (fun c => c.Label) :=
          List.mem_map.mpr ⟨c, List.mem_of_find?_eq_some hfind, hl⟩
        simp only [Option.map_some', hm, decide_True, if_true, List.map_cons, hl]
        rw [← ih]
  · intro p hp
    obtain ⟨kc, _, hkc⟩ := List.mem_filterMap.mp hp
    cases hfind : cols.find? (fun c => c.Label == kc.Label) with
    | none => rw [hfind] at hkc; simp at hkc
    | some c =>
      rw [hfind] at hkc
      simp only [Option.map_some', Option.some.injEq] at hkc
      subst hkc
      exact ⟨List.mem_of_find?_eq_some hfind, rfl⟩

/-- C11: for every list of input tables and every map function, map with `MergeKey` true
gives exactly the result of map with `MergeKey` false: the same output tables (keys,
columns and rows) and the same error or absence of error. And every output table has the
key of an output row of some input table, whose labels are exactly the labels of the key
of that input table that are labels of columns of the returned record, in the order of the
input key, with columns of the output and the values of the row: no column of the old key
is merged back in. -/
theorem C11_mergeKey_no_effect (fn : List ColMeta → Except Error PreparedFn)
    (calls : List (DatasetID × Table)) :
    ((NewMapTransformation ⟨fn, true⟩).ProcessAll calls).1.cache
        = ((NewMapTransformation ⟨fn, false⟩).ProcessAll calls).1.cache
    ∧ ((NewMapTransformation ⟨fn, true⟩).ProcessAll calls).2
        = ((NewMapTransformation ⟨fn, false⟩).ProcessAll calls).2
    ∧ ∀ k ∈ ((NewMapTransformation ⟨fn, true⟩).ProcessAll calls).1.cache.keys,
        ∃ c ∈ calls, ∃ row ∈ tableOutputRows fn c.2,
          row.key = k
          ∧ k.Cols.map (fun x => x.Label)
              = (c.2.Key.Cols.map (fun x => x.Label)).filter
                  (fun l => l ∈ row.cols.map (fun x => x.Label))
          ∧ ∀ p ∈ k.pairs, p.1 ∈ row.cols ∧ p.2 = (row.record.Get p.1.Label).getD Value.null := by
  have heq := ProcessAll_mergeKey calls (NewMapTransformation ⟨fn, false⟩) true
  have hnew : ({ NewMapTransformation ⟨fn, false⟩ with mergeKey := true } : mapTransformation)
      = NewMapTransformation ⟨fn, true⟩ := rfl
  rw [hnew] at heq
  refine ⟨by rw [heq], by rw [heq], ?_⟩
  refine ProcessAll_keys
    (fun k => ∃ c ∈ calls, ∃ row ∈ tableOutputRows fn c.2,
      row.key = k
      ∧ k.Cols.map (fun x => x.Label)
          = (c.2.Key.Cols.map (fun x => x.Label)).filter
              (fun l => l ∈ row.cols.map (fun x => x.Label))
      ∧ ∀ p ∈ k.pairs, p.1 ∈ row.cols ∧ p.2 = (row.record.Get p.1.Label).getD Value.null)
    calls (NewMapTransformation ⟨fn, true⟩) ?_ ?_
  · intro x hx
    simp [NewMapTransformation, NewTableBuilderCache, TableBuilderCache.keys] at hx
  · intro c hc row hrow
    refine ⟨c, hc, row, hrow, rfl, ?_⟩
    have hrow0 := hrow
    unfold tableOutputRows at hrow0
    simp only [NewMapTransformation] at hrow0
    cases hf : fn c.2.Cols with
    | error e => rw [hf] at hrow0; simp at hrow0
    | ok f =>
      rw [hf] at hrow0
      obtain ⟨r, _, hr⟩ := List.mem_filterMap.mp hrow0
      unfold outputRowOf at hr
      cases he : f.Eval r with
      | error e => rw [he] at hr; simp at hr
      | ok m =>
        cases hcols : outputCols f.Typ with
        | error e => rw [he, hcols] at hr; simp at hr
        | ok cols =>
          rw [he, hcols] at hr
          simp only [Option.some.injEq] at hr
          subst hr
          exact groupKeyForObject_spec c.2.Key cols (project cols m)

/-! ## C12: properties that no column can hold -/

/-- The columns of the output cannot be made when the type of the record has a property
of a kind that no column can hold: the error names the first such property. -/
theorem outputCols_unsupported (typ : List (String × Kind))
    (h : ∃ p ∈ typ, p.2 ∈ [Kind.array, Kind.object, Kind.function, Kind.duration,
      Kind.bytes, Kind.regexp]) :
    ∃ pre label kind post, typ = pre ++ (label, kind) :: post
      ∧ kind ∈ [Kind.array, Kind.object, Kind.function, Kind.duration, Kind.bytes, Kind.regexp]
      ∧ (∀ p ∈ pre, p.2 ∉ [Kind.array, Kind.object, Kind.function, Kind.duration,
          Kind.bytes, Kind.regexp])
      ∧ outputCols typ = .error (unsupportedProperty label kind) := by
  induction typ with
  | nil => simp at h
  | cons q typ ih =>
    obtain ⟨label, kind⟩ := q
    by_cases hk : kind ∈ [Kind.array, Kind.object, Kind.function, Kind.duration,
        Kind.bytes, Kind.regexp]
    · refine ⟨[], label, kind, typ, rfl, hk, by simp, ?_⟩
      unfold outputCols
      cases kind <;> simp at hk <;> rfl
    · have h2 : ∃ p ∈ typ, p.2 ∈ [Kind.array, Kind.object, Kind.function, Kind.duration,
          Kind.bytes, Kind.regexp] := by
        obtain ⟨p, hp, hpk⟩ := h
        rcases List.mem_cons.mp hp with hp | hp
        · subst hp; exact absurd hpk hk
        · exact ⟨p, hp, hpk⟩
      obtain ⟨pre, l, k, post, htyp, hkk, hpre, hout⟩ := ih h2
      refine ⟨(label, kind) :: pre, l, k, post, by rw [htyp]; rfl, hkk, ?_, ?_⟩
      · intro p hp
        rcases List.mem_cons.mp hp with hp | hp
        · subst hp; exact hk
        · exact hpre p hp
      · unfold outputCols
        rw [hout]
        cases kind <;> simp at hk <;> rfl

/-- C12: when the type of the record that a map function returns has a property of kind
array, object, function, duration, bytes or regexp, processing a table that has a row (on
whose first row the function returns its record) fails with the error `map object
property "<label>" is <kind> type which is not supported in a flux table`, which names
such a property and its kind (the first one in the order of the columns); and the output
tables are as before, no column is made for the value. -/
theorem C12_unsupported_property (t : mapTransformation) (id : DatasetID) (tbl : Table)
    (f : PreparedFn) (r : Object) (rest : List Object) (m : Object)
    (hf : t.fn tbl.Cols = .ok f) (hdone : tbl.done = false)
    (hrows : tbl.records = r :: rest) (heval : f.Eval r = .ok m)
    (hbad : ∃ p ∈ f.Typ, p.2 ∈ [Kind.array, Kind.object, Kind.function, Kind.duration,
      Kind.bytes, Kind.regexp]) :
    ∃ pre label kind post, f.Typ = pre ++ (label, kind) :: post
      ∧ kind ∈ [Kind.array, Kind.object, Kind.function, Kind.duration, Kind.bytes, Kind.regexp]
      ∧ (∀ p ∈ pre, p.2 ∉ [Kind.array, Kind.object, Kind.function, Kind.duration,
          Kind.bytes, Kind.regexp])
      ∧ (t.Process id tbl).2.2
          = some ⟨Code.Invalid, "map object property \"" ++ label ++ "\" is " ++ kind.name
              ++ " type which is not supported in a flux table"⟩
      ∧ (t.Process id tbl).1.cache = t.cache := by
  obtain ⟨pre, label, kind, post, htyp, hk, hpre, hout⟩ := outputCols_unsupported f.Typ hbad
  refine ⟨pre, label, kind, post, htyp, hk, hpre, ?_⟩
  rw [map_Process_eq t id tbl f hdone hf, hrows]
  simp only [mapRows, mapRow, heval, hout]
  exact ⟨rfl, trivial⟩

/-- Witness of C12: `TestMap_Process/error returning array property`. -/
theorem C12_unsupported_property_witness :
    ((NewMapTransformation ⟨fnArrayValue, false⟩).Process 0 arrayErrorTable).2.2
        = some ⟨Code.Invalid, "map object property \"_value\" is array type which is not "
            ++ "supported in a flux table"⟩
    ∧ ((NewMapTransformation ⟨fnArrayValue, false⟩).Process 0 arrayErrorTable).1.cache.tables
        = [] := by
  obtain ⟨pre, label, kind, post, htyp, _, _, herr, hcache⟩ :=
    C12_unsupported_property (NewMapTransformation ⟨fnArrayValue, false⟩) 0 arrayErrorTable
      { Typ := [("_value", Kind.array)], Eval := fun _ => .ok ⟨[("_value", .array 1)]⟩ }
      ⟨[("_time", .time 1), ("_value", .uint 1)]⟩ [] ⟨[("_value", .array 1)]⟩
      rfl rfl (by decide) rfl ⟨("_value", Kind.array), by decide, by decide⟩
  have hlk : label = "_value" ∧ kind = Kind.array := by
    cases pre with
    | nil =>
      simp only [List.nil_append, List.cons.injEq, Prod.mk.injEq] at htyp
      exact ⟨htyp.1.1.symm, htyp.1.2.symm⟩
    | cons p pre =>
      simp only [List.cons_append, List.cons.injEq] at htyp
      have := htyp.2
      simp at this
  rw [hlk.1, hlk.2] at herr
  exact ⟨herr, by rw [hcache]; rfl⟩

/-! ## C17: the last successful run of a task -/

/-- C17: for a call of `LastSuccess` with the arguments `orTime` and `lastSuccessTime`
(and no others), a timeable `orTime`, a `lastSuccessTime` that is null or a time, and
execution dependencies whose `Now` is `n`: a non-null `lastSuccessTime` is returned
unchanged; otherwise `orTime` is returned when it is a time, and the time `n + d`
(`values.Time.Add`) when it is a duration `d`. -/
theorem C17_lastSuccess (add : Time → Int → Time) (n : Time) (args : Object)
    (orTime lastSuccessTime : Value)
    (hor : args.Get "orTime" = some orTime)
    (hls : args.Get "lastSuccessTime" = some lastSuccessTime)
    (hargs : ∀ p ∈ args.props, p.1 = "orTime" ∨ p.1 = "lastSuccessTime")
    (htimeable : IsTimeable orTime = true)
    (hlast : lastSuccessTime = Value.null ∨ ∃ t, lastSuccessTime = Value.time t) :
    (lastSuccessTime ≠ Value.null →
        LastSuccess add ⟨some n⟩ args = .value lastSuccessTime)
    ∧ (lastSuccessTime = Value.null → ∀ t, orTime = Value.time t →
        LastSuccess add ⟨some n⟩ args = .value (Value.time t))
    ∧ (lastSuccessTime = Value.null → ∀ d, orTime = Value.duration d →
        LastSuccess add ⟨some n⟩ args = .value (Value.time (add n d))) := by
  have hunused : ∀ u : List String, "orTime" ∈ u → "lastSuccessTime" ∈ u →
      (Arguments.mk args u).listUnused = [] := by
    intro u h1 h2
    simp only [Arguments.listUnused, List.filter_eq_nil_iff, List.mem_map, decide_not,
      Bool.not_eq_true', decide_eq_false_iff_not, not_not, forall_exists_index, and_imp]
    intro name p hp hname
    subst hname
    rcases hargs p hp with h | h <;> rw [h] <;> assumption
  have hu := hunused ["lastSuccessTime", "orTime"] (by simp) (by simp)
  refine ⟨?_, ?_, ?_⟩
  · intro hnn
    rcases hlast with h | ⟨t, h⟩
    · exact absurd h hnn
    · subst h
      cases orTime <;> simp [IsTimeable, Value.Nature] at htimeable <;>
        simp [LastSuccess, DoFunctionCallContext, lastSuccessCall, Arguments.GetRequired,
          NewArguments, hor, hls, IsTimeable, Value.Nature, Value.IsNull, hu]
  · intro hnull t ht
    subst hnull ht
    simp [LastSuccess, DoFunctionCallContext, lastSuccessCall, Arguments.GetRequired,
      NewArguments, hor, hls, IsTimeable, Value.Nature, Value.IsNull, hu]
  · intro hnull d hd
    subst hnull hd
    simp [LastSuccess, DoFunctionCallContext, lastSuccessCall, Arguments.GetRequired,
      NewArguments, hor, hls, IsTimeable, Value.Nature, Value.IsNull, hu]

/-- Witness of C17: `TestLastSuccess/implied orTime with null`: with `Now` 10ns and the
duration -5ns the result is the time 5. -/
theorem C17_lastSuccess_witness :
    LastSuccess (fun t d => t + d) ⟨some 10⟩
        ⟨[("orTime", .duration (-5)), ("lastSuccessTime", .null)]⟩
      = .value (Value.time 5) :=
  (C17_lastSuccess (fun t d => t + d) 10
    ⟨[("orTime", .duration (-5)), ("lastSuccessTime", .null)]⟩ (.duration (-5)) .null
    (by decide) (by decide) (by decide) (by decide) (Or.inl rfl)).2.2 rfl (-5) rfl

/-! ## C16: equality of group keys -/

theorem equalPairs_iff (ps qs : List (ColMeta × Value)) :
    equalPairs ps qs = true
      ↔ ps.length = qs.length
        ∧ ps.map (fun p => p.1.Label) = qs.map (fun p => p.1.Label)
        ∧ ps.map (fun p => p.2) = qs.map (fun p => p.2) := by
  induction ps generalizing qs with
  | nil => cases qs <;> simp [equalPairs]
  | cons p ps ih =>
    cases qs with
    | nil => simp [equalPairs]
    | cons q qs =>
      simp only [equalPairs, Bool.and_eq_true, beq_iff_eq, ih qs, List.length_cons,
        List.map_cons, List.cons.injEq, Nat.add_right_cancel_iff]
      tauto

theorem equalPairs_typed (ps qs : List (ColMeta × Value))
    (hps : ∀ p ∈ ps, p.2.colType = some p.1.Typ) (hqs : ∀ q ∈ qs, q.2.colType = some q.1.Typ) :
    equalPairs ps qs = true ↔ ps = qs := by
  induction ps generalizing qs with
  | nil => cases qs <;> simp [equalPairs]
  | cons p ps ih =>
    cases qs with
    | nil => simp [equalPairs]
    | cons q qs =>
      have hp := hps p (List.mem_cons_self _ _)
      have hq := hqs q (List.mem_cons_self _ _)
      have ih1 := ih qs (fun x hx => hps x (List.mem_cons_of_mem _ hx))
        (fun x hx => hqs x (List.mem_cons_of_mem _ hx))
      simp only [equalPairs, Bool.and_eq_true, beq_iff_eq, ih1, List.cons.injEq]
      constructor
      · rintro ⟨⟨hl, hv⟩, hrest⟩
        refine ⟨?_, hrest⟩
        obtain ⟨⟨l1, t1⟩, v1⟩ := p
        obtain ⟨⟨l2, t2⟩, v2⟩ := q
        simp only at hl hv hp hq
        subst hl hv
        rw [hp] at hq
        simp only [Option.some.injEq] at hq
        rw [hq]
      · rintro ⟨hpq, hrest⟩
        subst hpq
        exact ⟨⟨rfl, rfl⟩, hrest⟩

/-- C16: two group keys are equal if and only if they have the same length, the same
labels in the same order and equal values; so two keys built from the same label/value
pairs in a different order of the labels are unequal. And for keys whose columns have the
types of their values, this equality is the identity of the keys (labels, types and
values), by which the cache of table builders finds a key. -/
theorem C16_groupKey_equal (k1 k2 : GroupKey) :
    (k1.Equal k2 = true
      ↔ k1.Cols.length = k2.Cols.length
        ∧ k1.Cols.map (fun c => c.Label) = k2.Cols.map (fun c => c.Label)
        ∧ k1.Values = k2.Values)
    ∧ (k1.pairs.Perm k2.pairs →
        k1.Cols.map (fun c => c.Label) ≠ k2.Cols.map (fun c => c.Label) →
        k1.Equal k2 = false)
    ∧ ((∀ p ∈ k1.pairs, p.2.colType = some p.1.Typ) →
        (∀ p ∈ k2.pairs, p.2.colType = some p.1.Typ) →
        (k1.Equal k2 = true ↔ k1 = k2)) := by
  have h1 : k1.Equal k2 = true
      ↔ k1.Cols.length = k2.Cols.length
        ∧ k1.Cols.map (fun c => c.Label) = k2.Cols.map (fun c => c.Label)
        ∧ k1.Values = k2.Values := by
    simp only [GroupKey.Equal, equalPairs_iff, GroupKey.Cols, GroupKey.Values,
      List.length_map, List.map_map]
    rfl
  refine ⟨h1, ?_, ?_⟩
  · intro _ hne
    cases h : k1.Equal k2 with
    | false => rfl
    | true => exact absurd (h1.mp h).2.1 hne
  · intro hp hq
    rw [GroupKey.Equal, equalPairs_typed k1.pairs k2.pairs hp hq]
    constructor
    · intro h
      cases k1; cases k2; simp only at h; rw [h]
    · intro h; rw [h]

/-- Witness of C16: the key of `TestDiff` and the key of the same pairs in the order of
their labels are unequal. -/
theorem C16_groupKey_equal_witness : diffKey.Equal diffKeySorted = false :=
  (C16_groupKey_equal diffKey diffKeySorted).2.1 (by decide) (by decide)

/-! ## C13: the diff of a table with itself, and the empty diff -/

theorem commonPrefix_append_drop (x y : List String) :
    x = commonPrefix x y ++ x.drop (commonPrefix x y).length
    ∧ y = commonPrefix x y ++ y.drop (commonPrefix x y).length := by
  induction x generalizing y with
  | nil => cases y <;> simp [commonPrefix]
  | cons a x ih =>
    cases y with
    | nil => simp [commonPrefix]
    | cons b y =>
      by_cases h : a = b
      · subst h
        obtain ⟨h1, h2⟩ := ih y
        simp only [commonPrefix, if_true, List.cons_append, List.length_cons, List.drop_succ_cons,
          List.cons.injEq, true_and]
        exact ⟨h1, h2⟩
      · simp [commonPrefix, h]

/-- The longest common end of two lists, as `diffLines` computes it, is an end of both,
and what `diffLines` takes as the changed lines is what stands before it. -/
theorem commonSuffix_split (x y : List String) :
    x = x.take (x.length - (commonPrefix x.reverse y.reverse).reverse.length)
          ++ (commonPrefix x.reverse y.reverse).reverse
    ∧ y = y.take (y.length - (commonPrefix x.reverse y.reverse).reverse.length)
          ++ (commonPrefix x.reverse y.reverse).reverse := by
  obtain ⟨h1, h2⟩ := commonPrefix_append_drop x.reverse y.reverse
  generalize commonPrefix x.reverse y.reverse = cp at h1 h2
  have split : ∀ z : List String, z.reverse = cp ++ z.reverse.drop cp.length →
      z = z.take (z.length - cp.reverse.length) ++ cp.reverse := by
    intro z hz
    have hz2 : z = (z.reverse.drop cp.length).reverse ++ cp.reverse := by
      have := congrArg List.reverse hz
      simpa using this
    have hlen : (z.reverse.drop cp.length).reverse.length = z.length - cp.reverse.length := by
      simp
    conv_lhs => rw [hz2]
    congr 1
    rw [← hlen]
    conv_rhs => rw [hz2]
    simp
  exact ⟨split x h1, split y h2⟩

theorem joinWith_ne_empty (sep : String) (ls : List String) (hne : ls ≠ [])
    (hall : ∀ l ∈ ls, l ≠ "") : joinWith sep ls ≠ "" := by
  cases ls with
  | nil => exact absurd rfl hne
  | cons l rest =>
    have hl : l.data ≠ [] := by
      intro h
      apply hall l (List.mem_cons_self _ _)
      exact String.ext h
    cases rest with
    | nil => exact hall l (List.mem_cons_self _ _)
    | cons l2 rest2 =>
      intro h
      have hd := congrArg String.data h
      simp only [joinWith, String.data_append] at hd
      cases hlc : l.data with
      | nil => exact hl hlc
      | cons c cs => rw [hlc] at hd; simp at hd

theorem prefixed_ne_empty (c : String) (hc : c ≠ "") (l : String) : c ++ l ≠ "" := by
  intro h
  have hd := congrArg String.data h
  simp only [String.data_append] at hd
  have h1 : c.data = [] := by
    cases hcd : c.data with
    | nil => rfl
    | cons x xs => rw [hcd] at hd; simp at hd
  exact hc (String.ext h1)

/-- The line diff is empty exactly when the two lists of lines are equal. -/
theorem diffLines_eq_empty (a b : List String) : diffLines a b = "" ↔ a = b := by
  constructor
  · intro h
    by_contra hab
    unfold diffLines at h
    simp only [hab, if_false] at h
    revert h
    apply joinWith_ne_empty
    · intro hnil
      simp only [List.append_eq_nil, List.map_eq_nil_iff] at hnil
      obtain ⟨⟨⟨_, hma⟩, hmb⟩, _⟩ := hnil
      obtain ⟨ha, hb⟩ := commonPrefix_append_drop a b
      obtain ⟨hra, hrb⟩ := commonSuffix_split (a.drop (commonPrefix a b).length)
        (b.drop (commonPrefix a b).length)
      rw [hma] at hra
      rw [hmb] at hrb
      have hdrop : a.drop (commonPrefix a b).length = b.drop (commonPrefix a b).length :=
        hra.trans hrb.symm
      exact hab (ha.trans ((congrArg (fun z => commonPrefix a b ++ z) hdrop).trans hb.symm))
    · intro l hl
      simp only [List.mem_append, List.mem_map] at hl
      rcases hl with ((⟨x, _, rfl⟩ | ⟨x, _, rfl⟩) | ⟨x, _, rfl⟩) | ⟨x, _, rfl⟩ <;>
        exact prefixed_ne_empty _ (by decide) x
  · intro h
    simp [diffLines, h]

/-- C13: the diff of a table with itself is the empty string, and the diff of two tables
is the empty string exactly when their canonical renderings are equal. -/
theorem C13_diff_empty (other : Value → String) :
    (∀ T : Table, Diff other T T = "")
    ∧ ∀ want got : Table,
        Diff other want got = "" ↔ Stringify other want = Stringify other got :=
  ⟨fun _ => (diffLines_eq_empty _ _).mpr rfl, fun _ _ => diffLines_eq_empty _ _⟩

/-! ## C14: the diff of two tables that differ in one cell -/

theorem commonPrefix_differ (pre : List String) (x y : String) (xs ys : List String)
    (hxy : x ≠ y) : commonPrefix (pre ++ x :: xs) (pre ++ y :: ys) = pre := by
  induction pre with
  | nil => simp [commonPrefix, hxy]
  | cons p pre ih => simp [commonPrefix, ih]

/-- The line diff of two lists of lines that differ in one line. -/
theorem diffLines_single (pre post : List String) (x y : String) (hxy : x ≠ y) :
    diffLines (pre ++ x :: post) (pre ++ y :: post)
      = joinWith "\n" ((pre.drop (pre.length - 3)).map (fun l => " " ++ l)
          ++ ["-" ++ x, "+" ++ y] ++ (post.take 3).map (fun l => " " ++ l)) := by
  have hne : pre ++ x :: post ≠ pre ++ y :: post := by
    intro h
    have := List.append_cancel_left h
    simp only [List.cons.injEq] at this
    exact hxy this.1
  have hsuf : commonPrefix (x :: post).reverse (y :: post).reverse = post.reverse := by
    simp only [List.reverse_cons]
    have := commonPrefix_differ post.reverse x y [] [] hxy
    simpa using this
  unfold diffLines
  simp only [hne, if_false, commonPrefix_differ pre x y post post hxy, List.drop_left, hsuf,
    List.reverse_reverse, List.length_cons, Nat.add_sub_cancel_left, List.take_succ_cons,
    List.take_zero, List.map_cons, List.map_nil, List.append_assoc]
  rfl

theorem joinWith_split (sep : String) (l1 : List String) (e : String) (l2 : List String) :
    (joinWith sep (l1 ++ e :: l2)).data
      = (l1.flatMap (fun s => s.data ++ sep.data)) ++ e.data
          ++ (l2.flatMap (fun s => sep.data ++ s.data)) := by
  induction l1 with
  | nil =>
    induction l2 generalizing e with
    | nil => simp [joinWith]
    | cons b l2 ih =>
      have := ih b
      simp only [List.nil_append, List.flatMap_nil] at this ⊢
      simp only [joinWith, String.data_append, this, List.flatMap_cons, List.append_assoc]
  | cons a l1 ih =>
    cases hl : l1 ++ e :: l2 with
    | nil => simp at hl
    | cons b rest =>
      rw [hl] at ih
      simp only [List.cons_append, hl, joinWith, String.data_append, ih, List.flatMap_cons,
        List.append_assoc]

theorem joinWith_differ (sep : String) (l1 : List String) (e e1 : String) (l2 : List String)
    (h : joinWith sep (l1 ++ e :: l2) = joinWith sep (l1 ++ e1 :: l2)) : e = e1 := by
  have hd := congrArg String.data h
  rw [joinWith_split, joinWith_split] at hd
  have h1 := List.append_cancel_right hd
  have h2 := List.append_cancel_left h1
  exact String.ext h2

theorem append_left_cancel_string (a b c : String) (h : a ++ b = a ++ c) : b = c := by
  have hd := congrArg String.data h
  simp only [String.data_append] at hd
  exact String.ext (List.append_cancel_left hd)

/-- Two rows that differ in the rendering of one cell of a column outside the key, and in
no other such cell, have different lines. -/
theorem rowLine_differ (other : Value → String) (t : Table) (r r1 : Object)
    (cs1 cs2 : List ColMeta) (c : ColMeta)
    (hvc : valueCols t = cs1 ++ c :: cs2)
    (hsame : ∀ c1 ∈ cs1 ++ cs2, r.Get c1.Label = r1.Get c1.Label)
    (hdiff : cellString other ((r.Get c.Label).getD Value.null)
      ≠ cellString other ((r1.Get c.Label).getD Value.null)) :
    rowLine other t r ≠ rowLine other t r1 := by
  intro h
  unfold rowLine at h
  rw [hvc] at h
  have h1 := append_left_cancel_string _ _ _ h
  simp only [List.map_append, List.map_cons] at h1
  have e1 : cs1.map (fun c => c.Label ++ "=" ++ cellString other ((r.Get c.Label).getD Value.null))
      = cs1.map (fun c => c.Label ++ "=" ++ cellString other ((r1.Get c.Label).getD Value.null)) := by
    apply List.map_congr_left
    intro c1 hc1
    rw [hsame c1 (List.mem_append_left _ hc1)]
  have e2 : cs2.map (fun c => c.Label ++ "=" ++ cellString other ((r.Get c.Label).getD Value.null))
      = cs2.map (fun c => c.Label ++ "=" ++ cellString other ((r1.Get c.Label).getD Value.null)) := by
    apply List.map_congr_left
    intro c1 hc1
    rw [hsame c1 (List.mem_append_right _ hc1)]
  rw [e1, e2] at h1
  have h2 := joinWith_differ _ _ _ _ _ h1
  exact hdiff (append_left_cancel_string _ _ _ h2)

/-- C14: for two tables with the same group key, the same columns and the same number of
rows that differ in exactly one cell (of a column outside the key, whose two values have
different renderings), the diff is: the unchanged lines before the changed row, at most
three of them, each prefixed with a space; one line prefixed `-`, the rendering of the row
in `want`; immediately after it one line prefixed `+`, the rendering of the row in `got`;
and the unchanged lines after the changed row, at most three of them, each prefixed with a
space. Unchanged lines further away are left out. -/
theorem C14_diff_single_cell (other : Value → String) (want got : Table)
    (rs1 rs2 : List Object) (r r1 : Object) (cs1 cs2 : List ColMeta) (c : ColMeta)
    (hkey : want.key = got.key) (hcols : want.cols = got.cols)
    (hw : want.records = rs1 ++ r :: rs2) (hg : got.records = rs1 ++ r1 :: rs2)
    (hvc : valueCols want = cs1 ++ c :: cs2)
    (hsame : ∀ c1 ∈ cs1 ++ cs2, r.Get c1.Label = r1.Get c1.Label)
    (hdiff : cellString other ((r.Get c.Label).getD Value.null)
      ≠ cellString other ((r1.Get c.Label).getD Value.null)) :
    Diff other want got
      = joinWith "\n"
          (((headerLine other want :: rs1.map (rowLine other want)).drop
              ((rs1.length + 1) - 3)).map (fun l => " " ++ l)
            ++ ["-" ++ rowLine other want r, "+" ++ rowLine other got r1]
            ++ ((rs2.map (rowLine other want)).take 3).map (fun l => " " ++ l)) := by
  have hrow : rowLine other got = rowLine other want := by
    funext x
    simp only [rowLine, valueCols, hkey, hcols]
  have hhead : headerLine other got = headerLine other want := by
    simp only [headerLine, valueCols, hkey, hcols]
  have hne := rowLine_differ other want r r1 cs1 cs2 c hvc hsame hdiff
  have h := diffLines_single (headerLine other want :: rs1.map (rowLine other want))
    (rs2.map (rowLine other want)) (rowLine other want r) (rowLine other want r1) hne
  unfold Diff Stringify
  rw [hw, hg, hhead, hrow]
  simp only [List.map_append, List.map_cons, List.cons_append, List.length_cons,
    List.length_map] at h ⊢
  exact h

set_option maxRecDepth 100000 in
/-- Witness of C14: the two tables of `TestDiff`, which differ in the value of the third
row, and the diff that the test expects. -/
theorem C14_diff_single_cell_witness :
    Diff Value.render diffWant diffGot
      = " # _field=f0,_measurement=m0,t0=a _time=time,_value=int\n"
        ++ " _field=f0,_measurement=m0,t0=a _time=2020-01-01T00:00:00Z,_value=6i\n"
        ++ " _field=f0,_measurement=m0,t0=a _time=2020-01-01T00:00:10Z,_value=7i\n"
        ++ "-_field=f0,_measurement=m0,t0=a _time=2020-01-01T00:00:20Z,_value=4i\n"
        ++ "+_field=f0,_measurement=m0,t0=a _time=2020-01-01T00:00:20Z,_value=3i\n"
        ++ " _field=f0,_measurement=m0,t0=a _time=2020-01-01T00:00:30Z,_value=12i\n"
        ++ " _field=f0,_measurement=m0,t0=a _time=2020-01-01T00:00:40Z,_value=3i\n"
        ++ " _field=f0,_measurement=m0,t0=a _time=2020-01-01T00:00:50Z,_value=9i" :=
  (C14_diff_single_cell Value.render diffWant diffGot
    (diffWant.records.take 2) (diffWant.records.drop 3)
    ((diffWant.records.getD 2 ⟨[]⟩)) ((diffGot.records.getD 2 ⟨[]⟩))
    [⟨"_time", .TTime⟩] [] ⟨"_value", .TInt⟩
    rfl rfl (by decide) (by decide) (by decide) (by decide) (by decide)).trans (by decide)

/-! ## C15: the canonical rendering of a table -/

theorem insertByLabel_perm {α : Type} (label : α → String) (x : α) (ys : List α) :
    (insertByLabel label x ys).Perm (x :: ys) := by
  induction ys with
  | nil => exact List.Perm.refl _
  | cons y ys ih =>
    unfold insertByLabel
    split
    · exact List.Perm.refl _
    · exact (List.Perm.cons y ih).trans (List.Perm.swap x y ys)

theorem sortByLabel_perm {α : Type} (label : α → String) (xs : List α) :
    (sortByLabel label xs).Perm xs := by
  induction xs with
  | nil => exact List.Perm.refl _
  | cons x xs ih =>
    exact (insertByLabel_perm label x (sortByLabel label xs)).trans (List.Perm.cons x ih)

/-- C15 (as amended): the canonical rendering of a table is a header line, which is the
mark `# `, the `label=value` pairs of the group key comma-joined, a space, and the
`label=type` pairs of the columns outside the key comma-joined; followed by one line per
row, in row order, which is the same group-key part, a space, and the `label=value` pairs
of the columns outside the key comma-joined. An int is rendered with the suffix `i`, and
a time in the layout RFC3339 with nanoseconds, whose fraction of a second ends with the
last digit that is not zero and is left out when it is zero. -/
theorem C15_canonical_rendering (other : Value → String) (t : Table) :
    ∃ (ps : List (ColMeta × Value)) (cs : List ColMeta), ps.Perm t.key.pairs
      ∧ cs.Perm (t.cols.filter (fun c => c.Label ∉ t.key.Cols.map (fun kc => kc.Label)))
      ∧ Stringify other t
          = ("# " ++ joinWith "," (ps.map (fun p => p.1.Label ++ "=" ++ cellString other p.2))
              ++ " " ++ joinWith "," (cs.map (fun c => c.Label ++ "=" ++ c.Typ.name)))
            :: t.records.map (fun r =>
                joinWith "," (ps.map (fun p => p.1.Label ++ "=" ++ cellString other p.2))
                  ++ " " ++ joinWith "," (cs.map (fun c =>
                      c.Label ++ "=" ++ cellString other ((r.Get c.Label).getD Value.null))))
      ∧ (∀ i : Int, cellString other (Value.int i) = toString i ++ "i")
      ∧ (∀ ns : Int, cellString other (Value.time ns) = formatRFC3339Nano ns)
      ∧ formatRFC3339Nano 1577836820000000000 = "2020-01-01T00:00:20Z"
      ∧ formatRFC3339Nano 1577836820000000008 = "2020-01-01T00:00:20.000000008Z"
      ∧ formatRFC3339Nano 1577836820500000000 = "2020-01-01T00:00:20.5Z" :=
  ⟨sortByLabel (fun p => p.1.Label) t.key.pairs, valueCols t,
    sortByLabel_perm _ _, sortByLabel_perm _ _, rfl, fun _ => rfl, fun _ => rfl,
    by decide, by decide, by decide⟩

/-- Witness of C15: the rendering of the table `wantI` of `TestDiff`. -/
theorem C15_canonical_rendering_witness :
    ∃ (ps : List (ColMeta × Value)) (cs : List ColMeta), ps.Perm diffWant.key.pairs
      ∧ cs.Perm (diffWant.cols.filter
          (fun c => c.Label ∉ diffWant.key.Cols.map (fun kc => kc.Label)))
      ∧ Stringify Value.render diffWant
          = ("# " ++ joinWith "," (ps.map (fun p => p.1.Label ++ "=" ++ cellString Value.render p.2))
              ++ " " ++ joinWith "," (cs.map (fun c => c.Label ++ "=" ++ c.Typ.name)))
            :: diffWant.records.map (fun r =>
                joinWith "," (ps.map (fun p => p.1.Label ++ "=" ++ cellString Value.render p.2))
                  ++ " " ++ joinWith "," (cs.map (fun c =>
                      c.Label ++ "=" ++ cellString Value.render ((r.Get c.Label).getD Value.null))))
      ∧ (∀ i : Int, cellString Value.render (Value.int i) = toString i ++ "i")
      ∧ (∀ ns : Int, cellString Value.render (Value.time ns) = formatRFC3339Nano ns)
      ∧ formatRFC3339Nano 1577836820000000000 = "2020-01-01T00:00:20Z"
      ∧ formatRFC3339Nano 1577836820000000008 = "2020-01-01T00:00:20.000000008Z"
      ∧ formatRFC3339Nano 1577836820500000000 = "2020-01-01T00:00:20.5Z" :=
  C15_canonical_rendering Value.render diffWant

set_option maxRecDepth 100000 in
/-- C15 fails as stated. The header line of the table `wantI` of `TestDiff` is
`# _field=f0,_measurement=m0,t0=a _time=time,_value=int` (the first line of the diff that
the test expects, after the space of the diff): it begins with the mark `# `, so it is not
of the form `key=value,... label=type,...`, neither with the pairs of the key in the order
of their labels nor in the order in which the key was given. And the time of the third
row, which has no fraction of a second, is rendered as `2020-01-01T00:00:20Z`, without
digits for the nanoseconds. -/
theorem C15_counterexample :
    (Stringify Value.render diffWant).head?
        = some "# _field=f0,_measurement=m0,t0=a _time=time,_value=int"
    ∧ (Stringify Value.render diffWant).head?
        ≠ some "_field=f0,_measurement=m0,t0=a _time=time,_value=int"
    ∧ (Stringify Value.render diffWant).head?
        ≠ some "_measurement=m0,_field=f0,t0=a _time=time,_value=int"
    ∧ (Stringify Value.render diffWant)[3]?
        = some "_field=f0,_measurement=m0,t0=a _time=2020-01-01T00:00:20Z,_value=4i" := by
  decide

/-! ## C18: the histogram of a table -/

/-- The place of a float that is not a NaN lies above -2^63, which stands for the place
of a NaN in the order by which the bins are sorted. -/
theorem floatKey_gt (a : Nat) : -(9223372036854775808 : Int) < floatKey a := by
  unfold floatKey
  have h : a % 2 ^ 63 < 2 ^ 63 := Nat.mod_lt _ (by norm_num)
  norm_num at h ⊢
  split <;> omega

theorem lessFloat_iff (a b : Nat) :
    lessFloat a b = true
      ↔ (if isNaN a then -(9223372036854775808 : Int) else floatKey a)
          < (if isNaN b then -(9223372036854775808 : Int) else floatKey b) := by
  have ha := floatKey_gt a
  have hb := floatKey_gt b
  unfold lessFloat floatLt
  cases hna : isNaN a <;> cases hnb : isNaN b <;> simp <;> omega

theorem floatLe_trans_rank (v p b : Nat) (h : floatLe v p = true)
    (hpb : lessFloat b p = false) : floatLe v b = true := by
  have hb := floatKey_gt b
  have hp := floatKey_gt p
  have hlt : ¬ lessFloat b p = true := by simp [hpb]
  rw [lessFloat_iff] at hlt
  unfold floatLe at h ⊢
  cases hnv : isNaN v <;> cases hnp : isNaN p <;> cases hnb : isNaN b <;>
    simp [hnv, hnp, hnb] at h hlt ⊢ <;> omega

theorem mem_insertFloat (x z : Nat) (ys : List Nat) :
    z ∈ insertFloat x ys ↔ z = x ∨ z ∈ ys := by
  induction ys with
  | nil => simp [insertFloat]
  | cons y ys ih =>
    unfold insertFloat
    split
    · simp only [List.mem_cons, ih]
      tauto
    · simp

theorem insertFloat_sorted (x : Nat) (ys : List Nat)
    (h : ys.Pairwise (fun a b => lessFloat b a = false)) :
    (insertFloat x ys).Pairwise (fun a b => lessFloat b a = false) := by
  induction ys with
  | nil => simp [insertFloat]
  | cons y ys ih =>
    rw [List.pairwise_cons] at h
    unfold insertFloat
    split
    · rename_i hyx
      rw [List.pairwise_cons]
      refine ⟨?_, ih h.2⟩
      intro z hz
      rcases (mem_insertFloat x z ys).mp hz with hz | hz
      · subst hz
        have h1 := (lessFloat_iff y z).mp hyx
        cases hc : lessFloat z y with
        | false => rfl
        | true => have := (lessFloat_iff z y).mp hc; omega
      · exact h.1 z hz
    · rename_i hyx
      rw [List.pairwise_cons]
      refine ⟨?_, List.pairwise_cons.mpr h⟩
      intro z hz
      have hyx2 : ¬ lessFloat y x = true := hyx
      rw [lessFloat_iff] at hyx2
      rcases List.mem_cons.mp hz with hz | hz
      · subst hz
        simpa using hyx
      · have hzy : ¬ lessFloat z y = true := by simp [h.1 z hz]
        rw [lessFloat_iff] at hzy
        cases hc : lessFloat z x with
        | false => rfl
        | true => have := (lessFloat_iff z x).mp hc; omega

theorem sortFloats_sorted (bins : List Nat) :
    (sortFloats bins).Pairwise (fun a b => lessFloat b a = false) := by
  induction bins with
  | nil => simp [sortFloats]
  | cons b bins ih => exact insertFloat_sorted b _ ih

theorem insertFloat_perm (x : Nat) (ys : List Nat) : (insertFloat x ys).Perm (x :: ys) := by
  induction ys with
  | nil => exact List.Perm.refl _
  | cons y ys ih =>
    unfold insertFloat
    split
    · exact (List.Perm.cons y ih).trans (List.Perm.swap x y ys)
    · exact List.Perm.refl _

theorem sortFloats_perm (bins : List Nat) : (sortFloats bins).Perm bins := by
  induction bins with
  | nil => exact List.Perm.refl _
  | cons b bins ih => exact (insertFloat_perm b (sortFloats bins)).trans (List.Perm.cons b ih)

theorem searchBin_eq_none (v : Nat) (s : List Nat) :
    searchBin v s = none ↔ ∀ b ∈ s, floatLe v b = false := by
  induction s with
  | nil => simp [searchBin]
  | cons b s ih =>
    unfold searchBin
    cases h : floatLe v b with
    | true => simp [h]
    | false => simp [h, ih]

/-- The value is counted in the bin at a position exactly when it is at most that bin and
greater than every bin before. -/
theorem searchBin_eq_some (v : Nat) (pre : List Nat) (b : Nat) (rest : List Nat) :
    searchBin v (pre ++ b :: rest) = some pre.length
      ↔ floatLe v b = true ∧ ∀ p ∈ pre, floatLe v p = false := by
  induction pre with
  | nil =>
    simp only [List.nil_append, List.length_nil, List.not_mem_nil, false_implies,
      implies_true, and_true]
    unfold searchBin
    cases h : floatLe v b with
    | true => simp
    | false => simp
  | cons p pre ih =>
    simp only [List.cons_append, List.length_cons, List.mem_cons, forall_eq_or_imp]
    unfold searchBin
    cases h : floatLe v p with
    | true => simp
    | false =>
      simp only [Bool.false_eq_true, if_false, Option.map_eq_some', Nat.add_right_cancel_iff,
        exists_eq_right, ih, true_and]

theorem filter_length_split (vs : List Nat) (A B C : Nat → Bool)
    (h : ∀ v ∈ vs, (C v = true ↔ A v = true ∨ B v = true) ∧ ¬ (A v = true ∧ B v = true)) :
    (vs.filter A).length + (vs.filter B).length = (vs.filter C).length := by
  induction vs with
  | nil => rfl
  | cons v vs ih =>
    have ih1 := ih (fun x hx => h x (List.mem_cons_of_mem _ hx))
    obtain ⟨h1, h2⟩ := h v (List.mem_cons_self _ _)
    simp only [List.filter_cons]
    cases hA : A v <;> cases hB : B v <;> cases hC : C v <;>
      simp [hA, hB, hC] at h1 h2 ⊢ <;> omega

theorem filter_length_mono (vs : List Nat) (A B : Nat → Bool)
    (h : ∀ v, A v = true → B v = true) : (vs.filter A).length ≤ (vs.filter B).length := by
  induction vs with
  | nil => exact Nat.le_refl _
  | cons v vs ih =>
    simp only [List.filter_cons]
    cases hA : A v with
    | false =>
      cases hB : B v with
      | false => simpa using ih
      | true => simp only [Bool.false_eq_true, if_false, if_true, List.length_cons]; omega
    | true =>
      simp only [h v hA, if_true, List.length_cons]
      omega

/-- The running totals of the counts of the bins of a sorted list: for every bin the
number of values that are at most the bin. -/
theorem cumulate_counts (vs : List Nat) (s : List Nat)
    (hs : s.Pairwise (fun a b => lessFloat b a = false)) :
    ∀ (rest pre : List Nat) (total : Nat), s = pre ++ rest →
      total = (vs.filter (fun v => pre.any (fun p => floatLe v p))).length →
      cumulate total ((List.range' pre.length rest.length).map
          (fun i => (vs.filter (fun v => searchBin v s = some i)).length))
        = rest.map (fun b => (vs.filter (fun v => floatLe v b)).length) := by
  intro rest
  induction rest with
  | nil => intro pre total _ _; rfl
  | cons b rest ih =>
    intro pre total hsplit htotal
    have hpre : ∀ p ∈ pre, ∀ v, floatLe v p = true → floatLe v b = true := by
      intro p hp v hv
      rw [hsplit, List.pairwise_append] at hs
      exact floatLe_trans_rank v p b hv (hs.2.2 p hp b (List.mem_cons_self _ _))
    have hstep : (vs.filter (fun v => searchBin v s = some pre.length)).length + total
        = (vs.filter (fun v => floatLe v b)).length := by
      rw [htotal, Nat.add_comm]
      apply filter_length_split
      intro v _
      have hsb := searchBin_eq_some v pre b rest
      rw [← hsplit] at hsb
      simp only [decide_eq_true_eq, hsb, List.any_eq_true]
      constructor
      · constructor
        · intro hvb
          by_cases hany : ∃ p ∈ pre, floatLe v p = true
          · exact Or.inl hany
          · refine Or.inr ⟨hvb, ?_⟩
            intro p hp
            cases hc : floatLe v p with
            | false => rfl
            | true => exact absurd ⟨p, hp, hc⟩ hany
        · rintro (⟨p, hp, hvp⟩ | ⟨hvb, _⟩)
          · exact hpre p hp v hvp
          · exact hvb
      · rintro ⟨⟨p, hp, hvp⟩, _, hnone⟩
        rw [hnone p hp] at hvp
        exact Bool.noConfusion hvp
    simp only [List.length_cons, List.range'_succ, List.map_cons, cumulate, List.cons.injEq]
    refine ⟨hstep, ?_⟩
    have hnext := ih (pre ++ [b]) (total + (vs.filter (fun v => searchBin v s = some pre.length)).length)
      (by rw [hsplit]; simp) ?_
    · simpa using hnext
    · rw [Nat.add_comm, hstep]
      congr 1
      apply List.filter_congr
      intro v _
      simp only [List.any_append, List.any_cons, List.any_nil, Bool.or_false]
      cases hvb : floatLe v b with
      | true => simp
      | false =>
        simp only [Bool.or_false]
        cases hany : pre.any (fun p => floatLe v p) with
        | false => rfl
        | true =>
          obtain ⟨p, hp, hvp⟩ := List.any_eq_true.mp hany
          rw [hpre p hp v hvp] at hvb
          exact Bool.noConfusion hvb

theorem floatsOf_append (column : String) (xs ys : List Object) :
    floatsOf column (xs ++ ys) = floatsOf column xs ++ floatsOf column ys := by
  simp [floatsOf, List.filterMap_append]

theorem doBatches_floats (column : String) (batches : List ColReader) :
    ∀ acc : List Nat,
      doBatches (fun (vs : List Nat) (cr : ColReader) =>
          (vs ++ floatsOf column cr.records, (none : Option Error))) acc batches
        = (acc ++ floatsOf column (batches.flatMap ColReader.records), none) := by
  induction batches with
  | nil => intro acc; simp [doBatches, floatsOf]
  | cons cr rest ih =>
    intro acc
    simp only [doBatches, List.flatMap_cons, floatsOf_append]
    rw [ih, List.append_assoc]

/-- C18 (as amended): for every input table that has not been read, whose value column is
a float column, and every list of bins, in any order, in which every value that is not
null is at most some bin: the histogram is one table with the key of the input and, as
columns, the columns of the key, the upper-bound column and the count column; it has
exactly one row per bin, in ascending order of the upper bounds. With `Normalize` unset
the count of the row with the upper bound `b` is the number of values that are not null
with `v <= b`, and the counts do not decrease down the table. With `Normalize` set the
count of the row is that number divided by the number of values that are not null; these
counts do not decrease either when there is such a value. -/
theorem C18_histogram_counts (spec : HistogramOpSpec) (tbl : Table) (c : ColMeta)
    (hcol : tbl.cols.find? (fun x => x.Label == spec.Column) = some c)
    (hfloat : c.Typ = ColType.TFloat) (hdone : tbl.done = false)
    (hle : ∀ v ∈ floatsOf spec.Column tbl.records, ∃ b ∈ spec.Bins, floatLe v b = true) :
    ∃ out, histogram spec tbl = .ok out
      ∧ out.key = tbl.key
      ∧ out.cols = tbl.key.Cols ++ [⟨spec.UpperBoundColumn, .TFloat⟩, ⟨spec.CountColumn, .TFloat⟩]
      ∧ out.bounds.Perm spec.Bins
      ∧ out.bounds.Pairwise (fun a b => lessFloat b a = false)
      ∧ (spec.Normalize = false →
          out.counts = out.bounds.map (fun b => CountCell.whole
            ((floatsOf spec.Column tbl.records).filter (fun v => floatLe v b)).length))
      ∧ (spec.Normalize = true →
          out.counts = out.bounds.map (fun b => CountCell.quotient
            ((floatsOf spec.Column tbl.records).filter (fun v => floatLe v b)).length
            (floatsOf spec.Column tbl.records).length))
      ∧ ((spec.Normalize = false ∨ floatsOf spec.Column tbl.records ≠ []) →
          (out.counts.map CountCell.value).Pairwise (fun x y => x ≤ y)) := by
  have hfind : (floatsOf spec.Column tbl.records).find?
      (fun v => searchBin v (sortFloats spec.Bins) = none) = none := by
    rw [List.find?_eq_none]
    intro v hv
    obtain ⟨b, hb, hvb⟩ := hle v hv
    simp only [decide_eq_true_eq, searchBin_eq_none, not_forall]
    exact ⟨b, (sortFloats_perm spec.Bins).mem_iff.mpr hb, by simp [hvb]⟩
  have hcounts := cumulate_counts (floatsOf spec.Column tbl.records) (sortFloats spec.Bins)
    (sortFloats_sorted spec.Bins) (sortFloats spec.Bins) [] 0 rfl (by simp)
  simp only [List.length_nil, ← List.range_eq_range'] at hcounts
  have hres : histogram spec tbl = .ok
      { key := tbl.Key
        cols := tbl.Key.Cols ++ [⟨spec.UpperBoundColumn, .TFloat⟩, ⟨spec.CountColumn, .TFloat⟩]
        bounds := sortFloats spec.Bins
        counts := (sortFloats spec.Bins).map (fun b =>
          if spec.Normalize then CountCell.quotient
            ((floatsOf spec.Column tbl.records).filter (fun v => floatLe v b)).length
            (floatsOf spec.Column tbl.records).length
          else CountCell.whole
            ((floatsOf spec.Column tbl.records).filter (fun v => floatLe v b)).length) } := by
    unfold histogram
    simp only [hcol, hfloat, ne_eq, not_true_eq_false, if_false, Table.Do, hdone,
      Bool.false_eq_true, doBatches_floats, List.nil_append]
    rw [← Table.records, hfind]
    simp only [hcounts, List.map_map]
    rfl
  have hmono : ∀ a b, lessFloat b a = false →
      ((floatsOf spec.Column tbl.records).filter (fun v => floatLe v a)).length
        ≤ ((floatsOf spec.Column tbl.records).filter (fun v => floatLe v b)).length := by
    intro a b hab
    apply filter_length_mono
    intro v hv
    exact floatLe_trans_rank v a b hv hab
  refine ⟨_, hres, rfl, rfl, sortFloats_perm spec.Bins, sortFloats_sorted spec.Bins,
    ?_, ?_, ?_⟩
  · intro hn
    simp [hn]
  · intro hn
    simp [hn]
  · intro hn
    simp only [List.map_map]
    rw [List.pairwise_map]
    refine (sortFloats_sorted spec.Bins).imp ?_
    intro a b hab
    have hm := hmono a b hab
    cases hN : spec.Normalize with
    | false =>
      simp only [Function.comp, hN, Bool.false_eq_true, if_false, CountCell.value, Nat.cast_le]
      exact hm
    | true =>
      simp only [Function.comp, hN, if_true, CountCell.value]
      have hpos : (0 : ℚ) ≤ ((floatsOf spec.Column tbl.records).length : ℚ) :=
        Nat.cast_nonneg _
      exact div_le_div_of_nonneg_right (by exact_mod_cast hm) hpos

set_option maxRecDepth 10000 in
/-- Witness of C18: `TestHistogram_Process/logarithmic unsorted`: the bins 1, 64, 2, 4, 16,
8, 32 and the values 2, 31, 12, 38, 24, 40, 30, 28, 17, 8 give the rows of the bins in
ascending order with the counts 0, 1, 1, 2, 3, 8, 10; and `linear+normalize`: with
`Normalize` set the counts are divided by the number of values. -/
theorem C18_histogram_counts_witness :
    (∃ out, histogram (histogramSpec [1, 64, 2, 4, 16, 8, 32] false) histogramLinear = .ok out
      ∧ out.key = histogramLinear.key
      ∧ out.cols = histogramLinear.key.Cols ++ [⟨"le", .TFloat⟩, ⟨"_value", .TFloat⟩]
      ∧ out.bounds.Perm ([1, 64, 2, 4, 16, 8, 32].map floatOfNat)
      ∧ out.bounds.Pairwise (fun a b => lessFloat b a = false)
      ∧ out.counts = out.bounds.map (fun b => CountCell.whole
          ((floatsOf "_value" histogramLinear.records).filter (fun v => floatLe v b)).length)
      ∧ (out.counts.map CountCell.value).Pairwise (fun x y => x ≤ y))
    ∧ (histogram (histogramSpec [1, 64, 2, 4, 16, 8, 32] false) histogramLinear).toOption
        = some { key := histogramLinear.key
                 cols := [⟨"_start", .TTime⟩, ⟨"_stop", .TTime⟩, ⟨"le", .TFloat⟩,
                          ⟨"_value", .TFloat⟩]
                 bounds := [1, 2, 4, 8, 16, 32, 64].map floatOfNat
                 counts := [0, 1, 1, 2, 3, 8, 10].map CountCell.whole }
    ∧ (histogram (histogramSpec [0, 10, 20, 30, 40] true) histogramLinear).toOption
        = some { key := histogramLinear.key
                 cols := [⟨"_start", .TTime⟩, ⟨"_stop", .TTime⟩, ⟨"le", .TFloat⟩,
                          ⟨"_value", .TFloat⟩]
                 bounds := [0, 10, 20, 30, 40].map floatOfNat
                 counts := [0, 2, 4, 7, 10].map (fun n => CountCell.quotient n 10) } := by
  refine ⟨?_, by decide, by decide⟩
  obtain ⟨out, h1, h2, h3, h4, h5, h6, _, h8⟩ :=
    C18_histogram_counts (histogramSpec [1, 64, 2, 4, 16, 8, 32] false) histogramLinear
      ⟨"_value", .TFloat⟩ (by decide) rfl rfl (by decide)
  exact ⟨out, h1, h2, h3, h4, h5, h6 rfl, h8 (Or.inl rfl)⟩

set_option maxRecDepth 10000 in
/-- C18 fails as stated. In `TestHistogram_Process/linear+normalize` the spec has
`Normalize` set: for the bins 0, 10, 20, 30, 40 and the ten values of `linear`, all at
most 40, the counts of the rows are 0/10, 2/10, 4/10, 7/10 and 10/10 (0.0, 0.2, 0.4, 0.7,
1.0 in the test). The row with the upper bound 10 has the count 0.2, and the number of
values that are at most 10 is 2. -/
theorem C18_counterexample :
    (histogram (histogramSpec [0, 10, 20, 30, 40] true) histogramLinear).toOption
        = some { key := histogramLinear.key
                 cols := [⟨"_start", .TTime⟩, ⟨"_stop", .TTime⟩, ⟨"le", .TFloat⟩,
                          ⟨"_value", .TFloat⟩]
                 bounds := [0, 10, 20, 30, 40].map floatOfNat
                 counts := [.quotient 0 10, .quotient 2 10, .quotient 4 10, .quotient 7 10,
                            .quotient 10 10] }
    ∧ (∀ v ∈ floatsOf "_value" histogramLinear.records, floatLe v (floatOfNat 40) = true)
    ∧ ((floatsOf "_value" histogramLinear.records).filter
        (fun v => floatLe v (floatOfNat 10))).length = 2
    ∧ (CountCell.quotient 2 10).value = 1 / 5
    ∧ (CountCell.quotient 2 10).value ≠ 2 := by
  refine ⟨by decide, by decide, by decide, ?_, ?_⟩ <;> norm_num [CountCell.value]

/-! ## C19: the rows that the sample selector selects -/

/-- With `N` at least 1 and enough fuel the loop of the selection ends: it selects the
indices `i`, `i + N`, `i + 2N`, ... below `l`, and stops at the first of them that is not
below `l`. -/
theorem sampleLoop_spec (n l : Nat) (hn : 1 ≤ n) :
    ∀ (fuel i : Nat) (sel : List Nat), l - i < fuel →
      ∃ out k, sampleLoop n l fuel i sel = some (sel ++ out, i + k * n)
        ∧ l ≤ i + k * n ∧ (k = 0 ∨ i + k * n < l + n)
        ∧ ∀ x, x ∈ out ↔ ∃ j, x = i + j * n ∧ x < l := by
  intro fuel
  induction fuel with
  | zero => intro i sel h; omega
  | succ fuel ih =>
    intro i sel hfuel
    unfold sampleLoop
    by_cases hil : i < l
    · obtain ⟨out, k, hloop, hle, hk, hmem⟩ := ih (i + n) (sel ++ [i]) (by omega)
      have hmul : (k + 1) * n = k * n + n := Nat.succ_mul k n
      refine ⟨i :: out, k + 1, ?_, ?_, Or.inr ?_, ?_⟩
      · simp only [hil, if_true, hloop, List.append_assoc, List.singleton_append]
        have e : i + n + k * n = i + (k + 1) * n := by rw [hmul]; omega
        rw [e]
      · rw [hmul]; omega
      · rw [hmul]
        rcases hk with hk | hk
        · rw [hk]
          simp only [Nat.zero_mul, Nat.zero_add]
          omega
        · omega
      · intro x
        simp only [List.mem_cons, hmem]
        constructor
        · rintro (hx | ⟨j, hx, hxl⟩)
          · exact ⟨0, by omega, by omega⟩
          · have hj : (j + 1) * n = j * n + n := Nat.succ_mul j n
            exact ⟨j + 1, by omega, hxl⟩
        · rintro ⟨j, hx, hxl⟩
          cases j with
          | zero => exact Or.inl (by omega)
          | succ j =>
            have hj : (j + 1) * n = j * n + n := Nat.succ_mul j n
            exact Or.inr ⟨j, by omega, hxl⟩
    · refine ⟨[], 0, ?_, by omega, Or.inl rfl, ?_⟩
      · simp [hil]
      · intro x
        simp only [List.not_mem_nil, false_iff, not_exists, not_and]
        intro j hx
        have : 0 ≤ j * n := Nat.zero_le _
        omega

theorem exists_mul_iff_mod (n pos p : Nat) (hpos : pos < n) :
    (∃ j, p = pos + j * n) ↔ p % n = pos := by
  constructor
  · rintro ⟨j, rfl⟩
    rw [Nat.add_mul_mod_self_right]
    exact Nat.mod_eq_of_lt hpos
  · intro h
    exact ⟨p / n, by rw [← h]; exact (Nat.mod_add_div' p n).symm⟩

/-- The selections over the batches of a table, from a state in which the next row to
select is the first row at or after the start of the next batch whose position is `pos`
plus a multiple of `N`. -/
theorem selectBatches_spec (n pos : Nat) (hn : 1 ≤ n) :
    ∀ (ls : List Nat) (s : SampleSelector) (start J : Nat),
      s.N = n → s.offset < n → start + s.offset = pos + J * n →
      ∃ s1 sels, s.selectBatches ls = some (s1, sels)
        ∧ List.Forall₂ (fun l sel => ∀ i ∈ sel, i < l) ls sels
        ∧ ∀ p, p ∈ positionsFrom start ls sels
            ↔ start ≤ p ∧ p < start + ls.sum ∧ ∃ j, p = pos + j * n := by
  intro ls
  induction ls with
  | nil =>
    intro s start J _ _ _
    refine ⟨s, [], rfl, List.Forall₂.nil, ?_⟩
    intro p
    simp only [positionsFrom, List.not_mem_nil, List.sum_nil, false_iff]
    omega
  | cons l ls ih =>
    intro s start J hN hoff hstart
    obtain ⟨out, k, hloop, hle, hk, hmem⟩ :=
      sampleLoop_spec n l hn (l + 1) s.offset [] (by omega)
    have hoff1 : s.offset + k * n - l < n := by
      rcases hk with hk | hk
      · subst hk; omega
      · omega
    have hJk : (J + k) * n = J * n + k * n := Nat.add_mul J k n
    obtain ⟨s1, sels, hrest, hall, hpos⟩ :=
      ih { s with offset := s.offset + k * n - l, selected := out } (start + l) (J + k)
        hN hoff1 (by simp only; omega)
    simp only [hN] at hrest
    refine ⟨s1, out :: sels, ?_, ?_, ?_⟩
    · simp only [SampleSelector.selectBatches, SampleSelector.selectSample, hN, hloop,
        List.nil_append, hrest]
    · refine List.Forall₂.cons ?_ hall
      intro i hi
      obtain ⟨j, _, hil⟩ := (hmem i).mp hi
      exact hil
    · intro p
      simp only [positionsFrom, List.mem_append, List.mem_map, hpos, List.sum_cons, hmem]
      constructor
      · rintro (⟨x, ⟨j, hx, hxl⟩, hp⟩ | ⟨h1, h2, h3⟩)
        · have hJj : (J + j) * n = J * n + j * n := Nat.add_mul J j n
          exact ⟨by omega, by omega, J + j, by omega⟩
        · exact ⟨by omega, by omega, h3⟩
      · rintro ⟨h1, h2, j, hj⟩
        by_cases hpl : p < start + l
        · left
          have hJj : J ≤ j := by
            by_contra hlt
            have h3 : (j + 1) * n ≤ J * n := Nat.mul_le_mul_right n (by omega)
            have h4 : (j + 1) * n = j * n + n := Nat.succ_mul j n
            omega
          have h5 : (J + (j - J)) * n = J * n + (j - J) * n := Nat.add_mul J (j - J) n
          have h6 : J + (j - J) = j := by omega
          rw [h6] at h5
          exact ⟨p - start, ⟨j - J, by omega, by omega⟩, by omega⟩
        · right
          exact ⟨by omega, by omega, j, hj⟩

/-- C19: for every sample selector with `N` at least 1 and `Pos` from 0 up to `N - 1`, and
every table delivered as a sequence of batches (given by their lengths): the selection
ends, the indices reported for a batch are indices of rows of that batch, and the rows
selected are exactly those whose position `p` in the whole table, counted from 0, has
`p mod N = Pos`. So the selected rows are the same for every other split of the rows of
the table into batches. -/
theorem C19_sample_positions (s : SampleSelector) (rand pos : Nat) (ls : List Nat)
    (hn : 1 ≤ s.N) (hpos : s.Pos = (pos : Int)) (hlt : pos < s.N) :
    ∃ s1 sels, (s.reset rand).selectBatches ls = some (s1, sels)
      ∧ List.Forall₂ (fun l sel => ∀ i ∈ sel, i < l) ls sels
      ∧ (∀ p, p ∈ positionsFrom 0 ls sels ↔ p < ls.sum ∧ p % s.N = pos)
      ∧ ∀ ls2 : List Nat, ls2.sum = ls.sum →
          ∃ s2 sels2, (s.reset rand).selectBatches ls2 = some (s2, sels2)
            ∧ ∀ p, p ∈ positionsFrom 0 ls2 sels2 ↔ p ∈ positionsFrom 0 ls sels := by
  have hoff : (s.reset rand).offset = pos := by
    simp [SampleSelector.reset, hpos]
  have hgen : ∀ l0 : List Nat, ∃ s1 sels, (s.reset rand).selectBatches l0 = some (s1, sels)
      ∧ List.Forall₂ (fun l sel => ∀ i ∈ sel, i < l) l0 sels
      ∧ ∀ p, p ∈ positionsFrom 0 l0 sels ↔ p < l0.sum ∧ p % s.N = pos := by
    intro l0
    obtain ⟨s1, sels, h1, h2, h3⟩ := selectBatches_spec s.N pos hn l0 (s.reset rand) 0 0 rfl
      (by rw [hoff]; exact hlt) (by rw [hoff]; simp)
    refine ⟨s1, sels, h1, h2, ?_⟩
    intro p
    rw [h3, exists_mul_iff_mod s.N pos p hlt]
    simp
  obtain ⟨s1, sels, h1, h2, h3⟩ := hgen ls
  refine ⟨s1, sels, h1, h2, h3, ?_⟩
  intro ls2 hsum
  obtain ⟨s2, sels2, g1, _, g3⟩ := hgen ls2
  refine ⟨s2, sels2, g1, ?_⟩
  intro p
  rw [g3, h3, hsum]

/-- Witness of C19: `TestSample_Process/every-third-2 in separate Do calls` and
`every-third-2`: with `N` 3 and `Pos` 2, ten batches of one row give the index 0 in the
third, sixth and ninth batch, and one batch of ten rows gives the indices 2, 5 and 8: in
both cases the rows at the positions 2, 5 and 8 of the table. -/
theorem C19_sample_positions_witness :
    (∃ s1 sels, ((SampleSelector.mk 3 2 0 []).reset 0).selectBatches (List.replicate 10 1)
          = some (s1, sels)
      ∧ List.Forall₂ (fun l sel => ∀ i ∈ sel, i < l) (List.replicate 10 1) sels
      ∧ (∀ p, p ∈ positionsFrom 0 (List.replicate 10 1) sels
          ↔ p < (List.replicate 10 1).sum ∧ p % (SampleSelector.mk 3 2 0 []).N = 2)
      ∧ ∀ ls2 : List Nat, ls2.sum = (List.replicate 10 1).sum →
          ∃ s2 sels2, ((SampleSelector.mk 3 2 0 []).reset 0).selectBatches ls2 = some (s2, sels2)
            ∧ ∀ p, p ∈ positionsFrom 0 ls2 sels2
                ↔ p ∈ positionsFrom 0 (List.replicate 10 1) sels)
    ∧ (((SampleSelector.mk 3 2 0 []).reset 0).selectBatches (List.replicate 10 1)).map
          (fun r => r.2)
        = some [[], [], [0], [], [], [0], [], [], [0], []]
    ∧ (((SampleSelector.mk 3 2 0 []).reset 0).selectBatches [10]).map (fun r => r.2)
        = some [[2, 5, 8]] :=
  ⟨C19_sample_positions (SampleSelector.mk 3 2 0 []) 0 2 (List.replicate 10 1)
      (by decide) rfl (by decide),
   by decide, by decide⟩

/-! ## C21, C30: the iox provider of a context -/

/-- C21: for every context and every provider `p` that is not nil, `GetProvider` on the
context into which `Dependency{Provider: p}` was injected returns `p`; so after several
injections the provider injected last is returned, whatever was injected before, and
values that other packages store in the context afterwards do not change that. -/
theorem C21_getProvider_inject (ctx : Context) (p : Provider) :
    GetProvider ((Dependency.mk (some p)).Inject ctx) = some p
    ∧ (∀ d : Dependency, GetProvider ((Dependency.mk (some p)).Inject (d.Inject ctx)) = some p)
    ∧ (∀ ds : List Dependency,
        GetProvider ((Dependency.mk (some p)).Inject (ds.foldr Dependency.Inject ctx)) = some p)
    ∧ (∀ key val : String,
        GetProvider (ContextEntry.foreign key val :: (Dependency.mk (some p)).Inject ctx)
          = some p) :=
  ⟨rfl, fun _ => rfl, fun _ => rfl, fun _ _ => rfl⟩

theorem clientValue_foreign (ctx : Context)
    (h : ∀ e ∈ ctx, ∃ key val, e = ContextEntry.foreign key val) :
    ctx.clientValue = none := by
  induction ctx with
  | nil => rfl
  | cons e ctx ih =>
    obtain ⟨key, val, he⟩ := h e (List.mem_cons_self _ _)
    subst he
    exact ih (fun x hx => h x (List.mem_cons_of_mem _ hx))

/-- C30: `GetProvider` never returns a nil provider. For a context into which no iox
dependency was injected, and for one into which `Dependency{Provider: nil}` was injected
last, it returns `ErrorProvider{}`; and `ClientFor` of an `ErrorProvider` returns a nil
client and the error `iox client has not been configured` of code `Invalid`, for every
context and configuration. -/
theorem C30_getProvider_never_nil (ctx : Context) :
    GetProvider ctx ≠ none
    ∧ ((∀ e ∈ ctx, ∃ key val, e = ContextEntry.foreign key val) →
        GetProvider ctx = some (Provider.errorProvider {}))
    ∧ GetProvider ((Dependency.mk none).Inject ctx) = some (Provider.errorProvider {})
    ∧ ∀ (u : ErrorProvider) (ctx1 : Context) (conf : Config),
        u.ClientFor ctx1 conf
          = (none, some ⟨Code.Invalid, "iox client has not been configured"⟩) := by
  refine ⟨?_, ?_, rfl, fun _ _ _ => rfl⟩
  · unfold GetProvider
    cases ctx.clientValue <;> simp
  · intro h
    unfold GetProvider
    rw [clientValue_foreign ctx h]

/-- Witness of C30: a context that carries only a value of another package. -/
theorem C30_getProvider_never_nil_witness :
    GetProvider [ContextEntry.foreign "trace" "on"] = some (Provider.errorProvider {}) :=
  (C30_getProvider_never_nil [ContextEntry.foreign "trace" "on"]).2.1
    (fun e he => ⟨"trace", "on", by simpa using he⟩)

/-! ## C22: the keys transformation forwards lifecycle events -/

/-- C22: for every upstream id, `RetractTable(id, key)` of the keys transformation is the
call `RetractTable(key)` on its dataset, `UpdateWatermark(id, t)` and
`UpdateProcessingTime(id, t)` are the calls of the same name on the dataset with the same
time, each with exactly the result of the dataset, and `Finish(id, err)` is the call
`Finish(err)` on the dataset with the same error. The dataset afterwards is the dataset
after that one call, and the cache and the column setting stay as they are. -/
theorem C22_keys_forwards_events (t : keysTransformation) (id : DatasetID) (key : GroupKey)
    (mark : Time) (err : Option Error) :
    ((t.RetractTable id key).2 = (t.d.RetractTable key).2
      ∧ (t.RetractTable id key).1 = { t with d := (t.d.RetractTable key).1 })
    ∧ ((t.UpdateWatermark id mark).2 = (t.d.UpdateWatermark mark).2
      ∧ (t.UpdateWatermark id mark).1 = { t with d := (t.d.UpdateWatermark mark).1 })
    ∧ ((t.UpdateProcessingTime id mark).2 = (t.d.UpdateProcessingTime mark).2
      ∧ (t.UpdateProcessingTime id mark).1
          = { t with d := (t.d.UpdateProcessingTime mark).1 })
    ∧ t.Finish id err = { t with d := t.d.Finish err }
    ∧ (t.d.status = DatasetStatus.Running →
        (t.RetractTable id key).1.d.downstream
            = t.d.downstream ++ [Signal.RetractTable key]
        ∧ (t.UpdateWatermark id mark).1.d.downstream
            = t.d.downstream ++ [Signal.UpdateWatermark mark]
        ∧ (t.UpdateProcessingTime id mark).1.d.downstream
            = t.d.downstream ++ [Signal.UpdateProcessingTime mark]) := by
  refine ⟨⟨rfl, rfl⟩, ⟨rfl, rfl⟩, ⟨rfl, rfl⟩, rfl, ?_⟩
  intro h
  simp [keysTransformation.RetractTable, keysTransformation.UpdateWatermark,
    keysTransformation.UpdateProcessingTime, Dataset.RetractTable, Dataset.UpdateWatermark,
    Dataset.UpdateProcessingTime, h]

/-- Witness of C22: a running dataset passes the retraction, the watermark and the
processing time on with the same key and the same time. -/
theorem C22_keys_forwards_events_witness :
    ((NewKeysTransformation exampleDataset NewTableBuilderCache ⟨"_value"⟩).RetractTable 3
        exampleKey).1.d.downstream = [Signal.RetractTable exampleKey]
    ∧ ((NewKeysTransformation exampleDataset NewTableBuilderCache ⟨"_value"⟩).UpdateWatermark 3
        20).1.d.downstream = [Signal.UpdateWatermark 20]
    ∧ ((NewKeysTransformation exampleDataset NewTableBuilderCache ⟨"_value"⟩).UpdateProcessingTime
        3 20).1.d.downstream = [Signal.UpdateProcessingTime 20] :=
  (C22_keys_forwards_events (NewKeysTransformation exampleDataset NewTableBuilderCache ⟨"_value"⟩)
    3 exampleKey 20 none).2.2.2.2 rfl

/-! ## C23: a wrong spec type is an `Internal` error -/

/-- C23: `newKeysProcedure` returns an error exactly when the operation spec is not a
`*KeysOpSpec`, the error has the code `Internal`, and for a `*KeysOpSpec` (a pointer to a
spec) it returns a `KeysProcedureSpec` with the same `Column`; `newYieldProcedure` returns
an error exactly when the spec is not a `*YieldOpSpec`, the error has the code `Internal`,
and for a `*YieldOpSpec` it returns a `YieldProcedureSpec` with the same `Name`;
`createKeysTransformation` returns an error, and no transformation or dataset, exactly
when the procedure spec is not a `*KeysProcedureSpec`, the error has the code `Internal`,
and for a `*KeysProcedureSpec` it returns a transformation with the column of the spec and
its dataset. -/
theorem C23_wrong_spec_type (qs : OperationSpec) (ps : ProcedureSpec) (id : DatasetID)
    (mode : AccumulationMode) :
    ((∃ e, newKeysProcedure qs = .fails e) ↔ ¬ ∃ p, qs = OperationSpec.keys p)
    ∧ (∀ e, newKeysProcedure qs = .fails e → e.code = Code.Internal)
    ∧ (∀ spec : KeysOpSpec, newKeysProcedure (.keys (some spec))
        = .returns (.keys (some { Column := spec.Column })))
    ∧ ((∃ e, newYieldProcedure qs = .fails e) ↔ ¬ ∃ p, qs = OperationSpec.yield p)
    ∧ (∀ e, newYieldProcedure qs = .fails e → e.code = Code.Internal)
    ∧ (∀ spec : YieldOpSpec, newYieldProcedure (.yield (some spec))
        = .returns (.yield (some { Name := spec.Name })))
    ∧ ((∃ e, createKeysTransformation id mode ps = .fails e)
        ↔ ¬ ∃ p, ps = ProcedureSpec.keys p)
    ∧ (∀ e, createKeysTransformation id mode ps = .fails e → e.code = Code.Internal)
    ∧ (∀ s : KeysProcedureSpec, ∃ t d,
        createKeysTransformation id mode (.keys (some s)) = .returns (t, d)
        ∧ t.column = s.Column ∧ t.d = d ∧ d.id = id ∧ t.cache = NewTableBuilderCache) := by
  refine ⟨?_, ?_, fun _ => rfl, ?_, ?_, fun _ => rfl, ?_, ?_, fun s => ⟨_, _, rfl, rfl, rfl, rfl, rfl⟩⟩
  · cases qs with
    | keys p => cases p <;> simp [newKeysProcedure]
    | nil => simp [newKeysProcedure]
    | yield p => simp [newKeysProcedure]
    | other n => simp [newKeysProcedure]
  · intro e h
    cases qs with
    | keys p => cases p <;> simp [newKeysProcedure] at h
    | nil => simp only [newKeysProcedure, Call.fails.injEq] at h; rw [← h]
    | yield p => simp only [newKeysProcedure, Call.fails.injEq] at h; rw [← h]
    | other n => simp only [newKeysProcedure, Call.fails.injEq] at h; rw [← h]
  · cases qs with
    | yield p => cases p <;> simp [newYieldProcedure]
    | nil => simp [newYieldProcedure]
    | keys p => simp [newYieldProcedure]
    | other n => simp [newYieldProcedure]
  · intro e h
    cases qs with
    | yield p => cases p <;> simp [newYieldProcedure] at h
    | nil => simp only [newYieldProcedure, Call.fails.injEq] at h; rw [← h]
    | keys p => simp only [newYieldProcedure, Call.fails.injEq] at h; rw [← h]
    | other n => simp only [newYieldProcedure, Call.fails.injEq] at h; rw [← h]
  · cases ps with
    | keys p => cases p <;> simp [createKeysTransformation]
    | nil => simp [createKeysTransformation]
    | yield p => simp [createKeysTransformation]
    | other n => simp [createKeysTransformation]
  · intro e h
    cases ps with
    | keys p => cases p <;> simp [createKeysTransformation] at h
    | nil => simp only [createKeysTransformation, Call.fails.injEq] at h; rw [← h]
    | yield p => simp only [createKeysTransformation, Call.fails.injEq] at h; rw [← h]
    | other n => simp only [createKeysTransformation, Call.fails.injEq] at h; rw [← h]

/-- Witness of C23: a yield spec given to `newKeysProcedure` is an `Internal` error. -/
theorem C23_wrong_spec_type_witness :
    newKeysProcedure (.yield (some ⟨"r"⟩))
        = .fails ⟨Code.Internal, "invalid spec type *universe.YieldOpSpec"⟩
    ∧ (⟨Code.Internal, "invalid spec type *universe.YieldOpSpec"⟩ : Error).code
        = Code.Internal :=
  ⟨rfl, (C23_wrong_spec_type (.yield (some ⟨"r"⟩)) .nil 0 .DiscardingMode).2.1 _ rfl⟩

/-! ## C24: which builders are released -/

theorem foldl_UnsafeAppend (vs : List Int) :
    ∀ b : Builder, (vs.foldl (fun b v => b.UnsafeAppend v) b)
      = { b with vals := b.vals ++ vs.map Value.int } := by
  induction vs with
  | nil => intro b; simp
  | cons v vs ih =>
    intro b
    rw [List.foldl_cons, ih]
    simp [Builder.UnsafeAppend]

theorem AppendValue_released {b b1 : Builder} {v : Value} (h : AppendValue b v = .ok b1) :
    b1.released = b.released := by
  rw [AppendValue_ok_eq h]
  rfl

theorem appendZip_released (record : Object) (cols : List ColMeta) :
    ∀ bs : List Builder,
      (appendZip record cols bs).1.map (fun b => b.released) = bs.map (fun b => b.released) := by
  induction cols with
  | nil => intro bs; rfl
  | cons c cols ih =>
    intro bs
    cases hg : record.Get c.Label with
    | none => simp [appendZip, hg]
    | some v =>
      cases bs with
      | nil => simp [appendZip, hg]
      | cons bi bs1 =>
        cases ha : AppendValue bi v with
        | error e => simp [appendZip, hg, ha]
        | ok b1 => simp [appendZip, hg, ha, ih bs1, AppendValue_released ha]

theorem AppendRecords_released (recs : List Object) :
    ∀ b : ChunkBuilder,
      (b.AppendRecords recs).1.builders.map (fun x => x.released)
        = b.builders.map (fun x => x.released) := by
  induction recs with
  | nil => intro b; rfl
  | cons r recs ih =>
    intro b
    simp only [ChunkBuilder.AppendRecords, ih, AppendRecord_eq_appendZip, appendZip_released]

/-- C24 (as amended): `arrow.NewInt` releases its builder after `NewIntArray`, on every
input: the array holds the values and the builder is left released. `ChunkBuilder.Build`
calls `NewArray` on every column builder and does not release any: every builder is
released after `Build` exactly if it was before, so after any sequence of `AppendRecord`
calls on a ChunkBuilder made by `NewChunkBuilder`, and `Build`, every column builder is
finalized (it holds no values) and unreleased. -/
theorem C24_released_builders (vs : List Int) (b : ChunkBuilder) (key : GroupKey)
    (cols : List ColMeta) (size : Int) (recs : List Object) :
    ((NewInt vs).1 = vs.map Value.int ∧ (NewInt vs).2.released = true)
    ∧ (b.Build key).1.builders.map (fun x => x.released)
        = b.builders.map (fun x => x.released)
    ∧ (∀ x ∈ (b.Build key).1.builders, x.vals = [])
    ∧ (∀ x ∈ (((NewChunkBuilder cols size).AppendRecords recs).1.Build key).1.builders,
        x.released = false ∧ x.vals = [])
    ∧ (((NewChunkBuilder cols size).AppendRecords recs).1.Build key).1.builders.length
        = cols.length := by
  have hbuild : ∀ c : ChunkBuilder, (c.Build key).1.builders.map (fun x => x.released)
      = c.builders.map (fun x => x.released) := by
    intro c
    simp only [ChunkBuilder.Build, newArrays_snd, List.map_map]
    rfl
  have hvals : ∀ c : ChunkBuilder, ∀ x ∈ (c.Build key).1.builders, x.vals = [] := by
    intro c x hx
    simp only [ChunkBuilder.Build, newArrays_snd, List.mem_map] at hx
    obtain ⟨y, _, rfl⟩ := hx
    rfl
  have hrel : (((NewChunkBuilder cols size).AppendRecords recs).1.Build key).1.builders.map
      (fun x => x.released) = cols.map (fun _ => false) := by
    rw [hbuild, AppendRecords_released]
    simp only [NewChunkBuilder, NewBuilder, Builder.Resize, List.map_map]
    rfl
  refine ⟨⟨?_, ?_⟩, hbuild b, hvals b, ?_, ?_⟩
  · simp [NewInt, foldl_UnsafeAppend, Builder.NewIntArray, Builder.NewArray, NewIntBuilder,
      NewBuilder, Builder.Resize]
  · simp [NewInt, Builder.Release]
  · intro x hx
    refine ⟨?_, hvals _ x hx⟩
    have hm : x.released ∈ (((NewChunkBuilder cols size).AppendRecords recs).1.Build key).1.builders.map
        (fun x => x.released) := List.mem_map_of_mem _ hx
    rw [hrel] at hm
    simp only [List.mem_map] at hm
    obtain ⟨_, _, h⟩ := hm
    exact h.symm
  · have := congrArg List.length hrel
    simpa using this

/-- Witness of C24: an int array of three values, and a chunk of one column and one
row. -/
theorem C24_released_builders_witness :
    NewInt [1, 2, 3] = ([.int 1, .int 2, .int 3],
      { typ := .TInt, vals := [], capacity := 0, released := true })
    ∧ (∀ x ∈ (((NewChunkBuilder [⟨"a", .TInt⟩] 4).AppendRecords [⟨[("a", .int 1)]⟩]).1.Build
          ⟨[]⟩).1.builders, x.released = false ∧ x.vals = []) :=
  ⟨by decide,
   (C24_released_builders [1, 2, 3] (NewChunkBuilder [] 0) ⟨[]⟩ [⟨"a", .TInt⟩] 4
      [⟨[("a", .int 1)]⟩]).2.2.2.1⟩

/-- C24 fails as stated. `Build` has no call of `Release`: after one record and `Build`
the builder of the one column of a ChunkBuilder made by `NewChunkBuilder` has been
finalized, the chunk holds its value, and the builder is unreleased. -/
theorem C24_counterexample :
    (((NewChunkBuilder [⟨"a", .TInt⟩] 4).AppendRecord ⟨[("a", .int 1)]⟩).1.Build ⟨[]⟩).2.buf.Values
        = [[.int 1]]
    ∧ (((NewChunkBuilder [⟨"a", .TInt⟩] 4).AppendRecord ⟨[("a", .int 1)]⟩).1.Build ⟨[]⟩).1.builders
        = [{ typ := .TInt, vals := [], capacity := 0, released := false }] := by
  decide

/-! ## C25: the size hint of `NewChunkBuilder` -/

theorem eraseCapacity_eq {b1 b2 : Builder} (h : b1.eraseCapacity = b2.eraseCapacity) :
    b1.typ = b2.typ ∧ b1.vals = b2.vals ∧ b1.released = b2.released := by
  simp only [Builder.eraseCapacity, Builder.mk.injEq] at h
  exact ⟨h.1, h.2.1, h.2.2.2⟩

theorem AppendValue_eraseCapacity (b1 b2 : Builder) (v : Value)
    (h : b1.eraseCapacity = b2.eraseCapacity) :
    (∀ e, AppendValue b1 v = .error e ↔ AppendValue b2 v = .error e)
    ∧ (∀ c1 c2, AppendValue b1 v = .ok c1 → AppendValue b2 v = .ok c2 →
        c1.eraseCapacity = c2.eraseCapacity)
    ∧ ((∃ c1, AppendValue b1 v = .ok c1) ↔ ∃ c2, AppendValue b2 v = .ok c2) := by
  obtain ⟨ht, hv, hr⟩ := eraseCapacity_eq h
  refine ⟨?_, ?_, ?_⟩
  · intro e
    unfold AppendValue
    cases v <;> simp [Value.colType, ht] <;> (try (split <;> simp))
  · intro c1 c2 h1 h2
    rw [AppendValue_ok_eq h1, AppendValue_ok_eq h2]
    simp [Builder.eraseCapacity, Builder.Append, ht, hv, hr]
  · unfold AppendValue
    cases v <;> simp [Value.colType, ht] <;> (try (split <;> simp))

theorem appendZip_eraseCapacity (record : Object) (cols : List ColMeta) :
    ∀ bs1 bs2 : List Builder,
      bs1.map Builder.eraseCapacity = bs2.map Builder.eraseCapacity →
      (appendZip record cols bs1).2 = (appendZip record cols bs2).2
      ∧ (appendZip record cols bs1).1.map Builder.eraseCapacity
          = (appendZip record cols bs2).1.map Builder.eraseCapacity := by
  induction cols with
  | nil => intro bs1 bs2 h; exact ⟨rfl, h⟩
  | cons c cols ih =>
    intro bs1 bs2 h
    cases hg : record.Get c.Label with
    | none => simp [appendZip, hg, h]
    | some v =>
      cases bs1 with
      | nil =>
        cases bs2 with
        | nil => simp [appendZip, hg]
        | cons b2 bs2 => simp at h
      | cons b1 bs1 =>
        cases bs2 with
        | nil => simp at h
        | cons b2 bs2 =>
          simp only [List.map_cons, List.cons.injEq] at h
          obtain ⟨hb, hrest⟩ := h
          obtain ⟨herr, hok, _⟩ := AppendValue_eraseCapacity b1 b2 v hb
          obtain ⟨ih1, ih2⟩ := ih bs1 bs2 hrest
          cases ha1 : AppendValue b1 v with
          | error e =>
            have ha2 := (herr e).mp ha1
            simp [appendZip, hg, ha1, ha2, hb, hrest]
          | ok c1 =>
            cases ha2 : AppendValue b2 v with
            | error e =>
              have := (herr e).mpr ha2
              rw [ha1] at this
              exact Except.noConfusion this
            | ok c2 =>
              simp [appendZip, hg, ha1, ha2, ih1, ih2, hok c1 c2 ha1 ha2]

theorem AppendRecords_eraseCapacity (recs : List Object) :
    ∀ b1 b2 : ChunkBuilder, b1.cols = b2.cols →
      b1.builders.map Builder.eraseCapacity = b2.builders.map Builder.eraseCapacity →
      (b1.AppendRecords recs).2 = (b2.AppendRecords recs).2
      ∧ (b1.AppendRecords recs).1.cols = (b2.AppendRecords recs).1.cols
      ∧ (b1.AppendRecords recs).1.builders.map Builder.eraseCapacity
          = (b2.AppendRecords recs).1.builders.map Builder.eraseCapacity := by
  induction recs with
  | nil => intro b1 b2 hc hb; exact ⟨rfl, hc, hb⟩
  | cons r recs ih =>
    intro b1 b2 hc hb
    have hz := appendZip_eraseCapacity r b1.cols b1.builders b2.builders hb
    have hstep := ih (b1.AppendRecord r).1 (b2.AppendRecord r).1
      (by simp [AppendRecord_cols, hc])
      (by simp only [AppendRecord_eq_appendZip, ← hc]; exact hz.2)
    simp only [ChunkBuilder.AppendRecords, List.cons.injEq]
    refine ⟨⟨?_, hstep.1⟩, hstep.2.1, hstep.2.2⟩
    simp only [AppendRecord_eq_appendZip, ← hc]
    exact hz.1

/-- C25: the size hint of `NewChunkBuilder` cannot be observed: for every column list,
every sequence of records, every key and any two size hints that are not negative, the
ChunkBuilders made with the two hints return the same result from every `AppendRecord`
call, and `Build` gives equal chunks: the same key, columns and values. The builders
differ in their reserved capacity at most. -/
theorem C25_size_hint_not_observable (cols : List ColMeta) (recs : List Object)
    (key : GroupKey) (s1 s2 : Int) (_h1 : 0 ≤ s1) (_h2 : 0 ≤ s2) :
    ((NewChunkBuilder cols s1).AppendRecords recs).2
        = ((NewChunkBuilder cols s2).AppendRecords recs).2
    ∧ (((NewChunkBuilder cols s1).AppendRecords recs).1.Build key).2
        = (((NewChunkBuilder cols s2).AppendRecords recs).1.Build key).2
    ∧ ((NewChunkBuilder cols s1).AppendRecords recs).1.builders.map Builder.eraseCapacity
        = ((NewChunkBuilder cols s2).AppendRecords recs).1.builders.map Builder.eraseCapacity := by
  obtain ⟨h1, h2, h3⟩ := AppendRecords_eraseCapacity recs (NewChunkBuilder cols s1)
    (NewChunkBuilder cols s2) rfl
    (by simp [NewChunkBuilder, NewBuilder, Builder.Resize, Builder.eraseCapacity])
  refine ⟨h1, ?_, h3⟩
  have hvals : ((NewChunkBuilder cols s1).AppendRecords recs).1.builders.map (fun b => b.vals)
      = ((NewChunkBuilder cols s2).AppendRecords recs).1.builders.map (fun b => b.vals) := by
    have := congrArg (List.map (fun b : Builder => b.vals)) h3
    simpa [List.map_map, Function.comp, Builder.eraseCapacity] using this
  simp only [ChunkBuilder.Build, newArrays_fst, h2, hvals]

/-- Witness of C25: the hints 0 and 100 on two columns and two records, the second of
which lacks a column. -/
theorem C25_size_hint_not_observable_witness :
    ((NewChunkBuilder [⟨"a", .TInt⟩, ⟨"b", .TString⟩] 0).AppendRecords
        [⟨[("a", .int 1), ("b", .string "x")]⟩, ⟨[("a", .int 2)]⟩]).2
      = ((NewChunkBuilder [⟨"a", .TInt⟩, ⟨"b", .TString⟩] 100).AppendRecords
        [⟨[("a", .int 1), ("b", .string "x")]⟩, ⟨[("a", .int 2)]⟩]).2 :=
  (C25_size_hint_not_observable [⟨"a", .TInt⟩, ⟨"b", .TString⟩]
    [⟨[("a", .int 1), ("b", .string "x")]⟩, ⟨[("a", .int 2)]⟩] ⟨[]⟩ 0 100
    (by decide) (by decide)).1

/-! ## C26: the errors of the functions of package `regexp` -/

theorem kind_test (v : Value) (k : Kind) :
    ((!v.IsNull && decide (v.Nature = k)) = true) ↔ (v ≠ Value.null ∧ v.Nature = k) := by
  simp [Value.IsNull]

theorem compile_spec (lib : RegexpLib) (args : Object) :
    ((∃ val, SpecialFns.compile lib args = .ok val)
      ↔ argsPresent [("v", Kind.string)] args
        ∧ ∃ re, lib.Compile ((args.Get "v").getD Value.null).Str = .ok re)
    ∧ (∀ e, SpecialFns.compile lib args = .error e →
        e.code? = some Code.Invalid
        ∨ ∃ s msg, args.Get "v" = some (Value.string s) ∧ lib.Compile s = .error msg
            ∧ e = GoError.foreign msg) := by
  unfold SpecialFns.compile
  cases hv : args.Get "v" with
  | none =>
    refine ⟨?_, ?_⟩
    · simp [argsPresent, hv]
    · intro e he
      simp only [Except.error.injEq] at he
      subst he
      exact Or.inl rfl
  | some v =>
    dsimp only
    by_cases hk : v ≠ Value.null ∧ v.Nature = Kind.string
    · have hc := (kind_test v Kind.string).mpr hk
      rw [if_pos hc]
      simp only [Option.getD_some]
      cases hcomp : lib.Compile v.Str with
      | error msg =>
        refine ⟨by simp, ?_⟩
        intro e he
        simp only [Except.error.injEq] at he
        subst he
        right
        obtain ⟨_, hn⟩ := hk
        cases v <;> simp [Value.Nature] at hn
        exact ⟨_, msg, rfl, by simpa [Value.Str] using hcomp, rfl⟩
      | ok re =>
        refine ⟨?_, by simp⟩
        simp [argsPresent, hv, hk.1, hk.2]
    · have hc : ¬ ((!v.IsNull && decide (v.Nature = Kind.string)) = true) :=
        fun h => hk ((kind_test v Kind.string).mp h)
      rw [if_neg hc]
      refine ⟨?_, ?_⟩
      · constructor
        · rintro ⟨val, h⟩
          exact Except.noConfusion h
        · rintro ⟨h, _⟩
          obtain ⟨v1, hv1, hn1, hn2⟩ := h ("v", Kind.string) (List.mem_singleton.mpr rfl)
          simp only [hv, Option.some.injEq] at hv1
          subst hv1
          exact absurd ⟨hn1, hn2⟩ hk
      · intro e he
        simp only [Except.error.injEq] at he
        subst he
        exact Or.inl rfl

theorem kind_test2 (a b : Value) (k1 k2 : Kind) :
    ((!a.IsNull && !b.IsNull && decide (a.Nature = k1) && decide (b.Nature = k2)) = true)
      ↔ ((a ≠ Value.null ∧ a.Nature = k1) ∧ (b ≠ Value.null ∧ b.Nature = k2)) := by
  simp only [Value.IsNull, Bool.and_eq_true, Bool.not_eq_true', decide_eq_false_iff_not,
    decide_eq_true_eq]
  tauto

theorem kind_test3 (a b c : Value) (k1 k2 k3 : Kind) :
    ((!a.IsNull && !b.IsNull && !c.IsNull && decide (a.Nature = k1) && decide (b.Nature = k2)
        && decide (c.Nature = k3)) = true)
      ↔ ((a ≠ Value.null ∧ a.Nature = k1) ∧ (b ≠ Value.null ∧ b.Nature = k2)
          ∧ (c ≠ Value.null ∧ c.Nature = k3)) := by
  simp only [Value.IsNull, Bool.and_eq_true, Bool.not_eq_true', decide_eq_false_iff_not,
    decide_eq_true_eq]
  tauto

/-- A result behind a test: a value when the test holds, an error of code `Invalid` when it
does not. -/
theorem guarded_spec (cond : Bool) (P : Prop) (hP : cond = true ↔ P) (val : Value)
    (err : Error) (herr : err.code = Code.Invalid) :
    ((∃ x, (if cond = true then Except.ok val else Except.error (GoError.flux err)) = .ok x)
      ↔ P)
    ∧ ∀ e, (if cond = true then Except.ok val else Except.error (GoError.flux err))
        = Except.error e → e.code? = some Code.Invalid := by
  cases cond with
  | true =>
    simp only [if_true]
    exact ⟨⟨fun _ => hP.mp rfl, fun _ => ⟨val, rfl⟩⟩, fun e he => Except.noConfusion he⟩
  | false =>
    simp only [Bool.false_eq_true, if_false]
    refine ⟨⟨fun ⟨x, hx⟩ => Except.noConfusion hx, fun hp => ?_⟩, ?_⟩
    · exact Bool.noConfusion (hP.mpr hp)
    · intro e he
      simp only [Except.error.injEq] at he
      subst he
      simp [GoError.code?, herr]

/-- The result of a missing argument: no value, and an error of code `Invalid`. -/
theorem missing_spec (P : Prop) (hP : ¬ P) (err : Error) (herr : err.code = Code.Invalid) :
    ((∃ x, (Except.error (GoError.flux err) : Except GoError Value) = .ok x) ↔ P)
    ∧ ∀ e, (Except.error (GoError.flux err) : Except GoError Value) = Except.error e →
        e.code? = some Code.Invalid := by
  refine ⟨⟨fun ⟨x, hx⟩ => Except.noConfusion hx, fun hp => absurd hp hP⟩, ?_⟩
  intro e he
  simp only [Except.error.injEq] at he
  subst he
  simp [GoError.code?, herr]

theorem two_arg_spec (lib : RegexpLib) (args : Object) :
    (((∃ x, SpecialFns.findString lib args = .ok x)
        ↔ argsPresent [("v", Kind.string), ("r", Kind.regexp)] args)
      ∧ ∀ e, SpecialFns.findString lib args = .error e → e.code? = some Code.Invalid)
    ∧ (((∃ x, SpecialFns.findStringIndex lib args = .ok x)
        ↔ argsPresent [("v", Kind.string), ("r", Kind.regexp)] args)
      ∧ ∀ e, SpecialFns.findStringIndex lib args = .error e → e.code? = some Code.Invalid)
    ∧ (((∃ x, SpecialFns.matchRegexpString lib args = .ok x)
        ↔ argsPresent [("v", Kind.string), ("r", Kind.regexp)] args)
      ∧ ∀ e, SpecialFns.matchRegexpString lib args = .error e →
          e.code? = some Code.Invalid) := by
  unfold SpecialFns.findString SpecialFns.findStringIndex SpecialFns.matchRegexpString
  cases hv : args.Get "v" with
  | none =>
    have hP : ¬ argsPresent [("v", Kind.string), ("r", Kind.regexp)] args := by
      intro h
      obtain ⟨x, hx, _⟩ := h ("v", Kind.string) (by simp)
      simp [hv] at hx
    exact ⟨missing_spec _ hP _ rfl, missing_spec _ hP _ rfl, missing_spec _ hP _ rfl⟩
  | some v =>
    cases hr : args.Get "r" with
    | none =>
      have hP : ¬ argsPresent [("v", Kind.string), ("r", Kind.regexp)] args := by
        intro h
        obtain ⟨x, hx, _⟩ := h ("r", Kind.regexp) (by simp)
        simp [hr] at hx
      exact ⟨missing_spec _ hP _ rfl, missing_spec _ hP _ rfl, missing_spec _ hP _ rfl⟩
    | some r =>
      have hP : ((!v.IsNull && !r.IsNull && decide (v.Nature = Kind.string)
            && decide (r.Nature = Kind.regexp)) = true)
          ↔ argsPresent [("v", Kind.string), ("r", Kind.regexp)] args := by
        rw [kind_test2]
        simp [argsPresent, hv, hr]
      exact ⟨guarded_spec _ _ hP _ _ rfl, guarded_spec _ _ hP _ _ rfl,
        guarded_spec _ _ hP _ _ rfl⟩

theorem one_arg_spec (lib : RegexpLib) (args : Object) :
    (((∃ x, SpecialFns.quoteMeta lib args = .ok x) ↔ argsPresent [("v", Kind.string)] args)
      ∧ ∀ e, SpecialFns.quoteMeta lib args = .error e → e.code? = some Code.Invalid)
    ∧ (((∃ x, SpecialFns.getString lib args = .ok x) ↔ argsPresent [("r", Kind.regexp)] args)
      ∧ ∀ e, SpecialFns.getString lib args = .error e → e.code? = some Code.Invalid) := by
  unfold SpecialFns.quoteMeta SpecialFns.getString
  constructor
  · cases hv : args.Get "v" with
    | none =>
      exact missing_spec _ (fun h => by
        obtain ⟨x, hx, _⟩ := h ("v", Kind.string) (by simp)
        simp [hv] at hx) _ rfl
    | some v =>
      exact guarded_spec _ _ (by rw [kind_test]; simp [argsPresent, hv]) _ _ rfl
  · cases hr : args.Get "r" with
    | none =>
      exact missing_spec _ (fun h => by
        obtain ⟨x, hx, _⟩ := h ("r", Kind.regexp) (by simp)
        simp [hr] at hx) _ rfl
    | some r =>
      exact guarded_spec _ _ (by rw [kind_test]; simp [argsPresent, hr]) _ _ rfl

theorem three_arg_spec (lib : RegexpLib) (args : Object) :
    (((∃ x, SpecialFns.replaceAllString lib args = .ok x)
        ↔ argsPresent [("r", Kind.regexp), ("v", Kind.string), ("t", Kind.string)] args)
      ∧ ∀ e, SpecialFns.replaceAllString lib args = .error e → e.code? = some Code.Invalid)
    ∧ (((∃ x, SpecialFns.splitRegexp lib args = .ok x)
        ↔ argsPresent [("r", Kind.regexp), ("v", Kind.string), ("i", Kind.int)] args)
      ∧ ∀ e, SpecialFns.splitRegexp lib args = .error e → e.code? = some Code.Invalid) := by
  unfold SpecialFns.replaceAllString SpecialFns.splitRegexp
  cases hr : args.Get "r" with
  | none =>
    constructor <;>
      exact missing_spec _ (fun h => by
        obtain ⟨x, hx, _⟩ := h ("r", Kind.regexp) (by simp)
        simp [hr] at hx) _ rfl
  | some r =>
    cases hv : args.Get "v" with
    | none =>
      constructor <;>
        exact missing_spec _ (fun h => by
          obtain ⟨x, hx, _⟩ := h ("v", Kind.string) (by simp)
          simp [hv] at hx) _ rfl
    | some v =>
      constructor
      · cases ht : args.Get "t" with
        | none =>
          exact missing_spec _ (fun h => by
            obtain ⟨x, hx, _⟩ := h ("t", Kind.string) (by simp)
            simp [ht] at hx) _ rfl
        | some t =>
          exact guarded_spec _ _ (by
            rw [kind_test3]
            simp only [argsPresent, List.mem_cons, List.mem_singleton, forall_eq_or_imp,
              forall_eq, hr, hv, ht, Option.some.injEq, exists_eq_left', List.not_mem_nil,
              false_implies, implies_true, and_true]
            tauto) _ _ rfl
      · cases hi : args.Get "i" with
        | none =>
          exact missing_spec _ (fun h => by
            obtain ⟨x, hx, _⟩ := h ("i", Kind.int) (by simp)
            simp [hi] at hx) _ rfl
        | some i =>
          exact guarded_spec _ _ (by
            rw [kind_test3]
            simp only [argsPresent, List.mem_cons, List.mem_singleton, forall_eq_or_imp,
              forall_eq, hr, hv, hi, Option.some.injEq, exists_eq_left', List.not_mem_nil,
              false_implies, implies_true, and_true]
            tauto) _ _ rfl

/-- C26, as far as the code follows it: every function of package `regexp` (`compile`,
`quoteMeta`, `findString`, `findStringIndex`, `matchRegexpString`, `replaceAllString`,
`splitRegexp`, `getString`) returns a value and no error exactly when all its arguments
are present, not null and of the required kinds and, for `compile`, the string compiles;
and every error for an argument that is missing, null or of the wrong kind has the code
`Invalid`. The one error return that has another code is the one of `compile` for a
string that is not a valid regular expression: there the error of the regexp library is
returned as it is, without a code. -/
theorem C26_regexp_errors (lib : RegexpLib) (args : Object) (name : String)
    (fn : Object → Except GoError Value) (h : (name, fn) ∈ SpecialFns lib) :
    ((∃ x, fn args = .ok x)
      ↔ argsPresent (requiredArgs name) args
        ∧ (name = "compile" →
            ∃ re, lib.Compile ((args.Get "v").getD Value.null).Str = .ok re))
    ∧ (∀ e, fn args = .error e →
        e.code? = some Code.Invalid
        ∨ (name = "compile" ∧ e.code? = none
            ∧ ∃ s msg, args.Get "v" = some (Value.string s) ∧ lib.Compile s = .error msg
                ∧ e = GoError.foreign msg))
    ∧ (name ≠ "compile" → ∀ e, fn args = .error e → e.code? = some Code.Invalid) := by
  have h1 := one_arg_spec lib args
  have h2 := two_arg_spec lib args
  have h3 := three_arg_spec lib args
  have hc := compile_spec lib args
  simp only [SpecialFns, List.mem_cons, Prod.mk.injEq, List.mem_singleton, List.not_mem_nil,
    or_false] at h
  rcases h with ⟨hn, hf⟩ | ⟨hn, hf⟩ | ⟨hn, hf⟩ | ⟨hn, hf⟩ | ⟨hn, hf⟩ | ⟨hn, hf⟩
    | ⟨hn, hf⟩ | ⟨hn, hf⟩
  all_goals subst hn hf
  · refine ⟨by simpa [requiredArgs] using hc.1, ?_, fun hne => absurd rfl hne⟩
    intro e he
    rcases hc.2 e he with hi | ⟨s, msg, hs, hm, rfl⟩
    · exact Or.inl hi
    · exact Or.inr ⟨rfl, rfl, s, msg, hs, hm, rfl⟩
  · exact ⟨by simpa [requiredArgs] using h1.1.1, fun e he => Or.inl (h1.1.2 e he),
      fun _ => h1.1.2⟩
  · exact ⟨by simpa [requiredArgs] using h2.1.1, fun e he => Or.inl (h2.1.2 e he),
      fun _ => h2.1.2⟩
  · exact ⟨by simpa [requiredArgs] using h2.2.1.1, fun e he => Or.inl (h2.2.1.2 e he),
      fun _ => h2.2.1.2⟩
  · exact ⟨by simpa [requiredArgs] using h2.2.2.1, fun e he => Or.inl (h2.2.2.2 e he),
      fun _ => h2.2.2.2⟩
  · exact ⟨by simpa [requiredArgs] using h3.1.1, fun e he => Or.inl (h3.1.2 e he),
      fun _ => h3.1.2⟩
  · exact ⟨by simpa [requiredArgs] using h3.2.1, fun e he => Or.inl (h3.2.2 e he),
      fun _ => h3.2.2⟩
  · exact ⟨by simpa [requiredArgs] using h1.2.1, fun e he => Or.inl (h1.2.2 e he),
      fun _ => h1.2.2⟩

/-- Witness of C26: `findString` without its argument `r` fails with `Invalid`. -/
theorem C26_regexp_errors_witness :
    SpecialFns.findString exampleRegexpLib ⟨[("v", .string "abc")]⟩
        = .error (GoError.flux ⟨Code.Invalid, "missing argument"⟩)
    ∧ (GoError.flux ⟨Code.Invalid, "missing argument"⟩).code? = some Code.Invalid :=
  ⟨rfl,
   (C26_regexp_errors exampleRegexpLib ⟨[("v", .string "abc")]⟩ "findString"
    (SpecialFns.findString exampleRegexpLib) (by simp [SpecialFns])).2.2 (by decide)
    (GoError.flux ⟨Code.Invalid, "missing argument"⟩) rfl⟩

/-- C26, where the code departs from it: `compile` returns the error of `regexp.Compile` as
it is (`return nil, err`), unlike every other error return of the package: for the string
`(`, which is not a valid regular expression, the error is the one of the regexp library,
not an error of code `Invalid`. -/
theorem C26_counterexample :
    SpecialFns.compile exampleRegexpLib ⟨[("v", .string "(")]⟩
        = .error (GoError.foreign "error parsing regexp: missing closing ): (")
    ∧ (GoError.foreign "error parsing regexp: missing closing ): (").code? = none
    ∧ (GoError.foreign "error parsing regexp: missing closing ): (").code?
        ≠ some Code.Invalid :=
  ⟨rfl, rfl, by decide⟩

/-! ## C27: the errors of `LastSuccess` -/

theorem listUnused_nil (args : Object)
    (hargs : ∀ p ∈ args.props, p.1 = "orTime" ∨ p.1 = "lastSuccessTime") :
    (Arguments.mk args ["lastSuccessTime", "orTime"]).listUnused = [] := by
  simp only [Arguments.listUnused, List.filter_eq_nil_iff, List.mem_map, decide_not,
    Bool.not_eq_true', decide_eq_false_iff_not, not_not, forall_exists_index, and_imp]
  intro name p hp hname
  subst hname
  rcases hargs p hp with h | h <;> rw [h] <;> simp

theorem LastSuccess_orTime_missing (add : Time → Int → Time) (deps : ExecutionDependencies)
    (args : Object) (ho : args.Get "orTime" = none) :
    LastSuccess add deps args
      = .error ⟨Code.Invalid, "missing required keyword argument \"orTime\""⟩ := by
  simp [LastSuccess, DoFunctionCallContext, lastSuccessCall, Arguments.GetRequired,
    NewArguments, ho]

theorem LastSuccess_not_timeable (add : Time → Int → Time) (deps : ExecutionDependencies)
    (args : Object) (o : Value) (ho : args.Get "orTime" = some o)
    (ht : IsTimeable o = false) :
    LastSuccess add deps args = .error ⟨Code.Invalid,
      "keyword argument \"orTime\" should be a time or duration, but got "
        ++ natureName o.Nature⟩ := by
  simp [LastSuccess, DoFunctionCallContext, lastSuccessCall, Arguments.GetRequired,
    NewArguments, ho, ht]

theorem nature_time (t : Int) : (Value.time t).Nature = Kind.time := rfl

theorem nature_duration (d : Int) : (Value.duration d).Nature = Kind.duration := rfl

theorem listUnused_eq_nil_iff (args : Object) :
    (Arguments.mk args ["lastSuccessTime", "orTime"]).listUnused = []
      ↔ ¬ ∃ p ∈ args.props, p.1 ≠ "orTime" ∧ p.1 ≠ "lastSuccessTime" := by
  constructor
  · intro h
    rintro ⟨p, hp, h1, h2⟩
    simp only [Arguments.listUnused, List.filter_eq_nil_iff, List.mem_map, decide_not,
      Bool.not_eq_true', decide_eq_false_iff_not, not_not, forall_exists_index, and_imp] at h
    have := h p.1 p hp rfl
    simp [h1, h2] at this
  · intro h
    apply listUnused_nil
    intro p hp
    by_contra hne
    exact h ⟨p, hp, fun e => hne (Or.inl e), fun e => hne (Or.inr e)⟩

/-- A call with a duration as `orTime` and dependencies without `Now` panics: `*deps.Now`
is evaluated before `lastSuccessTime` is fetched. -/
theorem LastSuccess_nil_now (add : Time → Int → Time) (args : Object) (d : Int)
    (ho : args.Get "orTime" = some (Value.duration d)) :
    LastSuccess add ⟨none⟩ args = .panic "invalid memory address or nil pointer dereference" := by
  simp [LastSuccess, DoFunctionCallContext, lastSuccessCall, Arguments.GetRequired,
    NewArguments, ho, IsTimeable, nature_duration]

/-- A call with a timeable `orTime` that does not need a `Now` that is missing: what is
returned depends on `lastSuccessTime` as the function says, and a value is returned only
when no other argument is left unused. -/
theorem LastSuccess_timeable (add : Time → Int → Time) (deps : ExecutionDependencies)
    (args : Object) (o : Value)
    (ho : args.Get "orTime" = some o) (ht : IsTimeable o = true)
    (hnow : ¬ (deps.Now = none ∧ ∃ d, o = Value.duration d)) :
    (args.Get "lastSuccessTime" = none →
      LastSuccess add deps args
        = .error ⟨Code.Invalid, "missing required keyword argument \"lastSuccessTime\""⟩)
    ∧ (∀ l, args.Get "lastSuccessTime" = some l → l ≠ Value.null → l.Nature ≠ Kind.time →
        LastSuccess add deps args = .error ⟨Code.Invalid,
          "keyword argument \"lastSuccessTime\" should be of kind " ++ natureName Kind.time
            ++ ", but got " ++ natureName l.Nature⟩)
    ∧ (∀ l, args.Get "lastSuccessTime" = some l → (l = Value.null ∨ l.Nature = Kind.time) →
        (Arguments.mk args ["lastSuccessTime", "orTime"]).listUnused = [] →
        ∃ v, LastSuccess add deps args = .value v)
    ∧ (∀ l, args.Get "lastSuccessTime" = some l → (l = Value.null ∨ l.Nature = Kind.time) →
        (Arguments.mk args ["lastSuccessTime", "orTime"]).listUnused ≠ [] →
        LastSuccess add deps args = .error ⟨Code.Invalid, "unused arguments "
          ++ toString (Arguments.mk args ["lastSuccessTime", "orTime"]).listUnused⟩) := by
  obtain ⟨now⟩ := deps
  refine ⟨?_, ?_, ?_, ?_⟩
  · intro hl
    cases o <;> simp [IsTimeable, Value.Nature] at ht <;> cases now <;>
      simp at hnow <;>
      simp [LastSuccess, DoFunctionCallContext, lastSuccessCall, Arguments.GetRequired,
        NewArguments, ho, hl, IsTimeable, nature_time, nature_duration]
  · intro l hl hnull hkind
    cases o <;> simp [IsTimeable, Value.Nature] at ht <;> cases now <;>
      simp at hnow <;>
      simp [LastSuccess, DoFunctionCallContext, lastSuccessCall, Arguments.GetRequired,
        NewArguments, ho, hl, IsTimeable, nature_time, nature_duration, Value.IsNull, hnull, hkind]
  · intro l hl hk hu
    by_cases hnull : l = Value.null
    · cases o <;> simp [IsTimeable, Value.Nature] at ht <;> cases now <;>
        simp at hnow <;>
        simp [LastSuccess, DoFunctionCallContext, lastSuccessCall, Arguments.GetRequired,
          NewArguments, ho, hl, IsTimeable, nature_time, nature_duration, Value.IsNull, hnull, hu]
    · have hkind : l.Nature = Kind.time := hk.resolve_left hnull
      cases o <;> simp [IsTimeable, Value.Nature] at ht <;> cases now <;>
        simp at hnow <;>
        simp [LastSuccess, DoFunctionCallContext, lastSuccessCall, Arguments.GetRequired,
          NewArguments, ho, hl, IsTimeable, nature_time, nature_duration, Value.IsNull, hnull,
          hkind, hu]
  · intro l hl hk hu
    by_cases hnull : l = Value.null
    · cases o <;> simp [IsTimeable, Value.Nature] at ht <;> cases now <;>
        simp at hnow <;>
        simp [LastSuccess, DoFunctionCallContext, lastSuccessCall, Arguments.GetRequired,
          NewArguments, ho, hl, IsTimeable, nature_time, nature_duration, Value.IsNull, hnull, hu]
    · have hkind : l.Nature = Kind.time := hk.resolve_left hnull
      cases o <;> simp [IsTimeable, Value.Nature] at ht <;> cases now <;>
        simp at hnow <;>
        simp [LastSuccess, DoFunctionCallContext, lastSuccessCall, Arguments.GetRequired,
          NewArguments, ho, hl, IsTimeable, nature_time, nature_duration, Value.IsNull, hnull,
          hkind, hu]

/-- C27 (as amended): `LastSuccess` validates `orTime` before it looks at
`lastSuccessTime`. The call panics exactly when `orTime` is a duration and the execution
dependencies have no `Now`. Otherwise it returns an error if and only if `orTime` is
missing, `orTime` is neither a time nor a duration, `lastSuccessTime` is missing,
`lastSuccessTime` is not null and not of kind time, or the call has an argument other than
`orTime` and `lastSuccessTime`. When `orTime` is neither a time nor a duration the error
has the code `Invalid` and names `orTime`, whatever `lastSuccessTime` is, also when it is a
time that would have been returned. A `lastSuccessTime` that is not null and not a time
gives an error of code `Invalid`; a null `lastSuccessTime` is never rejected for its type:
the call returns a value, or, when another argument is left unused, the error of code
`Invalid` for the unused arguments. -/
theorem C27_lastSuccess_errors (add : Time → Int → Time) (deps : ExecutionDependencies)
    (args : Object) :
    ((∃ msg, LastSuccess add deps args = .panic msg)
      ↔ (deps.Now = none ∧ ∃ d, args.Get "orTime" = some (Value.duration d)))
    ∧ ((∃ e, LastSuccess add deps args = .error e)
      ↔ ¬ (deps.Now = none ∧ ∃ d, args.Get "orTime" = some (Value.duration d))
        ∧ (args.Get "orTime" = none
          ∨ (∃ o, args.Get "orTime" = some o ∧ IsTimeable o = false)
          ∨ args.Get "lastSuccessTime" = none
          ∨ (∃ l, args.Get "lastSuccessTime" = some l ∧ l ≠ Value.null
              ∧ l.Nature ≠ Kind.time)
          ∨ (∃ p ∈ args.props, p.1 ≠ "orTime" ∧ p.1 ≠ "lastSuccessTime")))
    ∧ (∀ o, args.Get "orTime" = some o → IsTimeable o = false →
        LastSuccess add deps args = .error ⟨Code.Invalid,
          "keyword argument \"orTime\" should be a time or duration, but got "
            ++ natureName o.Nature⟩)
    ∧ (∀ o l, args.Get "orTime" = some o → IsTimeable o = true →
        ¬ (deps.Now = none ∧ ∃ d, o = Value.duration d) →
        args.Get "lastSuccessTime" = some l → l ≠ Value.null → l.Nature ≠ Kind.time →
        LastSuccess add deps args = .error ⟨Code.Invalid,
          "keyword argument \"lastSuccessTime\" should be of kind " ++ natureName Kind.time
            ++ ", but got " ++ natureName l.Nature⟩)
    ∧ (∀ o, args.Get "orTime" = some o → IsTimeable o = true →
        ¬ (deps.Now = none ∧ ∃ d, o = Value.duration d) →
        args.Get "lastSuccessTime" = some Value.null →
        ((¬ ∃ p ∈ args.props, p.1 ≠ "orTime" ∧ p.1 ≠ "lastSuccessTime") →
          ∃ v, LastSuccess add deps args = .value v)
        ∧ ((∃ p ∈ args.props, p.1 ≠ "orTime" ∧ p.1 ≠ "lastSuccessTime") →
          LastSuccess add deps args = .error ⟨Code.Invalid, "unused arguments "
            ++ toString (Arguments.mk args ["lastSuccessTime", "orTime"]).listUnused⟩)) := by
  have hmain : ∀ o, args.Get "orTime" = some o → IsTimeable o = true →
      ¬ (deps.Now = none ∧ ∃ d, o = Value.duration d) →
      ((∃ msg, LastSuccess add deps args = .panic msg) ↔ False)
      ∧ ((∃ e, LastSuccess add deps args = .error e)
        ↔ (args.Get "lastSuccessTime" = none
          ∨ (∃ l, args.Get "lastSuccessTime" = some l ∧ l ≠ Value.null
              ∧ l.Nature ≠ Kind.time)
          ∨ (∃ p ∈ args.props, p.1 ≠ "orTime" ∧ p.1 ≠ "lastSuccessTime"))) := by
    intro o ho ht hnow
    obtain ⟨h1, h2, h3, h4⟩ := LastSuccess_timeable add deps args o ho ht hnow
    have hx := listUnused_eq_nil_iff args
    cases hl : args.Get "lastSuccessTime" with
    | none =>
      rw [h1 hl]
      refine ⟨⟨?_, False.elim⟩, ⟨fun _ => Or.inl rfl, fun _ => ⟨_, rfl⟩⟩⟩
      rintro ⟨msg, h⟩
      exact Returned.noConfusion h
    | some l =>
      by_cases hok : l = Value.null ∨ l.Nature = Kind.time
      · by_cases hu : (Arguments.mk args ["lastSuccessTime", "orTime"]).listUnused = []
        · obtain ⟨v, hv⟩ := h3 l hl hok hu
          have hno := hx.mp hu
          rw [hv]
          refine ⟨⟨?_, False.elim⟩, ⟨?_, ?_⟩⟩
          · rintro ⟨msg, h⟩
            exact Returned.noConfusion h
          · rintro ⟨e, h⟩
            exact Returned.noConfusion h
          · rintro (h | ⟨l1, hl1, hn1, hk1⟩ | h)
            · exact Option.noConfusion h
            · have e1 : l = l1 := Option.some.inj hl1
              subst e1
              rcases hok with hok | hok
              · exact absurd hok hn1
              · exact absurd hok hk1
            · exact absurd h hno
        · have hex : ∃ p ∈ args.props, p.1 ≠ "orTime" ∧ p.1 ≠ "lastSuccessTime" := by
            by_contra hne
            exact hu (hx.mpr hne)
          rw [h4 l hl hok hu]
          refine ⟨⟨?_, False.elim⟩, ⟨fun _ => Or.inr (Or.inr hex), fun _ => ⟨_, rfl⟩⟩⟩
          rintro ⟨msg, h⟩
          exact Returned.noConfusion h
      · have hnull : l ≠ Value.null := fun e => hok (Or.inl e)
        have hkind : l.Nature ≠ Kind.time := fun e => hok (Or.inr e)
        rw [h2 l hl hnull hkind]
        refine ⟨⟨?_, False.elim⟩,
          ⟨fun _ => Or.inr (Or.inl ⟨l, rfl, hnull, hkind⟩), fun _ => ⟨_, rfl⟩⟩⟩
        rintro ⟨msg, h⟩
        exact Returned.noConfusion h
  have hboth : ((∃ msg, LastSuccess add deps args = .panic msg)
        ↔ (deps.Now = none ∧ ∃ d, args.Get "orTime" = some (Value.duration d)))
      ∧ ((∃ e, LastSuccess add deps args = .error e)
        ↔ ¬ (deps.Now = none ∧ ∃ d, args.Get "orTime" = some (Value.duration d))
          ∧ (args.Get "orTime" = none
            ∨ (∃ o, args.Get "orTime" = some o ∧ IsTimeable o = false)
            ∨ args.Get "lastSuccessTime" = none
            ∨ (∃ l, args.Get "lastSuccessTime" = some l ∧ l ≠ Value.null
                ∧ l.Nature ≠ Kind.time)
            ∨ (∃ p ∈ args.props, p.1 ≠ "orTime" ∧ p.1 ≠ "lastSuccessTime"))) := by
    cases ho : args.Get "orTime" with
    | none =>
      rw [LastSuccess_orTime_missing add deps args ho]
      refine ⟨⟨?_, ?_⟩, ⟨fun _ => ⟨?_, Or.inl rfl⟩, fun _ => ⟨_, rfl⟩⟩⟩
      · rintro ⟨msg, h⟩
        exact Returned.noConfusion h
      · rintro ⟨_, d, hd⟩
        exact Option.noConfusion hd
      · rintro ⟨_, d, hd⟩
        exact Option.noConfusion hd
    | some o =>
      cases ht : IsTimeable o with
      | false =>
        have hnd : ∀ d, o ≠ Value.duration d := by
          intro d hd
          rw [hd] at ht
          simp [IsTimeable, nature_duration] at ht
        rw [LastSuccess_not_timeable add deps args o ho ht]
        refine ⟨⟨?_, ?_⟩, ⟨fun _ => ⟨?_, Or.inr (Or.inl ⟨o, rfl, ht⟩)⟩, fun _ => ⟨_, rfl⟩⟩⟩
        · rintro ⟨msg, h⟩
          exact Returned.noConfusion h
        · rintro ⟨_, d, hd⟩
          exact absurd (Option.some.inj hd) (hnd d)
        · rintro ⟨_, d, hd⟩
          exact absurd (Option.some.inj hd) (hnd d)
      | true =>
        by_cases hnow : deps.Now = none ∧ ∃ d, o = Value.duration d
        · obtain ⟨hn, d, hd⟩ := hnow
          subst hd
          have hdeps : deps = ⟨none⟩ := by
            cases deps
            simp only at hn
            rw [hn]
          subst hdeps
          rw [LastSuccess_nil_now add args d ho]
          refine ⟨⟨fun _ => ⟨rfl, d, rfl⟩, fun _ => ⟨_, rfl⟩⟩, ⟨?_, ?_⟩⟩
          · rintro ⟨e, h⟩
            exact Returned.noConfusion h
          · rintro ⟨hnp, _⟩
            exact absurd ⟨rfl, d, rfl⟩ hnp
        · obtain ⟨hp, he⟩ := hmain o ho ht hnow
          have hnp : ¬ (deps.Now = none ∧ ∃ d, some o = some (Value.duration d)) := by
            rintro ⟨hn, d, hd⟩
            exact hnow ⟨hn, d, Option.some.inj hd⟩
          refine ⟨⟨fun h => (hp.mp h).elim, fun h => absurd h hnp⟩, ?_⟩
          rw [he]
          constructor
          · intro h
            refine ⟨hnp, ?_⟩
            rcases h with h | h | h
            · exact Or.inr (Or.inr (Or.inl h))
            · exact Or.inr (Or.inr (Or.inr (Or.inl h)))
            · exact Or.inr (Or.inr (Or.inr (Or.inr h)))
          · rintro ⟨_, h | ⟨o1, ho1, ht1⟩ | h | h | h⟩
            · exact Option.noConfusion h
            · have e1 : o = o1 := Option.some.inj ho1
              subst e1
              rw [ht] at ht1
              exact Bool.noConfusion ht1
            · exact Or.inl h
            · exact Or.inr (Or.inl h)
            · exact Or.inr (Or.inr h)
  have hx := listUnused_eq_nil_iff args
  refine ⟨hboth.1, hboth.2, ?_, ?_, ?_⟩
  · intro o ho ht
    exact LastSuccess_not_timeable add deps args o ho ht
  · intro o l ho ht hnow hl hnull hkind
    exact (LastSuccess_timeable add deps args o ho ht hnow).2.1 l hl hnull hkind
  · intro o ho ht hnow hl
    obtain ⟨_, _, h3, h4⟩ := LastSuccess_timeable add deps args o ho ht hnow
    exact ⟨fun hno => h3 _ hl (Or.inl rfl) (hx.mpr hno),
      fun hex => h4 _ hl (Or.inl rfl) (fun hu => hx.mp hu hex)⟩

/-- Witness of C27: `orTime` is a string and `lastSuccessTime` a valid time: the call
fails with `Invalid` on `orTime`. -/
theorem C27_lastSuccess_errors_witness :
    LastSuccess (fun t d => t + d) ⟨some 10⟩
        ⟨[("orTime", .string "now"), ("lastSuccessTime", .time 5)]⟩
      = .error ⟨Code.Invalid,
          "keyword argument \"orTime\" should be a time or duration, but got string"⟩ :=
  (C27_lastSuccess_errors (fun t d => t + d) ⟨some 10⟩
    ⟨[("orTime", .string "now"), ("lastSuccessTime", .time 5)]⟩).2.2.1
    (.string "now") (by decide) (by decide)

/-- C27 fails as stated. With a duration as `orTime`, no `lastSuccessTime` and execution
dependencies without `Now`, `*deps.Now` is evaluated before `lastSuccessTime` is fetched:
the call panics and returns no error although `lastSuccessTime` is missing. And a call
with a valid `orTime`, a valid `lastSuccessTime` and one more argument returns an error,
for the unused argument, although none of the four conditions holds. -/
theorem C27_counterexample :
    (⟨[("orTime", .duration 5)]⟩ : Object).Get "lastSuccessTime" = none
    ∧ LastSuccess (fun t d => t + d) ⟨none⟩ ⟨[("orTime", .duration 5)]⟩
        = .panic "invalid memory address or nil pointer dereference"
    ∧ (¬ ∃ e, LastSuccess (fun t d => t + d) ⟨none⟩ ⟨[("orTime", .duration 5)]⟩ = .error e)
    ∧ LastSuccess (fun t d => t + d) ⟨some 10⟩
        ⟨[("orTime", .time 7), ("lastSuccessTime", .time 5), ("x", .int 1)]⟩
        = .error ⟨Code.Invalid, "unused arguments [x]"⟩
    ∧ IsTimeable (.time 7) = true
    ∧ (Value.time 5).Nature = Kind.time := by
  refine ⟨by decide, by decide, ?_, by decide, by decide, by decide⟩
  rintro ⟨e, he⟩
  have h : LastSuccess (fun t d => t + d) ⟨none⟩ ⟨[("orTime", .duration 5)]⟩
      = .panic "invalid memory address or nil pointer dereference" := by decide
  rw [h] at he
  exact Returned.noConfusion he

/-! ## C28: `AppendRecord` is not atomic -/

/-- The builders of the columns before the first column that fails have each grown by the
value of the record for their column. -/
theorem appendZip_grown_before (record : Object) :
    ∀ (i : Nat) (cols : List ColMeta) (bs : List Builder),
      (∀ j, j < i → ∀ cj bj, cols[j]? = some cj → bs[j]? = some bj →
        ∃ v b1, record.Get cj.Label = some v ∧ AppendValue bj v = .ok b1) →
      i ≤ cols.length → i ≤ bs.length →
      (appendZip record cols bs).1.take i
        = List.zipWith (fun (c : ColMeta) (b : Builder) =>
            b.Append ((record.Get c.Label).getD Value.null)) (cols.take i) (bs.take i) := by
  intro i
  induction i with
  | zero => intro cols bs _ _ _; simp
  | succ i ih =>
    intro cols bs hpre hc hb
    cases cols with
    | nil => simp at hc
    | cons c cols =>
      cases bs with
      | nil => simp at hb
      | cons b0 bs =>
        obtain ⟨v, b1, hg, ha⟩ := hpre 0 (Nat.succ_pos i) c b0 (by simp) (by simp)
        have hrest := ih cols bs
          (fun j hj cj bj hcj hbj => hpre (j + 1) (Nat.succ_lt_succ hj) cj bj
            (by simpa using hcj) (by simpa using hbj))
          (by simpa using hc) (by simpa using hb)
        simp only [appendZip, hg, ha, List.take_succ_cons, List.zipWith_cons_cons,
          Option.getD_some, hrest, AppendValue_ok_eq ha]

theorem zipWith_map_length (cs : List ColMeta) (record : Object) :
    ∀ bs : List Builder, cs.length = bs.length →
      (List.zipWith (fun (c : ColMeta) (b : Builder) =>
          b.Append ((record.Get c.Label).getD Value.null)) cs bs).map (fun x => x.vals.length)
        = bs.map (fun x => x.vals.length + 1) := by
  induction cs with
  | nil => intro bs h; cases bs with
    | nil => rfl
    | cons b bs => simp at h
  | cons c cs ih =>
    intro bs h
    cases bs with
    | nil => simp at h
    | cons b bs =>
      have hrest := ih bs (by simpa using h)
      simp only [List.zipWith_cons_cons, List.map_cons, hrest]
      simp [Builder.Append]

/-- C28: when `AppendRecord` fails at the column of index `i` (the record has no value for
its label, or the builder rejects the value, and the columns before `i` are appended
without error), the call returns an error, exactly the builders of the columns before `i`
have grown by one value, and the builders from index `i` on are as they were. So when `i`
is at least 1 and all builders had the same length before, they do not all have the same
length afterwards. After a sequence of calls that all returned nil, on a ChunkBuilder with
one builder per column whose builders all had the length `len`, every builder has the
length `len` plus the number of calls. -/
theorem C28_appendRecord_not_atomic (b : ChunkBuilder) (record : Object) (i : Nat)
    (c : ColMeta) (bi : Builder)
    (hc : b.cols[i]? = some c) (hb : b.builders[i]? = some bi)
    (hpre : ∀ j, j < i → ∀ cj bj, b.cols[j]? = some cj → b.builders[j]? = some bj →
      ∃ v b1, record.Get cj.Label = some v ∧ AppendValue bj v = .ok b1)
    (hfail : record.Get c.Label = none
      ∨ ∃ v e, record.Get c.Label = some v ∧ AppendValue bi v = .error e) :
    (∃ e, (b.AppendRecord record).2 = .err e)
    ∧ ((b.AppendRecord record).1.builders.take i).map (fun x => x.vals.length)
        = (b.builders.take i).map (fun x => x.vals.length + 1)
    ∧ (b.AppendRecord record).1.builders.drop i = b.builders.drop i
    ∧ (1 ≤ i → (∀ x ∈ b.builders, ∀ y ∈ b.builders, x.vals.length = y.vals.length) →
        ∃ x ∈ (b.AppendRecord record).1.builders, ∃ y ∈ (b.AppendRecord record).1.builders,
          x.vals.length ≠ y.vals.length)
    ∧ (∀ (b0 : ChunkBuilder) (recs : List Object) (len : Nat),
        b0.builders.length = b0.cols.length →
        (∀ x ∈ b0.builders, x.vals.length = len) →
        (∀ o ∈ (b0.AppendRecords recs).2, o = Outcome.nil) →
        ∀ x ∈ (b0.AppendRecords recs).1.builders, x.vals.length = len + recs.length) := by
  have hic : i < b.cols.length := (List.getElem?_eq_some.mp hc).1
  have hib : i < b.builders.length := (List.getElem?_eq_some.mp hb).1
  obtain ⟨herr, hdrop⟩ := appendZip_stop_before record i b.cols b.builders c bi hc hb hfail
  have htake := appendZip_grown_before record i b.cols b.builders hpre (Nat.le_of_lt hic)
    (Nat.le_of_lt hib)
  have hlen : ((appendZip record b.cols b.builders).1.take i).map (fun x => x.vals.length)
      = (b.builders.take i).map (fun x => x.vals.length + 1) := by
    rw [htake]
    apply zipWith_map_length
    simp [Nat.min_eq_left (Nat.le_of_lt hic), Nat.min_eq_left (Nat.le_of_lt hib)]
  rw [AppendRecord_eq_appendZip]
  refine ⟨herr, hlen, hdrop, ?_, ?_⟩
  · intro hi hsame
    simp only
    have hnew_len : (appendZip record b.cols b.builders).1.length = b.builders.length :=
      appendZip_length record b.cols b.builders
    -- the builder of column 0 has grown, the builder of column i has not
    have h0 : 0 < b.builders.length := by omega
    obtain ⟨x0, hx0⟩ : ∃ x0, b.builders[0]? = some x0 :=
      ⟨b.builders[0], List.getElem?_eq_getElem h0⟩
    have hy0 : ∃ y0, (appendZip record b.cols b.builders).1[0]? = some y0
        ∧ y0.vals.length = x0.vals.length + 1 := by
      have h1 := congrArg (fun l => l[0]?) hlen
      simp only [List.getElem?_map, List.getElem?_take, hi, Nat.lt_of_lt_of_le Nat.zero_lt_one hi,
        if_true, hx0, Option.map_some'] at h1
      cases hy : (appendZip record b.cols b.builders).1[0]? with
      | none => rw [hy] at h1; simp at h1
      | some y0 =>
        rw [hy] at h1
        simp only [Option.map_some', Option.some.injEq] at h1
        exact ⟨y0, rfl, h1⟩
    obtain ⟨y0, hy0, hy0len⟩ := hy0
    have hyi : (appendZip record b.cols b.builders).1[i]? = some bi := by
      have h1 := congrArg (fun l => l[0]?) hdrop
      simpa [List.getElem?_drop, hb] using h1
    refine ⟨y0, List.getElem?_mem hy0, bi, List.getElem?_mem hyi, ?_⟩
    have := hsame x0 (List.getElem?_mem hx0) bi (List.getElem?_mem hb)
    omega
  · intro b0 recs len hwf hall hnil x hx
    obtain ⟨_, hvals, _⟩ := AppendRecords_all_nil recs b0 hwf hnil
    have hm : x.vals ∈ (b0.AppendRecords recs).1.builders.map (fun y => y.vals) :=
      List.mem_map_of_mem _ hx
    rw [hvals] at hm
    obtain ⟨j, hj, hjeq⟩ := List.getElem_of_mem hm
    simp only [List.getElem_zipWith] at hjeq
    rw [← hjeq]
    simp only [List.length_append, List.length_map]
    have hjb : j < b0.builders.length := by
      simp only [List.length_zipWith] at hj
      omega
    rw [hall _ (List.getElem_mem hjb)]

/-- Witness of C28: two columns and a record that lacks the second: the call fails at the
column of index 1, after the builder of the first column has grown. -/
theorem C28_appendRecord_not_atomic_witness :
    (∃ x ∈ ((NewChunkBuilder [⟨"a", .TInt⟩, ⟨"b", .TString⟩] 0).AppendRecord
          ⟨[("a", .int 1)]⟩).1.builders,
      ∃ y ∈ ((NewChunkBuilder [⟨"a", .TInt⟩, ⟨"b", .TString⟩] 0).AppendRecord
          ⟨[("a", .int 1)]⟩).1.builders, x.vals.length ≠ y.vals.length)
    ∧ ((NewChunkBuilder [⟨"a", .TInt⟩, ⟨"b", .TString⟩] 0).AppendRecord
          ⟨[("a", .int 1)]⟩).1.builders.map (fun x => x.vals)
        = [[.int 1], []] :=
  ⟨(C28_appendRecord_not_atomic (NewChunkBuilder [⟨"a", .TInt⟩, ⟨"b", .TString⟩] 0)
      ⟨[("a", .int 1)]⟩ 1 ⟨"b", .TString⟩ (NewBuilder .TString)
      (by decide) (by decide)
      (fun j hj cj bj hcj hbj => by
        have hj0 : j = 0 := by omega
        subst hj0
        have h1 : cj = ⟨"a", .TInt⟩ := by
          simpa [NewChunkBuilder] using hcj.symm
        have h2 : bj = NewBuilder .TInt := by
          simpa [NewChunkBuilder, NewBuilder, Builder.Resize] using hbj.symm
        subst h1 h2
        exact ⟨.int 1, (NewBuilder .TInt).Append (.int 1), by decide, rfl⟩)
      (Or.inl (by decide))).2.2.2.1 (by decide) (by decide),
   by decide⟩

/-! ## C29: the output table of the keys transformation -/

theorem NRows_of_empty_cols (b : TableBuilder) (h : ∀ col ∈ b.data, col = [])
    (h0 : b.emptyRows = 0) : b.NRows = 0 := by
  unfold TableBuilder.NRows
  cases hd : b.data with
  | nil => exact h0
  | cons a rest =>
    have := h a (by rw [hd]; exact List.mem_cons_self _ _)
    simp [this]

theorem ColIdx_none (label : String) (cols : List ColMeta)
    (h : label ∉ cols.map (fun c => c.Label)) : ColIdx label cols = none := by
  unfold ColIdx
  rw [List.findIdx?_eq_none_iff]
  intro x hx
  simp only [beq_eq_false_iff_ne, ne_eq]
  intro hl
  exact h (List.mem_map.mpr ⟨x, hx, hl⟩)

theorem ColIdx_at (pre : List ColMeta) (c : ColMeta) (post : List ColMeta)
    (h : c.Label ∉ pre.map (fun x => x.Label)) :
    ColIdx c.Label (pre ++ c :: post) = some pre.length := by
  unfold ColIdx
  have hpre : List.findIdx? (fun x => x.Label == c.Label) pre = none := ColIdx_none c.Label pre h
  rw [List.findIdx?_append, hpre]
  simp [List.findIdx?_cons]

/-- `AddTableKeyCols` on a builder without rows adds the columns of the key, in key order,
when their labels are distinct and new to the builder. -/
theorem AddTableKeyCols_foldl (rest : List ColMeta) :
    ∀ b : TableBuilder, ((b.cols ++ rest).map (fun c => c.Label)).Nodup →
      (∀ col ∈ b.data, col = []) → b.emptyRows = 0 →
      rest.foldl
        (fun (acc : TableBuilder × Option Error) c =>
          match acc.2 with
          | some _ => acc
          | none => ((acc.1.AddCol c).1, (acc.1.AddCol c).2.2))
        (b, none)
        = ({ b with cols := b.cols ++ rest, data := b.data ++ rest.map (fun _ => []) }, none) := by
  induction rest with
  | nil => intro b _ _ _; simp
  | cons c rest ih =>
    intro b hnd hempty h0
    have hc : c.Label ∉ b.cols.map (fun x => x.Label) := by
      simp only [List.map_append, List.map_cons] at hnd
      have := (List.nodup_append.mp hnd).2.2
      intro hmem
      exact this hmem (List.mem_cons_self _ _)
    have hadd : b.AddCol c
        = ({ b with cols := b.cols ++ [c], data := b.data ++ [[]] }, b.cols.length, none) := by
      simp [TableBuilder.AddCol, ColIdx_none c.Label b.cols hc, NRows_of_empty_cols b hempty h0]
    simp only [List.foldl_cons, hadd]
    rw [ih]
    · simp
    · simpa using hnd
    · intro col hcol
      simp only [List.mem_append, List.mem_singleton] at hcol
      rcases hcol with h | h
      · exact hempty col h
      · exact h
    · exact h0

/-- One pass of `AppendKeyValues` over the pairs of the key that are still to come: every
key column gets the value of its pair. -/
theorem AppendKeyValues_foldl (k0 : GroupKey) (s : ColMeta) (strs : List Value) (n : Nat) :
    ∀ (post pre : List (ColMeta × Value)),
      ((pre ++ post).map (fun p => p.1.Label)).Nodup →
      (∀ p ∈ post, p.2 = Value.null ∨ p.2.colType = some p.1.Typ) →
      post.foldl
        (fun (acc : TableBuilder × Option Error) p =>
          match acc.2 with
          | some _ => acc
          | none =>
            match ColIdx p.1.Label acc.1.cols with
            | none => (acc.1, some ⟨.Internal,
                "group key column " ++ p.1.Label ++ " not found in output table"⟩)
            | some idx => acc.1.AppendValue idx p.2)
        ({ key := k0, cols := (pre ++ post).map (fun p => p.1) ++ [s],
           data := pre.map (fun p => List.replicate (n + 1) p.2)
             ++ (post.map (fun p => List.replicate n p.2) ++ [strs]) }, none)
        = ({ key := k0, cols := (pre ++ post).map (fun p => p.1) ++ [s],
             data := (pre ++ post).map (fun p => List.replicate (n + 1) p.2) ++ [strs] },
           none) := by
  intro post
  induction post with
  | nil => intro pre _ _; simp
  | cons p post ih =>
    intro pre hnd htyped
    have hlabel : p.1.Label ∉ (pre.map (fun q => q.1)).map (fun x => x.Label) := by
      simp only [List.map_append, List.map_cons] at hnd
      have := (List.nodup_append.mp hnd).2.2
      intro hmem
      simp only [List.map_map] at hmem
      exact this hmem (List.mem_cons_self _ _)
    have hidx : ColIdx p.1.Label ((pre ++ p :: post).map (fun q => q.1) ++ [s])
        = some pre.length := by
      have := ColIdx_at (pre.map (fun q => q.1)) p.1 (post.map (fun q => q.1) ++ [s]) hlabel
      simpa using this
    have hfit := htyped p (List.mem_cons_self _ _)
    have happ : TableBuilder.AppendValue
        { key := k0, cols := (pre ++ p :: post).map (fun q => q.1) ++ [s],
          data := pre.map (fun q => List.replicate (n + 1) q.2)
            ++ ((p :: post).map (fun q => List.replicate n q.2) ++ [strs]) } pre.length p.2
        = ({ key := k0, cols := (pre ++ p :: post).map (fun q => q.1) ++ [s],
             data := (pre ++ [p]).map (fun q => List.replicate (n + 1) q.2)
               ++ (post.map (fun q => List.replicate n q.2) ++ [strs]) }, none) := by
      have hcol : ((pre ++ p :: post).map (fun q => q.1) ++ [s])[pre.length]? = some p.1 := by
        rw [List.map_append, List.append_assoc, List.getElem?_append_right (by simp)]
        simp
      have hdat : (pre.map (fun q => List.replicate (n + 1) q.2)
          ++ ((p :: post).map (fun q => List.replicate n q.2) ++ [strs]))[pre.length]?
          = some (List.replicate n p.2) := by
        rw [List.getElem?_append_right (by simp)]
        simp
      unfold TableBuilder.AppendValue
      simp only [hcol, hdat, hfit, if_true]
      have hset : (pre.map (fun q => List.replicate (n + 1) q.2)
            ++ ((p :: post).map (fun q => List.replicate n q.2) ++ [strs])).set pre.length
              (List.replicate n p.2 ++ [p.2])
          = (pre ++ [p]).map (fun q => List.replicate (n + 1) q.2)
            ++ (post.map (fun q => List.replicate n q.2) ++ [strs]) := by
        rw [List.set_append_right _ _ (by simp)]
        simp [List.replicate_succ']
      rw [hset]
    simp only [List.foldl_cons, hidx, happ]
    have := ih (pre ++ [p]) (by simpa using hnd)
      (fun q hq => htyped q (List.mem_cons_of_mem _ hq))
    simpa using this

/-- One `AppendKeyValues` on a builder that holds the key columns, each with `n` copies of
its key value, and one more column: every key column gets one more copy. -/
theorem AppendKeyValues_row (key k0 : GroupKey) (s : ColMeta) (strs : List Value) (n : Nat)
    (hnd : (key.Cols.map (fun c => c.Label)).Nodup)
    (htyped : ∀ p ∈ key.pairs, p.2 = Value.null ∨ p.2.colType = some p.1.Typ) :
    AppendKeyValues key
        { key := k0, cols := key.Cols ++ [s],
          data := key.pairs.map (fun p => List.replicate n p.2) ++ [strs] }
      = ({ key := k0, cols := key.Cols ++ [s],
           data := key.pairs.map (fun p => List.replicate (n + 1) p.2) ++ [strs] }, none) := by
  have h := AppendKeyValues_foldl k0 s strs n key.pairs []
    (by simpa [GroupKey.Cols, List.map_map, Function.comp] using hnd) htyped
  simpa [AppendKeyValues, GroupKey.Cols] using h

/-- The loop of `Process`: `n` times `AppendKeyValues` gives `n` more copies of every key
value. -/
theorem appendKeyValuesTimes_rows (key k0 : GroupKey) (s : ColMeta) (strs : List Value)
    (hnd : (key.Cols.map (fun c => c.Label)).Nodup)
    (htyped : ∀ p ∈ key.pairs, p.2 = Value.null ∨ p.2.colType = some p.1.Typ) (n : Nat) :
    ∀ k : Nat, appendKeyValuesTimes key n
        { key := k0, cols := key.Cols ++ [s],
          data := key.pairs.map (fun p => List.replicate k p.2) ++ [strs] }
      = ({ key := k0, cols := key.Cols ++ [s],
           data := key.pairs.map (fun p => List.replicate (k + n) p.2) ++ [strs] }, none) := by
  induction n with
  | zero => intro k; simp [appendKeyValuesTimes]
  | succ n ih =>
    intro k
    unfold appendKeyValuesTimes
    rw [AppendKeyValues_row key k0 s strs k hnd htyped]
    dsimp only
    rw [ih (k + 1)]
    have : k + 1 + n = k + (n + 1) := by omega
    rw [this]

/-- What `Process` does to the fresh builder of a key, step by step: the key columns, the
string column, one row per key column, the labels. -/
theorem keys_builder_steps (key : GroupKey) (column : String)
    (hcol : column ∉ key.Cols.map (fun c => c.Label))
    (hnd : (key.Cols.map (fun c => c.Label)).Nodup)
    (htyped : ∀ p ∈ key.pairs, p.2 = Value.null ∨ p.2.colType = some p.1.Typ) :
    ∃ b1 b2 b3,
      AddTableKeyCols key { key := key, cols := [], data := [] } = (b1, none) ∧
      b1.AddCol { Label := column, Typ := ColType.TString } = (b2, key.Cols.length, none) ∧
      appendKeyValuesTimes key (key.Cols.map (fun c => c.Label)).length b2 = (b3, none) ∧
      b3.AppendStrings key.Cols.length (key.Cols.map (fun c => c.Label))
        = (keysOutputSpec key column, none) := by
  refine ⟨{ key := key, cols := key.Cols, data := key.Cols.map (fun _ => []) },
    { key := key, cols := key.Cols ++ [{ Label := column, Typ := ColType.TString }],
      data := key.pairs.map (fun p => List.replicate 0 p.2) ++ [[]] },
    { key := key, cols := key.Cols ++ [{ Label := column, Typ := ColType.TString }],
      data := key.pairs.map (fun p => List.replicate (0 + key.Cols.length) p.2) ++ [[]] },
    ?_, ?_, ?_, ?_⟩
  · have h := AddTableKeyCols_foldl key.Cols { key := key, cols := [], data := [] }
      (by simpa using hnd) (by simp)
    simpa [AddTableKeyCols] using h
  · unfold TableBuilder.AddCol
    have hidx : ColIdx column key.Cols = none := ColIdx_none column key.Cols hcol
    have hrows : TableBuilder.NRows
        { key := key, cols := key.Cols, data := key.Cols.map (fun _ => []) } = 0 :=
      NRows_of_empty_cols _ (by simp) rfl
    simp only [hidx, hrows]
    simp [GroupKey.Cols, Function.comp_def]
  · have h := appendKeyValuesTimes_rows key key { Label := column, Typ := ColType.TString } []
      hnd htyped key.Cols.length 0
    simpa using h
  · unfold TableBuilder.AppendStrings
    have hc : (key.Cols ++ [{ Label := column, Typ := ColType.TString }])[key.Cols.length]?
        = some { Label := column, Typ := ColType.TString } := by
      rw [List.getElem?_append_right (by simp)]
      simp
    have hd : (key.pairs.map (fun p => List.replicate (0 + key.Cols.length) p.2)
        ++ [([] : List Value)])[key.Cols.length]? = some [] := by
      rw [List.getElem?_append_right (by simp [GroupKey.Cols])]
      simp [GroupKey.Cols]
    simp only [hc, hd, if_true]
    have hs : (key.pairs.map (fun p => List.replicate (0 + key.Cols.length) p.2)
          ++ [([] : List Value)]).set key.Cols.length
            ([] ++ (key.Cols.map (fun c => c.Label)).map Value.string)
        = key.pairs.map (fun p => List.replicate key.Cols.length p.2)
          ++ [(key.Cols.map (fun c => c.Label)).map Value.string] := by
      rw [List.set_append_right _ _ (by simp [GroupKey.Cols])]
      simp [GroupKey.Cols]
    rw [hs]
    rfl

/-- The cache after `TableBuilder(key)` for a new key and the changes made through the
builder: the old entries and the changed builder at the end. -/
theorem store_new (c : TableBuilderCache) (key : GroupKey) (b : TableBuilder)
    (h : key ∉ c.keys) :
    c.TableBuilder key
        = (⟨c.tables ++ [(key, { key := key, cols := [], data := [] })]⟩,
           { key := key, cols := [], data := [] }, true) ∧
      (TableBuilderCache.store ⟨c.tables ++ [(key, { key := key, cols := [], data := [] })]⟩
        key b).tables = c.tables ++ [(key, b)] := by
  constructor
  · unfold TableBuilderCache.TableBuilder
    rw [(lookup_eq_none_iff c key).mpr h]
  · simp only [TableBuilderCache.store, List.map_append, List.map_cons, List.map_nil, if_true]
    congr 1
    conv_rhs => rw [← List.map_id c.tables]
    apply List.map_congr_left
    intro p hp
    have : p.1 ≠ key := fun e => h (by
      simp only [TableBuilderCache.keys, List.mem_map]
      exact ⟨p, hp, e⟩)
    simp [this]

/-- A consumer that does nothing and never fails runs over all batches without error. -/
theorem doBatches_noop (batches : List ColReader) :
    doBatches (fun (_ : Unit) (_ : ColReader) => ((), none)) () batches = ((), none) := by
  induction batches with
  | nil => rfl
  | cons cr rest ih => simp [doBatches, ih]

/-- Every column of the output table that the specification describes has one value per
key column. -/
theorem keysOutputSpec_lengths (key : GroupKey) (column : String) :
    ∀ col ∈ (keysOutputSpec key column).data, col.length = key.Cols.length := by
  intro col hcol
  simp only [keysOutputSpec, List.mem_append, List.mem_map, List.mem_singleton] at hcol
  rcases hcol with ⟨p, _, rfl⟩ | rfl
  · simp
  · simp

/-- Claim C29: for a table that has not been consumed, whose group key is new to the cache, has distinct
labels, none of them the output column name, and values of the types of its columns,
`Process` of `keys` returns no error and adds one table to the cache, under the key of the
input: its columns are the key columns followed by a string column with the name of the
`column` setting; every column has exactly m values, m the number of key columns; key
column j holds the value of key column j in every row and the string column holds the
labels of the key in key order; there are zero rows when the key is empty. The output does
not depend on the columns and rows of the input, the dataset is left as it was, and the
input table is consumed: it is done afterwards, with no batch left. -/
theorem C29_keys_output_table (t : keysTransformation) (id : DatasetID) (tbl : Table)
    (hnew : tbl.Key ∉ t.cache.keys)
    (hcol : t.column ∉ tbl.Key.Cols.map (fun c => c.Label))
    (hnd : (tbl.Key.Cols.map (fun c => c.Label)).Nodup)
    (htyped : ∀ p ∈ tbl.Key.pairs, p.2 = Value.null ∨ p.2.colType = some p.1.Typ)
    (hfresh : tbl.IsDone = false) :
    (t.Process id tbl).2.2 = none ∧
    (t.Process id tbl).1.cache.tables
      = t.cache.tables ++ [(tbl.Key, keysOutputSpec tbl.Key t.column)] ∧
    (t.Process id tbl).1.d = t.d ∧
    (t.Process id tbl).2.1 = tbl.Done ∧
    (t.Process id tbl).2.1.IsDone = true ∧
    (keysOutputSpec tbl.Key t.column).key = tbl.Key ∧
    (keysOutputSpec tbl.Key t.column).Cols
      = tbl.Key.Cols ++ [{ Label := t.column, Typ := ColType.TString }] ∧
    (∀ col ∈ (keysOutputSpec tbl.Key t.column).data, col.length = tbl.Key.Cols.length) ∧
    (∀ (j : Nat) (p : ColMeta × Value), tbl.Key.pairs[j]? = some p →
      (keysOutputSpec tbl.Key t.column).Cols[j]? = some p.1 ∧
      (keysOutputSpec tbl.Key t.column).data[j]?
        = some (List.replicate tbl.Key.Cols.length p.2)) ∧
    (keysOutputSpec tbl.Key t.column).data[tbl.Key.Cols.length]?
      = some ((tbl.Key.Cols.map (fun c => c.Label)).map Value.string) ∧
    (tbl.Key.pairs = [] → (keysOutputSpec tbl.Key t.column).NRows = 0) := by
  obtain ⟨hTB, hstore⟩ := store_new t.cache tbl.Key (keysOutputSpec tbl.Key t.column) hnew
  obtain ⟨b1, b2, b3, h1, h2, h3, h4⟩ := keys_builder_steps tbl.Key t.column hcol hnd htyped
  have hdone : tbl.done = false := hfresh
  have hP : t.Process id tbl
      = ({ t with cache := (TableBuilderCache.store
            ⟨t.cache.tables ++ [(tbl.Key, { key := tbl.Key, cols := [], data := [] })]⟩
            tbl.Key (keysOutputSpec tbl.Key t.column)) }, tbl.Done, none) := by
    unfold keysTransformation.Process
    rw [hTB]
    dsimp only
    rw [h1]
    dsimp only
    rw [h2]
    dsimp only
    rw [h3]
    dsimp only
    rw [h4]
    simp [Table.Do, hdone, doBatches_noop]
  rw [hP]
  refine ⟨rfl, hstore, rfl, rfl, rfl, rfl, rfl, keysOutputSpec_lengths _ _, ?_, ?_, ?_⟩
  · intro j p hj
    have hlt : j < tbl.Key.pairs.length := by
      by_contra hge
      rw [List.getElem?_eq_none (by omega)] at hj
      exact Option.noConfusion hj
    constructor
    · simp only [keysOutputSpec, TableBuilder.Cols, GroupKey.Cols]
      rw [List.getElem?_append_left (by simpa using hlt)]
      simp [hj]
    · simp only [keysOutputSpec]
      rw [List.getElem?_append_left (by simpa using hlt)]
      simp [hj]
  · simp only [keysOutputSpec]
    rw [List.getElem?_append_right (by simp [GroupKey.Cols])]
    simp [GroupKey.Cols]
  · intro hempty
    simp [keysOutputSpec, TableBuilder.NRows, GroupKey.Cols, hempty]

theorem C29_keys_output_table_witness :
    (NewKeysTransformation exampleDataset NewTableBuilderCache ⟨"_value"⟩).Process 0
        exampleTable
      = ({ d := exampleDataset
           cache := ⟨[(exampleKey,
             { key := exampleKey
               cols := [⟨"t0", .TString⟩, ⟨"_value", .TString⟩]
               data := [[.string "a"], [.string "t0"]] })]⟩
           column := "_value" }, exampleTable.Done, none) ∧
    ((NewKeysTransformation exampleDataset NewTableBuilderCache ⟨"_value"⟩).Process 0
        exampleTable).1.cache.tables
      = [] ++ [(exampleKey, keysOutputSpec exampleKey "_value")] :=
  ⟨by decide,
   (C29_keys_output_table (NewKeysTransformation exampleDataset NewTableBuilderCache ⟨"_value"⟩)
     0 exampleTable (by decide) (by decide) (by decide) (by decide) (by decide)).2.1⟩

end Flux
